import Mathlib

/-!
# archon: PRS codec and PSO keystream ciphers

A shallow embedding of `src/libarchon/prs/prs.c`, `libtethealla/encryption/psopc-crypt.c`
and `server/encryption/psogc-crypt.c`.

Memory model. The C routines walk raw pointers with no bounds checks, so a buffer is
embedded as the flat memory it lives in: a total function from an address (an index
relative to the pointer the caller passed) to the byte stored there. The bytes at
indices past the length the caller announced are the bytes that happen to follow the
buffer in memory; for the destination of the decompressor the index is an `Int`,
because a back reference can point below the start of the buffer. Bytes are naturals
below 256, 32-bit words are naturals below 2^32, and every store truncates explicitly.
-/

namespace Archon

/-- Byte memory addressed from the start of a buffer. -/
abbrev Mem := Nat → Nat

/-- Byte memory that can also be addressed below the start of a buffer. -/
abbrev IMem := Int → Nat

/-- The memory holding the bytes of `l` from address 0 on, and `fill` everywhere else. -/
def memOfList (l : List Nat) (fill : Nat) : Mem := fun i => l.getD i fill

/-- The memory holding the bytes of `l` from address 0 on, and `fill` everywhere else
(also below address 0). -/
def imemOfList (l : List Nat) (fill : Nat) : IMem :=
  fun i => if 0 ≤ i then l.getD i.toNat fill else fill

/-- The first `n` bytes of a memory, as a list. -/
def readBytes (m : Mem) (n : Nat) : List Nat := (List.range n).map m

/-- The first `n` bytes of a memory from address 0 on, as a list. -/
def readIBytes (m : IMem) (n : Nat) : List Nat := (List.range n).map (fun i => m (i : Int))

/-- A one-byte store `m[i] = v` (the value is truncated to a `u8`). -/
def store (m : Mem) (i : Nat) (v : Nat) : Mem := fun j => if j = i then v % 256 else m j

/-- A one-byte store `m[i] = v` into an `Int`-addressed memory. -/
def istore (m : IMem) (i : Int) (v : Nat) : IMem := fun j => if j = i then v % 256 else m j

/-- The low eight bits of a two's-complement `int`, i.e. the conversion of `v` to `u8`. -/
def low8 (v : Int) : Nat := (v % 256).toNat

/-! ## PRS compressor (`prs.c`, lines 22-193) -/

/-- The struct `PRS_COMPRESSOR`. Pointers are indices: `srcptr` into the source memory,
`controlbyteptr` and `dstptr` into the destination memory `dst`, which is carried along
with the struct. -/
structure PRS_COMPRESSOR where
  bitpos : Nat
  controlbyteptr : Nat
  srcptr_orig : Nat
  dstptr_orig : Nat
  srcptr : Nat
  dstptr : Nat
  dst : Mem

/-- The two statements `*cb = *cb >> 1; *cb |= ((!!bit) << 7);`. -/
def shift_in_bit (cb : Nat) (bit : Nat) : Nat :=
  ((cb >>> 1) ||| ((if bit = 0 then 0 else 1) <<< 7)) % 256

/-- The function `prs_put_control_save`: open a new control byte once eight bits are in. -/
def prs_put_control_save (pc : PRS_COMPRESSOR) : PRS_COMPRESSOR :=
  if pc.bitpos ≥ 8 then
    { pc with bitpos := 0, controlbyteptr := pc.dstptr, dstptr := pc.dstptr + 1 }
  else pc

/-- The function `prs_put_control_bit_nosave` of the source. -/
def prs_put_control_bit_nosave (pc : PRS_COMPRESSOR) (bit : Nat) : PRS_COMPRESSOR :=
  { pc with
    dst := store pc.dst pc.controlbyteptr (shift_in_bit (pc.dst pc.controlbyteptr) bit),
    bitpos := pc.bitpos + 1 }

/-- The function `prs_put_control_bit`: the same statements as
`prs_put_control_bit_nosave` followed by those of `prs_put_control_save`. -/
def prs_put_control_bit (pc : PRS_COMPRESSOR) (bit : Nat) : PRS_COMPRESSOR :=
  prs_put_control_save (prs_put_control_bit_nosave pc bit)

/-- The function `prs_put_static_data` of the source. -/
def prs_put_static_data (pc : PRS_COMPRESSOR) (data : Nat) : PRS_COMPRESSOR :=
  { pc with dst := store pc.dst pc.dstptr data, dstptr := pc.dstptr + 1 }

/-- The function `prs_get_static_data`: the byte read and the advanced compressor. -/
def prs_get_static_data (src : Mem) (pc : PRS_COMPRESSOR) : Nat × PRS_COMPRESSOR :=
  (src pc.srcptr, { pc with srcptr := pc.srcptr + 1 })

/-- The function `prs_init`; `dst` is the destination memory as the caller hands it over. -/
def prs_init (dst : Mem) : PRS_COMPRESSOR :=
  { bitpos := 0, srcptr := 0, srcptr_orig := 0, dstptr := 1, dstptr_orig := 0,
    controlbyteptr := 0, dst := dst }

/-- The function `prs_finish` of the source. -/
def prs_finish (pc : PRS_COMPRESSOR) : PRS_COMPRESSOR :=
  let pc := prs_put_control_bit pc 0
  let pc := prs_put_control_bit pc 1
  let pc :=
    if pc.bitpos ≠ 0 then
      { pc with dst := store pc.dst pc.controlbyteptr
                  (((pc.dst pc.controlbyteptr) <<< pc.bitpos) >>> 8) }
    else pc
  let pc := prs_put_static_data pc 0
  prs_put_static_data pc 0

/-- The function `prs_rawbyte` of the source. -/
def prs_rawbyte (src : Mem) (pc : PRS_COMPRESSOR) : PRS_COMPRESSOR :=
  let pc := prs_put_control_bit_nosave pc 1
  let r := prs_get_static_data src pc
  let pc := prs_put_static_data r.2 r.1
  prs_put_control_save pc

/-- The function `prs_shortcopy`; `size` is a `u8`, so `size -= 2` wraps modulo 256. -/
def prs_shortcopy (pc : PRS_COMPRESSOR) (offset : Int) (size : Nat) : PRS_COMPRESSOR :=
  let size := (size + 254) % 256
  let pc := prs_put_control_bit pc 0
  let pc := prs_put_control_bit pc 0
  let pc := prs_put_control_bit pc ((size >>> 1) &&& 1)
  let pc := prs_put_control_bit_nosave pc (size &&& 1)
  let pc := prs_put_static_data pc (low8 offset &&& 0xFF)
  prs_put_control_save pc

/-- The function `prs_longcopy`. The `int` expressions are taken in two's complement:
`offset << 3` is `offset * 8`, `offset >> 5` is the floor of `offset / 32`, and the masks
act on the low eight bits. -/
def prs_longcopy (pc : PRS_COMPRESSOR) (offset : Int) (size : Nat) : PRS_COMPRESSOR :=
  if size ≤ 9 then
    let pc := prs_put_control_bit pc 0
    let pc := prs_put_control_bit_nosave pc 1
    let pc := prs_put_static_data pc
      ((low8 (offset * 8) &&& 0xF8) ||| (low8 ((size : Int) - 2) &&& 0x07))
    let pc := prs_put_static_data pc (low8 (offset / 32) &&& 0xFF)
    prs_put_control_save pc
  else
    let pc := prs_put_control_bit pc 0
    let pc := prs_put_control_bit_nosave pc 1
    let pc := prs_put_static_data pc (low8 (offset * 8) &&& 0xF8)
    let pc := prs_put_static_data pc (low8 (offset / 32) &&& 0xFF)
    let pc := prs_put_static_data pc (size - 1)
    prs_put_control_save pc

/-- The function `prs_copy`; `size` is a `u8` parameter, so the argument is taken modulo 256. -/
def prs_copy (pc : PRS_COMPRESSOR) (offset : Int) (size : Nat) : PRS_COMPRESSOR :=
  let size := size % 256
  let pc := if offset > -0x100 ∧ size ≤ 5 then prs_shortcopy pc offset size
            else prs_longcopy pc offset size
  { pc with srcptr := pc.srcptr + size }

/-- The test `!memcmp(src + a, src + b, n)`: the `n` bytes at `a` equal the `n` bytes at
`b`. The comparison reads the source memory wherever the two ranges lie, also past the
announced size. -/
def memcmp_eq (src : Mem) (a b n : Nat) : Bool :=
  (List.range n).all (fun i => src (a + i) == src (b + i))

/-- The `do xsize++; while (...)` loop of `prs_compress`, entered with the current
`xsize`; the result is `xsize` on leaving the loop (before the `xsize--`). The loop
condition holds `xsize < 256`, so from `xsize = 3` it runs at most 253 times and the
first argument, a bound on the number of iterations, is never exhausted from 253. -/
def match_extend (src : Mem) (size x y : Nat) : Nat → Nat → Nat
  | 0, xsize => xsize + 1
  | n + 1, xsize =>
    if memcmp_eq src y x (xsize + 1) && decide (xsize + 1 < 256)
        && decide (y + (xsize + 1) < x) && decide (x + (xsize + 1) ≤ size) then
      match_extend src size x y n (xsize + 1)
    else xsize + 1

/-- The length of the match the compressor finds for the candidate `y` at position `x`:
the value of `xsize` after the `do`/`while` loop and `xsize--` when the three-byte
`memcmp` succeeds, and 0 when it fails (the candidate is no match). -/
def match_size (src : Mem) (size x y : Nat) : Nat :=
  if memcmp_eq src y x 3 then match_extend src size x y 253 3 - 1 else 0

/-- The `for (y = x - 3; (y > 0) && (y > (x - 0x1FF0)) && (xsize < 255); y--)` loop of
`prs_compress`, from the candidate `y` downwards, with the current `xsize`, `lsoffset`
and `lssize`; the result is `(lsoffset, lssize)` on leaving the loop. -/
def search_loop (src : Mem) (size x : Nat) : Nat → Nat → Int → Nat → Int × Nat
  | 0, _, lsoffset, lssize => (lsoffset, lssize)
  | y + 1, xsize, lsoffset, lssize =>
    if (x : Int) - 0x1FF0 < ((y + 1 : Nat) : Int) ∧ xsize < 255 then
      if memcmp_eq src (y + 1) x 3 then
        let xsize := match_extend src size x (y + 1) 253 3 - 1
        if xsize > lssize then
          search_loop src size x y xsize (-((x : Int) - ((y + 1 : Nat) : Int))) xsize
        else search_loop src size x y xsize lsoffset lssize
      else search_loop src size x y 3 lsoffset lssize
    else (lsoffset, lssize)

/-- The match search `prs_compress` runs at position `x`: `lsoffset = lssize = xsize = 0`
and then the `y` loop from `y = x - 3`. For `x < 3` the C loop is not entered (`y > 0`
fails), which the truncated subtraction reproduces. -/
def prs_search (src : Mem) (size x : Nat) : Int × Nat :=
  search_loop src size x (x - 3) 0 0 0

/-- The `for (x = 0; x < size; x++)` loop of `prs_compress` from position `x`. Every
iteration advances `x` by at least one, so `size` iterations always suffice; the first
argument bounds the number of iterations. `x` and `y` are `int`s compared with the `u32`
size; they are held as naturals, which is exact for sizes below 2^31. -/
def compress_loop (src : Mem) (size : Nat) : Nat → Nat → PRS_COMPRESSOR → PRS_COMPRESSOR
  | 0, _, pc => pc
  | n + 1, x, pc =>
    if x < size then
      let r := prs_search src size x
      if r.2 = 0 then compress_loop src size n (x + 1) (prs_rawbyte src pc)
      else compress_loop src size n (x + (r.2 - 1) + 1) (prs_copy pc r.1 r.2)
    else pc

/-- The function `prs_compress(source, dest, size)`: the returned `u32` and the
destination memory after the call. `src` is the memory at `source` (its first `size`
bytes are the buffer), `dst` the memory at `dest` before the call. -/
def prs_compress (src : Mem) (dst : Mem) (size : Nat) : Nat × Mem :=
  let pc := prs_finish (compress_loop src size size 0 (prs_init dst))
  ((pc.dstptr - pc.dstptr_orig) % 4294967296, pc.dst)

/-- The bytes `prs_compress` reports as its output: the first `n` bytes of the
destination, `n` the returned size. -/
def prs_compress_bytes (src : Mem) (dst : Mem) (size : Nat) : List Nat :=
  readBytes (prs_compress src dst size).2 (prs_compress src dst size).1

/-! ## PRS decompressor and size probe (`prs.c`, lines 197-381) -/

/-- The locals of `prs_decompress` that live across loop iterations, with the
destination memory. `sourceptr` indexes the source memory and `destptr` the destination
(both relative to the pointers passed in, so `sourceptr_orig = destptr_orig = 0`). -/
structure PRS_DECOMPRESSOR where
  bitpos : Nat
  sourceptr : Nat
  destptr : Nat
  currentbyte : Nat
  dest : IMem

/-- The control-bit read that `prs_decompress` spells out three times:
`bitpos--; if (bitpos == 0) { currentbyte = sourceptr[0]; bitpos = 8; sourceptr++; }
flag = currentbyte & 1; currentbyte = currentbyte >> 1;`. The result is `flag` and the
updated locals; `bitpos` is a `u32`. -/
def read_control_bit (src : Mem) (s : PRS_DECOMPRESSOR) : Nat × PRS_DECOMPRESSOR :=
  let bitpos := if s.bitpos = 0 then 4294967295 else s.bitpos - 1
  let s :=
    if bitpos = 0 then
      { s with currentbyte := src s.sourceptr % 256, bitpos := 8, sourceptr := s.sourceptr + 1 }
    else { s with bitpos := bitpos }
  (s.currentbyte &&& 1, { s with currentbyte := s.currentbyte >>> 1 })

/-- The conversion of a 32-bit pattern to `int32_t`. -/
def toInt32 (v : Nat) : Int :=
  if v % 4294967296 < 2147483648 then ((v % 4294967296 : Nat) : Int)
  else ((v % 4294967296 : Nat) : Int) - 4294967296

/-- The copy loop `for (x = 0; x < t; x++) { *destptr++ = *ptr_reg++; r3++; }`: `t`
iterations from the given `destptr` and `ptr_reg`; the result is the memory and `destptr`
after the loop. -/
def copy_loop : Nat → IMem → Nat → Int → IMem × Nat
  | 0, dest, destptr, _ => (dest, destptr)
  | t + 1, dest, destptr, ptr_reg =>
    copy_loop t (istore dest (destptr : Int) (dest ptr_reg)) (destptr + 1) (ptr_reg + 1)

/-- What one pass through the body of `for (;;)` ends in: the `return` statement, with
the value returned and the locals at that point, or the next iteration. -/
inductive PRS_STEP (σ : Type) where
  | done (ret : Nat) (s : σ)
  | next (s : σ)

/-- The long-form branch of `prs_decompress` (second control bit set): the 16-bit field,
the `return` when it is zero, otherwise the length, `ptr_reg` and the copy loop. The
statement `if (r3 == 0) continue;` before the copy loop needs no case of its own: with
`r3 = 0` the loop runs zero times and the next pass follows. -/
def prs_decompress_long (src : Mem) (s : PRS_DECOMPRESSOR) : PRS_STEP PRS_DECOMPRESSOR :=
  let r3 := (src s.sourceptr % 256) &&& 0xFF
  let offset := (((src (s.sourceptr + 1) % 256) &&& 0xFF) <<< 8) ||| r3
  let s := { s with sourceptr := s.sourceptr + 2 }
  if offset = 0 then .done (s.destptr % 4294967296) s
  else
    let r3 := r3 &&& 0x00000007
    let ptr_reg : Int := (s.destptr : Int) + toInt32 ((offset >>> 3) ||| 0xFFFFE000)
    let r3s : Nat × PRS_DECOMPRESSOR :=
      if r3 = 0 then
        (((src s.sourceptr % 256) &&& 0xFF) + 1, { s with sourceptr := s.sourceptr + 1 })
      else (r3 + 2, s)
    let s := r3s.2
    let c := copy_loop r3s.1 s.dest s.destptr ptr_reg
    .next { s with dest := c.1, destptr := c.2 }

/-- The short-form branch of `prs_decompress` (second control bit clear): two more
control bits for the length, one distance byte, and the copy loop. -/
def prs_decompress_short (src : Mem) (s : PRS_DECOMPRESSOR) : PRS_STEP PRS_DECOMPRESSOR :=
  let r1 := read_control_bit src s
  let r3 := (0 <<< 1) ||| r1.1
  let r2 := read_control_bit src r1.2
  let r3 := (r3 <<< 1) ||| r2.1
  let s := r2.2
  let offset := toInt32 ((src s.sourceptr % 256) ||| 0xFFFFFF00)
  let r3 := r3 + 2
  let s := { s with sourceptr := s.sourceptr + 1 }
  let ptr_reg : Int := (s.destptr : Int) + offset
  let c := copy_loop r3 s.dest s.destptr ptr_reg
  .next { s with dest := c.1, destptr := c.2 }

/-- One pass through the body of the `for (;;)` loop of `prs_decompress`. -/
def prs_decompress_step (src : Mem) (s : PRS_DECOMPRESSOR) : PRS_STEP PRS_DECOMPRESSOR :=
  let r := read_control_bit src s
  let s := r.2
  if r.1 ≠ 0 then
    .next { s with dest := istore s.dest (s.destptr : Int) (src s.sourceptr),
                   sourceptr := s.sourceptr + 1, destptr := s.destptr + 1 }
  else
    let r := read_control_bit src s
    if r.1 ≠ 0 then prs_decompress_long src r.2 else prs_decompress_short src r.2

/-- The `for (;;)` loop of `prs_decompress`, for at most `fuel` passes: the value
returned with the locals at the `return`, or `none` when the loop is still running
after `fuel` passes. -/
def prs_decompress_loop (src : Mem) : Nat → PRS_DECOMPRESSOR → Option (Nat × PRS_DECOMPRESSOR)
  | 0, _ => none
  | fuel + 1, s =>
    match prs_decompress_step src s with
    | .done ret s => some (ret, s)
    | .next s => prs_decompress_loop src fuel s

/-- The locals of `prs_decompress` on entering the loop: `bitpos = 9`,
`currentbyte = sourceptr[0]`, `sourceptr++`. -/
def prs_decompress_init (src : Mem) (dest : IMem) : PRS_DECOMPRESSOR :=
  { bitpos := 9, sourceptr := 1, destptr := 0, currentbyte := src 0 % 256, dest := dest }

/-- The function `prs_decompress(source, dest)` run for at most `fuel` loop passes: the
returned `u32` and the locals (with the destination memory) at the `return`. `src` is
the memory at `source`, `dest` the memory around `dest` before the call. -/
def prs_decompress (fuel : Nat) (src : Mem) (dest : IMem) : Option (Nat × PRS_DECOMPRESSOR) :=
  prs_decompress_loop src fuel (prs_decompress_init src dest)

/-- The locals of `prs_decompress_size` that live across loop iterations; `destptr`
starts from `NULL` and only counts. -/
structure PRS_SIZE_PROBE where
  bitpos : Nat
  sourceptr : Nat
  destptr : Nat
  currentbyte : Nat

/-- The control-bit read of `prs_decompress_size` (it also sets `lastbyte`, which is
never read). -/
def size_read_control_bit (src : Mem) (s : PRS_SIZE_PROBE) : Nat × PRS_SIZE_PROBE :=
  let bitpos := if s.bitpos = 0 then 4294967295 else s.bitpos - 1
  let s :=
    if bitpos = 0 then
      { s with currentbyte := src s.sourceptr % 256, bitpos := 8, sourceptr := s.sourceptr + 1 }
    else { s with bitpos := bitpos }
  (s.currentbyte &&& 1, { s with currentbyte := s.currentbyte >>> 1 })

/-- The counting loop `for (x = 0; x < t; x++) { ptr_reg++; r3++; destptr++; }`: the
value of `destptr` after `t` iterations. -/
def size_copy_loop : Nat → Nat → Nat
  | 0, destptr => destptr
  | t + 1, destptr => size_copy_loop t (destptr + 1)

/-- The long-form branch of `prs_decompress_size`. -/
def prs_decompress_size_long (src : Mem) (s : PRS_SIZE_PROBE) : PRS_STEP PRS_SIZE_PROBE :=
  let r3 := src s.sourceptr % 256
  let offset := ((src (s.sourceptr + 1) % 256) <<< 8) ||| r3
  let s := { s with sourceptr := s.sourceptr + 2 }
  if offset = 0 then .done (s.destptr % 4294967296) s
  else
    let r3 := r3 &&& 0x00000007
    let r3s : Nat × PRS_SIZE_PROBE :=
      if r3 = 0 then (src s.sourceptr % 256 + 1, { s with sourceptr := s.sourceptr + 1 })
      else (r3 + 2, s)
    let s := r3s.2
    .next { s with destptr := size_copy_loop r3s.1 s.destptr }

/-- The short-form branch of `prs_decompress_size`. -/
def prs_decompress_size_short (src : Mem) (s : PRS_SIZE_PROBE) : PRS_STEP PRS_SIZE_PROBE :=
  let r1 := size_read_control_bit src s
  let r3 := (0 <<< 1) ||| r1.1
  let r2 := size_read_control_bit src r1.2
  let r3 := (r3 <<< 1) ||| r2.1
  let s := r2.2
  let r3 := r3 + 2
  let s := { s with sourceptr := s.sourceptr + 1 }
  .next { s with destptr := size_copy_loop r3 s.destptr }

/-- One pass through the body of the `for (;;)` loop of `prs_decompress_size`. -/
def prs_decompress_size_step (src : Mem) (s : PRS_SIZE_PROBE) : PRS_STEP PRS_SIZE_PROBE :=
  let r := size_read_control_bit src s
  let s := r.2
  if r.1 ≠ 0 then
    .next { s with sourceptr := s.sourceptr + 1, destptr := s.destptr + 1 }
  else
    let r := size_read_control_bit src s
    if r.1 ≠ 0 then prs_decompress_size_long src r.2 else prs_decompress_size_short src r.2

/-- The `for (;;)` loop of `prs_decompress_size`, for at most `fuel` passes. -/
def prs_decompress_size_loop (src : Mem) : Nat → PRS_SIZE_PROBE → Option (Nat × PRS_SIZE_PROBE)
  | 0, _ => none
  | fuel + 1, s =>
    match prs_decompress_size_step src s with
    | .done ret s => some (ret, s)
    | .next s => prs_decompress_size_loop src fuel s

/-- The function `prs_decompress_size(source)` run for at most `fuel` loop passes: the
returned `u32` and the locals at the `return`. -/
def prs_decompress_size (fuel : Nat) (src : Mem) : Option (Nat × PRS_SIZE_PROBE) :=
  prs_decompress_size_loop src fuel
    { bitpos := 9, sourceptr := 1, destptr := 0, currentbyte := src 0 % 256 }

/-- The value `prs_decompress` returns and the bytes it leaves at the start of the
destination, when it returns within `fuel` passes. -/
def prs_decompress_bytes (fuel : Nat) (src : Mem) (dest : IMem) : Option (Nat × List Nat) :=
  (prs_decompress fuel src dest).map (fun r => (r.1, readIBytes r.2.dest r.1))

/-! ## Keystream ciphers (`encryption.h`, `psopc-crypt.c`, `psogc-crypt.c`) -/

/-- Word memory: the `uint32_t keys[1042]` array, addressed by word index. -/
abbrev Keys := Nat → Nat

/-- A one-word store `k[i] = v` (the value is truncated to a `uint32_t`). -/
def wstore (k : Keys) (i : Nat) (v : Nat) : Keys :=
  fun j => if j = i then v % 4294967296 else k j

/-- The `uint32_t` subtraction `a - b`. -/
def sub32 (a b : Nat) : Nat := (a + (4294967296 - b % 4294967296)) % 4294967296

/-- The struct `CRYPT_SETUP`. The two `uint32_t*` fields point into `keys` and are held
as word indices (`&keys[i]` is `i`). -/
structure CRYPT_SETUP where
  type : Nat
  keys : Keys
  pc_posn : Nat
  gc_block_ptr : Nat
  gc_block_end_ptr : Nat
  gc_seed : Nat
  bb_posn : Nat
  bb_seed : Nat → Nat

/-- The 32-bit word read by `*((uint32_t *)(data + a))` and passed through `LE32`: the
four bytes at `a` taken in little-endian order (on either host byte order). -/
def load32 (m : Mem) (a : Nat) : Nat :=
  m a % 256 + (m (a + 1) % 256) * 256 + (m (a + 2) % 256) * 65536 + (m (a + 3) % 256) * 16777216

/-- The store `*((uint32_t *)(data + a)) = LE32(w)`: the four bytes of `w` written in
little-endian order. -/
def store32 (m : Mem) (a : Nat) (w : Nat) : Mem :=
  store (store (store (store m a (w % 256)) (a + 1) (w / 256 % 256))
    (a + 2) (w / 65536 % 256)) (a + 3) (w / 16777216 % 256)

/-- The first `while (edx > 0)` loop of `CRYPT_PC_MixKeys`, with `edx` iterations left. -/
def pc_mix_loop1 : Nat → Nat → Keys → Keys
  | 0, _, k => k
  | edx + 1, eax, k =>
    let esi := k (eax + 0x1F)
    let ebp := k eax
    let ebp := sub32 ebp esi
    pc_mix_loop1 edx (eax + 1) (wstore k eax ebp)

/-- The second `while (edx > 0)` loop of `CRYPT_PC_MixKeys`, with `edx` iterations left. -/
def pc_mix_loop2 : Nat → Nat → Keys → Keys
  | 0, _, k => k
  | edx + 1, eax, k =>
    let esi := k (eax - 0x18)
    let ebp := k eax
    let ebp := sub32 ebp esi
    pc_mix_loop2 edx (eax + 1) (wstore k eax ebp)

/-- The function `CRYPT_PC_MixKeys` of the source. -/
def CRYPT_PC_MixKeys (pc : CRYPT_SETUP) : CRYPT_SETUP :=
  { pc with keys := pc_mix_loop2 0x1F 0x19 (pc_mix_loop1 0x18 1 pc.keys) }

/-- The `while (edi <= 0x46E)` loop of `CRYPT_PC_CreateKeys`; `edi` grows by `0x15` from
`0x15`, so the loop body runs 54 times and the first argument, a bound on the number of
passes, is never exhausted from 55. -/
def pc_create_loop : Nat → Nat → Nat → Nat → Keys → Keys
  | 0, _, _, _, k => k
  | n + 1, esi, ebx, edi, k =>
    if edi ≤ 0x46E then
      let eax := edi
      let var1 := eax / 55
      let edx := eax - var1 * 55
      let ebx := sub32 ebx esi
      let edi := edi + 0x15
      let k := wstore k edx esi
      let esi := ebx
      let ebx := k edx
      pc_create_loop n esi ebx edi k
    else k

/-- The function `CRYPT_PC_CreateKeys(pc, val)`; `pc` is the struct as the caller hands it over. -/
def CRYPT_PC_CreateKeys (pc : CRYPT_SETUP) (val : Nat) : CRYPT_SETUP :=
  let esi := 1
  let ebx := val
  let edi := 0x15
  let k := wstore pc.keys 56 ebx
  let k := wstore k 55 ebx
  let pc := { pc with keys := pc_create_loop 55 esi ebx edi k }
  let pc := CRYPT_PC_MixKeys pc
  let pc := CRYPT_PC_MixKeys pc
  let pc := CRYPT_PC_MixKeys pc
  let pc := CRYPT_PC_MixKeys pc
  { pc with pc_posn := 56 }

/-- The function `CRYPT_PC_GetNextKey`: the word returned and the context after the call. -/
def CRYPT_PC_GetNextKey (pc : CRYPT_SETUP) : Nat × CRYPT_SETUP :=
  let pc := if pc.pc_posn = 56 then { (CRYPT_PC_MixKeys pc) with pc_posn := 1 } else pc
  let re := pc.keys pc.pc_posn
  (re, { pc with pc_posn := (pc.pc_posn + 1) % 4294967296 })

/-- The `for (x = 0; x < size; x += 4)` loop of `CRYPT_PC_CryptData` from offset `x`. The
first argument bounds the number of passes (`size` always suffices). The counter `x` is
a `uint32_t`; it is held as a natural, which is exact for sizes up to `2^32 - 4`. -/
def pc_crypt_loop (size : Nat) : Nat → Nat → CRYPT_SETUP → Mem → CRYPT_SETUP × Mem
  | 0, _, pc, data => (pc, data)
  | n + 1, x, pc, data =>
    if x < size then
      let tmp := load32 data x
      let r := CRYPT_PC_GetNextKey pc
      let tmp := tmp ^^^ r.1
      pc_crypt_loop size n (x + 4) r.2 (store32 data x tmp)
    else (pc, data)

/-- The function `CRYPT_PC_CryptData(pc, data, size)`: the context and the data memory
after the call. -/
def CRYPT_PC_CryptData (pc : CRYPT_SETUP) (data : Mem) (size : Nat) : CRYPT_SETUP × Mem :=
  pc_crypt_loop size size 0 pc data

/-- The first `while (r6 != cs->gc_block_end_ptr)` loop of `CRYPT_GC_MixKeys`, with the
number of passes left until `r6` meets the end pointer. -/
def gc_mix_loop1 : Nat → Nat → Nat → Keys → Nat × Keys
  | 0, r5, _, k => (r5, k)
  | n + 1, r5, r6, k =>
    let r0 := k r6
    let r4 := k r5
    let r0 := r0 ^^^ r4
    gc_mix_loop1 n (r5 + 1) (r6 + 1) (wstore k r5 r0)

/-- The second `while (r5 != cs->gc_block_end_ptr)` loop of `CRYPT_GC_MixKeys`, with the
number of passes left until `r5` meets the end pointer. -/
def gc_mix_loop2 : Nat → Nat → Nat → Keys → Keys
  | 0, _, _, k => k
  | n + 1, r5, r7, k =>
    let r0 := k r7
    let r4 := k r5
    let r0 := r0 ^^^ r4
    gc_mix_loop2 n (r5 + 1) (r7 + 1) (wstore k r5 r0)

/-- The function `CRYPT_GC_MixKeys`. The loops run until a pointer equals
`gc_block_end_ptr`; they are entered with the distance to it as the pass count, which is
the C behaviour whenever the end pointer is not below `&keys[489]` (it is `&keys[521]`
in every context that `CRYPT_GC_CreateKeys` builds). -/
def CRYPT_GC_MixKeys (cs : CRYPT_SETUP) : CRYPT_SETUP :=
  let l1 := gc_mix_loop1 (cs.gc_block_end_ptr - 489) 0 489 cs.keys
  let k := gc_mix_loop2 (cs.gc_block_end_ptr - l1.1) l1.1 0 l1.2
  { cs with gc_block_ptr := 0, keys := k }

/-- The function `CRYPT_GC_GetNextKey`: the word returned and the context after the call. -/
def CRYPT_GC_GetNextKey (cs : CRYPT_SETUP) : Nat × CRYPT_SETUP :=
  let cs := { cs with gc_block_ptr := cs.gc_block_ptr + 1 }
  let cs := if cs.gc_block_ptr = cs.gc_block_end_ptr then CRYPT_GC_MixKeys cs else cs
  (cs.keys cs.gc_block_ptr, cs)

/-- One pass of the `for (y = 0; y < 32; y++)` loop of `CRYPT_GC_CreateKeys`: the new
`seed` and `basekey`. -/
def gc_base_round (seed basekey : Nat) : Nat × Nat :=
  let seed := (seed * 0x5D588B65) % 4294967296
  let basekey := basekey >>> 1
  let seed := (seed + 1) % 4294967296
  let basekey :=
    if seed &&& 0x80000000 ≠ 0 then basekey ||| 0x80000000 else basekey &&& 0x7FFFFFFF
  (seed, basekey)

/-- The `for (y = 0; y < 32; y++)` loop with the given number of passes left. -/
def gc_base_rounds : Nat → Nat → Nat → Nat × Nat
  | 0, seed, basekey => (seed, basekey)
  | n + 1, seed, basekey =>
    let r := gc_base_round seed basekey
    gc_base_rounds n r.1 r.2

/-- The `for (x = 0; x <= 16; x++)` loop of `CRYPT_GC_CreateKeys` with the given number
of passes left: `(keys, gc_block_ptr, seed, basekey)` after the loop. -/
def gc_base_words : Nat → Keys → Nat → Nat → Nat → Keys × Nat × Nat × Nat
  | 0, k, ptr, seed, basekey => (k, ptr, seed, basekey)
  | n + 1, k, ptr, seed, basekey =>
    let r := gc_base_rounds 32 seed basekey
    gc_base_words n (wstore k ptr r.2) (ptr + 1) r.1 r.2

/-- The `while (cs->gc_block_ptr != cs->gc_block_end_ptr)` loop of `CRYPT_GC_CreateKeys`
with the number of passes left until the pointer meets the end pointer. -/
def gc_fill_loop : Nat → Keys → Nat → Nat → Nat → Nat → Keys × Nat
  | 0, k, ptr, _, _, _ => (k, ptr)
  | n + 1, k, ptr, source1, source2, source3 =>
    let v := k source3 ^^^
      ((((k source1 <<< 23) % 4294967296) &&& 0xFF800000) ^^^ ((k source2 >>> 9) &&& 0x007FFFFF))
    gc_fill_loop n (wstore k ptr v) (ptr + 1) (source1 + 1) (source2 + 1) (source3 + 1)

/-- The function `CRYPT_GC_CreateKeys(cs, seed)` up to the point where the ring is
filled, before the three calls of `CRYPT_GC_MixKeys`. -/
def gc_create_fill (cs : CRYPT_SETUP) (seed : Nat) : CRYPT_SETUP :=
  let basekey := 0
  let cs := { cs with gc_seed := seed % 4294967296 }
  let cs := { cs with gc_block_end_ptr := 521 }
  let cs := { cs with gc_block_ptr := 0 }
  let b := gc_base_words 17 cs.keys cs.gc_block_ptr seed basekey
  let cs := { cs with keys := b.1, gc_block_ptr := b.2.1 }
  let source1 := 0
  let source2 := 1
  let cs := { cs with gc_block_ptr := cs.gc_block_ptr - 1 }
  let v := ((cs.keys 0 >>> 9) ^^^ ((cs.keys cs.gc_block_ptr <<< 23) % 4294967296)) ^^^ cs.keys 15
  let cs := { cs with keys := wstore cs.keys cs.gc_block_ptr v }
  let source3 := cs.gc_block_ptr
  let cs := { cs with gc_block_ptr := cs.gc_block_ptr + 1 }
  let f := gc_fill_loop (cs.gc_block_end_ptr - cs.gc_block_ptr) cs.keys cs.gc_block_ptr
    source1 source2 source3
  { cs with keys := f.1, gc_block_ptr := f.2 }

/-- The function `CRYPT_GC_CreateKeys(cs, seed)`; `cs` is the struct as the caller hands it over. -/
def CRYPT_GC_CreateKeys (cs : CRYPT_SETUP) (seed : Nat) : CRYPT_SETUP :=
  let cs := gc_create_fill cs seed
  let cs := CRYPT_GC_MixKeys cs
  let cs := CRYPT_GC_MixKeys cs
  let cs := CRYPT_GC_MixKeys cs
  { cs with gc_block_ptr := 520 }

/-- The `while (address_start < address_end)` loop of `CRYPT_GC_CryptData` from byte
offset `x` (`address_start = data + x`, `address_end = data + size`). The first argument
bounds the number of passes (`size` always suffices). -/
def gc_crypt_loop (size : Nat) : Nat → Nat → CRYPT_SETUP → Mem → CRYPT_SETUP × Mem
  | 0, _, c, data => (c, data)
  | n + 1, x, c, data =>
    if x < size then
      let r := CRYPT_GC_GetNextKey c
      let tmp := r.1
      gc_crypt_loop size n (x + 4) r.2 (store32 data x (load32 data x ^^^ tmp))
    else (c, data)

/-- The function `CRYPT_GC_CryptData(c, data, size)`: the context and the data memory
after the call. -/
def CRYPT_GC_CryptData (c : CRYPT_SETUP) (data : Mem) (size : Nat) : CRYPT_SETUP × Mem :=
  gc_crypt_loop size size 0 c data

/-- The first `n` words a context returns from `CRYPT_PC_GetNextKey`. -/
def pc_keystream : Nat → CRYPT_SETUP → List Nat
  | 0, _ => []
  | n + 1, pc => (CRYPT_PC_GetNextKey pc).1 :: pc_keystream n (CRYPT_PC_GetNextKey pc).2

/-- The first `n` words a context returns from `CRYPT_GC_GetNextKey`. -/
def gc_keystream : Nat → CRYPT_SETUP → List Nat
  | 0, _ => []
  | n + 1, cs => (CRYPT_GC_GetNextKey cs).1 :: gc_keystream n (CRYPT_GC_GetNextKey cs).2

/-- A context with every field zero, as `memset(cs, 0, sizeof(CRYPT_SETUP))` leaves it. -/
def zeroSetup : CRYPT_SETUP :=
  { type := 0, keys := fun _ => 0, pc_posn := 0, gc_block_ptr := 0, gc_block_end_ptr := 0,
    gc_seed := 0, bb_posn := 0, bb_seed := fun _ => 0 }

/-- The locals of `prs_decompress` that `prs_decompress_size` keeps as well. -/
def PRS_DECOMPRESSOR.probe (s : PRS_DECOMPRESSOR) : PRS_SIZE_PROBE :=
  { bitpos := s.bitpos, sourceptr := s.sourceptr, destptr := s.destptr,
    currentbyte := s.currentbyte }

/-- The outcome of a loop pass of `prs_decompress`, restricted to the locals that
`prs_decompress_size` keeps. -/
def PRS_STEP.probe : PRS_STEP PRS_DECOMPRESSOR → PRS_STEP PRS_SIZE_PROBE
  | .done ret s => .done ret s.probe
  | .next s => .next s.probe

/-- Eight times the write position plus the bits in the open control byte: the number
of bits the compressor has put out, counting the first control byte as allocated. -/
def PRS_COMPRESSOR.out_bits (pc : PRS_COMPRESSOR) : Nat := 8 * pc.dstptr + pc.bitpos

/-- The common shape of the loops of `CRYPT_PC_CryptData` and `CRYPT_GC_CryptData`: from
byte offset `x`, every 32-bit little-endian word of the data below `size` is XORed with
the next word the generator `next` yields. -/
def xor_loop (next : CRYPT_SETUP → Nat × CRYPT_SETUP) (size : Nat) :
    Nat → Nat → CRYPT_SETUP → Mem → CRYPT_SETUP × Mem
  | 0, _, c, data => (c, data)
  | n + 1, x, c, data =>
    if x < size then
      xor_loop next size n (x + 4) (next c).2 (store32 data x (load32 data x ^^^ (next c).1))
    else (c, data)

/-- Two PC contexts that yield the same keystream: equal read positions in `1..56` and
equal words in the slots `1..55`, the only ones `CRYPT_PC_GetNextKey` and
`CRYPT_PC_MixKeys` read. -/
def PcSame (c1 c2 : CRYPT_SETUP) : Prop :=
  c1.pc_posn = c2.pc_posn ∧ 1 ≤ c1.pc_posn ∧ c1.pc_posn ≤ 56
    ∧ ∀ i, 1 ≤ i → i ≤ 55 → c1.keys i = c2.keys i

/-- Two GameCube contexts that yield the same keystream: equal read pointers in
`0..520`, the end pointer at `&keys[521]`, and equal words in the slots `0..520`. -/
def GcSame (c1 c2 : CRYPT_SETUP) : Prop :=
  c1.gc_block_ptr = c2.gc_block_ptr ∧ c1.gc_block_ptr ≤ 520
    ∧ c1.gc_block_end_ptr = 521 ∧ c2.gc_block_end_ptr = 521
    ∧ ∀ i, i < 521 → c1.keys i = c2.keys i

/-! ## The cipher facade (`encryption.c`) -/

/-- The three functions of the Blue Burst cipher. `encryption.c` declares and calls them;
their definitions are not among the sources, so the facade takes them as a parameter. -/
structure BB_CIPHER where
  CRYPT_BB_CreateKeys : CRYPT_SETUP → Mem → CRYPT_SETUP
  CRYPT_BB_Encrypt : CRYPT_SETUP → Mem → Nat → CRYPT_SETUP × Mem
  CRYPT_BB_Decrypt : CRYPT_SETUP → Mem → Nat → CRYPT_SETUP × Mem

/-- The function `CRYPT_CreateKeys(cs, key, type)`: the returned `int` and the context
it leaves. The `unsigned char type` is the argument reduced mod 256; `key` is the memory
the key pointer addresses, and `*(uint32_t*)key` is its first word (little-endian
host). The context passed in is overwritten by the `memset`. -/
def CRYPT_CreateKeys (bb : BB_CIPHER) (_cs : CRYPT_SETUP) (key : Mem) (type : Nat) :
    Nat × CRYPT_SETUP :=
  let cs := zeroSetup
  let cs := { cs with type := type % 256 }
  if cs.type = 2 then (1, CRYPT_PC_CreateKeys cs (load32 key 0))
  else if cs.type = 0 then (1, CRYPT_GC_CreateKeys cs (load32 key 0))
  else if cs.type = 1 then (1, bb.CRYPT_BB_CreateKeys cs key)
  else (0, cs)

/-- The function `CRYPT_CryptData(cs, data, size, encrypting)`: the returned `int`, the
context and the data buffer it leaves. -/
def CRYPT_CryptData (bb : BB_CIPHER) (cs : CRYPT_SETUP) (data : Mem) (size : Nat)
    (encrypting : Int) : Nat × CRYPT_SETUP × Mem :=
  if cs.type = 2 then (1, CRYPT_PC_CryptData cs data size)
  else if cs.type = 0 then (1, CRYPT_GC_CryptData cs data size)
  else if cs.type = 1 then
    (if encrypting ≠ 0 then (1, bb.CRYPT_BB_Encrypt cs data size)
     else (1, bb.CRYPT_BB_Decrypt cs data size))
  else (0, cs, data)

/-! ## Key rings before the mix, and the recurrences they are compared with -/

/-- The ring `CRYPT_PC_CreateKeys` has built when its `while` loop ends, before the first
call of `CRYPT_PC_MixKeys`. -/
def pc_create_fill (pc : CRYPT_SETUP) (val : Nat) : Keys :=
  pc_create_loop 55 1 val 0x15 (wstore (wstore pc.keys 56 val) 55 val)

/-- The recurrence the PC key derivation is compared with, `n` steps from step `i` with
running values `a` and `b` (arithmetic mod 2^32): at `idx = (21 * i) mod 55`,
`ring[idx] = b`, then `b = a - b` and `a = ring[idx]`. -/
def pc_ring_recurrence : Nat → Nat → Nat → Nat → Keys → Keys
  | 0, _, _, _, ring => ring
  | n + 1, i, a, b, ring =>
    let idx := (21 * i) % 55
    let ring := wstore ring idx b
    let b' := sub32 a b
    let a' := ring idx
    pc_ring_recurrence n (i + 1) a' b' ring

/-- The sequential in-place pass the GameCube mix is compared with, `n` steps from
index `i`: `ring[i] ^= ring[(i + 489) mod 521]`. -/
def gc_mix_pass : Nat → Nat → Keys → Keys
  | 0, _, ring => ring
  | n + 1, i, ring => gc_mix_pass n (i + 1) (wstore ring i (ring i ^^^ ring ((i + 489) % 521)))

/-! ## Match lengths as the longest-match property states them -/

/-- The match length `M(y)` as stated: the largest `L ≤ 255` such that
`source[y..y+L) = source[x..x+L)`, `y + L ≤ x` and `x + L ≤ size`. -/
def match_len_stated (src : Mem) (size x y : Nat) : Nat :=
  Nat.findGreatest (fun L => memcmp_eq src y x L = true ∧ y + L ≤ x ∧ x + L ≤ size) 255

/-- The match length with the bound the `do`/`while` loop applies: the largest `L ≤ 255`
such that `source[y..y+L) = source[x..x+L)`, `L = 3` or `y + L < x`, and `x + L ≤ size`. -/
def match_len (src : Mem) (size x y : Nat) : Nat :=
  Nat.findGreatest
    (fun L => memcmp_eq src y x L = true ∧ (L = 3 ∨ y + L < x) ∧ x + L ≤ size) 255

/-! ## Tokens as control bits and bytes -/

/-- The control-bit part of one token of the compressor: every bit but the last is put
with `prs_put_control_bit`, the last with `prs_put_control_bit_nosave`. -/
def put_control_bits : PRS_COMPRESSOR → List Nat → PRS_COMPRESSOR
  | pc, [] => pc
  | pc, [b] => prs_put_control_bit_nosave pc b
  | pc, b :: c :: bs => put_control_bits (prs_put_control_bit pc b) (c :: bs)

/-- The emission of one token: its control bits, then its bytes put with
`prs_put_static_data`, then the closing `prs_put_control_save`. The bodies of
`prs_rawbyte`, `prs_shortcopy` and `prs_longcopy` have this shape. -/
def put_token (pc : PRS_COMPRESSOR) (bits : List Nat) (bytes : List Nat) : PRS_COMPRESSOR :=
  prs_put_control_save (bytes.foldl prs_put_static_data (put_control_bits pc bits))

/-- The control bits `prs_copy(pc, offset, size)` puts, in order: the arguments of its
calls of `prs_put_control_bit` and `prs_put_control_bit_nosave`. -/
def copy_control_bits (offset : Int) (size : Nat) : List Nat :=
  if offset > -0x100 ∧ size % 256 ≤ 5 then
    [0, 0, (((size % 256 + 254) % 256) >>> 1) &&& 1, ((size % 256 + 254) % 256) &&& 1]
  else [0, 1]

/-- The bytes `prs_copy(pc, offset, size)` puts, in order: the arguments of its calls of
`prs_put_static_data`. -/
def copy_static_data (offset : Int) (size : Nat) : List Nat :=
  if offset > -0x100 ∧ size % 256 ≤ 5 then [low8 offset &&& 0xFF]
  else if size % 256 ≤ 9 then
    [(low8 (offset * 8) &&& 0xF8) ||| (low8 (((size % 256 : Nat) : Int) - 2) &&& 0x07),
      low8 (offset / 32) &&& 0xFF]
  else [low8 (offset * 8) &&& 0xF8, low8 (offset / 32) &&& 0xFF, size % 256 - 1]

/-- The control bits read by `n` successive passes through the control-bit statements
of `prs_decompress`, in order, and the locals after them. -/
def read_control_bits (src : Mem) : Nat → PRS_DECOMPRESSOR → List Nat × PRS_DECOMPRESSOR
  | 0, s => ([], s)
  | n + 1, s =>
    let r := read_control_bit src s
    let t := read_control_bits src n r.2
    (r.1 :: t.1, t.2)

/-! ## Reachable generator states -/

/-- The context after `n` successive calls of `CRYPT_GC_GetNextKey`. -/
def gc_calls : Nat → CRYPT_SETUP → CRYPT_SETUP
  | 0, cs => cs
  | n + 1, cs => gc_calls n (CRYPT_GC_GetNextKey cs).2

/-! ## The compressor and the decoder in step -/

/-- The state of a compressor between two puts is well formed: at most eight bits are in
the open control byte, the open control byte lies below the write pointer, and the
destination memory holds bytes. Every state `prs_compress` passes through is. -/
def prs_wf (pc : PRS_COMPRESSOR) : Prop :=
  pc.bitpos ≤ 8 ∧ pc.controlbyteptr < pc.dstptr ∧ ∀ a, pc.dst a < 256

/-- The memory `out` completes what the compressor `pc` has written so far: it holds the
bytes written below the write pointer, and the low `bitpos` bits of its byte at the open
control byte are the bits put so far (which `pc` holds in the top bits of that byte). -/
def prs_pending (pc : PRS_COMPRESSOR) (out : Mem) : Prop :=
  (∀ a, a < pc.dstptr → a ≠ pc.controlbyteptr → out a = pc.dst a)
  ∧ (out pc.controlbyteptr % 256) % 2 ^ pc.bitpos
      = pc.dst pc.controlbyteptr / 2 ^ (8 - pc.bitpos)

/-- The decoder `s`, reading the memory `out`, has loaded the control byte that is open
in the compressor `pc` and has taken `pc.bitpos` bits from it, and its source pointer is
the write pointer of `pc`. -/
def prs_loaded (pc : PRS_COMPRESSOR) (s : PRS_DECOMPRESSOR) (out : Mem) : Prop :=
  s.sourceptr = pc.dstptr ∧ s.bitpos = 9 - pc.bitpos
  ∧ s.currentbyte = (out pc.controlbyteptr % 256) >>> pc.bitpos

/-- The decoder `s`, reading the memory `out`, stands where the compressor `pc` stands:
either it has loaded the open control byte of `pc` and taken the bits put so far, or
`pc` has just opened a control byte and the decoder, having used up the one before, is
about to load it. -/
def prs_in_step (pc : PRS_COMPRESSOR) (s : PRS_DECOMPRESSOR) (out : Mem) : Prop :=
  prs_loaded pc s out
  ∨ (pc.bitpos = 0 ∧ s.bitpos = 1 ∧ s.sourceptr = pc.controlbyteptr
      ∧ pc.dstptr = pc.controlbyteptr + 1)

/-! # Theorems -/

/-! ## PRS round trip on concrete buffers -/

set_option maxRecDepth 100000 in
/-- C1 (round trip), evaluated where it breaks.

First input: the source pointer addresses the array `1 2 3 4 2 3 4` and the announced
size is 6, so the buffer is `1 2 3 4 2 3`; the destination is zero-filled. At `x = 4` the
three-byte `memcmp` against `y = 1` reads the byte behind the buffer and succeeds, the
compressor emits a copy of length 3 that runs one byte past the input, and
`prs_decompress` returns 7 bytes `1 2 3 4 2 3 4`, not the 6 bytes of the buffer.

Second input: a destination buffer used twice. Compressing `11 12 13 14 15 16 8 17 6`
into a zero-filled destination leaves 13 bytes there; compressing `1 2 3 4 5 6` into the
same destination returns 10 bytes whose byte 7, the control byte opened by the End bits,
still holds the `8` of the first run. `prs_decompress` takes `08 00` for the End field,
copies one byte from far below the destination and returns 7 bytes, not 6. -/
theorem prs_round_trip_breaks :
    (prs_compress_bytes (memOfList [1, 2, 3, 4, 2, 3, 4] 0) (fun _ => 0) 6
        = [143, 1, 2, 3, 4, 253, 2, 0, 0]
      ∧ prs_decompress_bytes 6
            (prs_compress (memOfList [1, 2, 3, 4, 2, 3, 4] 0) (fun _ => 0) 6).2 (fun _ => 0)
          = some (7, [1, 2, 3, 4, 2, 3, 4])
      ∧ readBytes (memOfList [1, 2, 3, 4, 2, 3, 4] 0) 6 ≠ [1, 2, 3, 4, 2, 3, 4])
    ∧ (prs_compress_bytes (memOfList [11, 12, 13, 14, 15, 16, 8, 17, 6] 0) (fun _ => 0) 9
        = [255, 11, 12, 13, 14, 15, 16, 8, 17, 5, 6, 0, 0]
      ∧ prs_compress_bytes (memOfList [1, 2, 3, 4, 5, 6] 0)
            (prs_compress (memOfList [11, 12, 13, 14, 15, 16, 8, 17, 6] 0) (fun _ => 0) 9).2 6
          = [191, 1, 2, 3, 4, 5, 6, 8, 0, 0]
      ∧ prs_decompress_bytes 8
            (prs_compress (memOfList [1, 2, 3, 4, 5, 6] 0)
              (prs_compress (memOfList [11, 12, 13, 14, 15, 16, 8, 17, 6] 0)
                (fun _ => 0) 9).2 6).2
            (fun _ => 0)
          = some (7, [1, 2, 3, 4, 5, 6, 0])) := by
  decide

set_option maxRecDepth 100000 in
/-- C3 (size probe agreement), evaluated where it breaks: on the stream that
`prs_compress` writes for the 6-byte buffer `1 2 3 4 2 3` followed in memory by the byte
`4`, `prs_decompress_size` returns 7. -/
theorem prs_size_probe_breaks :
    (prs_compress (memOfList [1, 2, 3, 4, 2, 3, 4] 0) (fun _ => 0) 6).1 = 9
    ∧ (prs_decompress_size 6
          (prs_compress (memOfList [1, 2, 3, 4, 2, 3, 4] 0) (fun _ => 0) 6).2).map
            (fun r => r.1) = some 7 := by
  decide

set_option maxRecDepth 100000 in
/-- C5 (output independent of the previous destination contents), evaluated where it
breaks: six literals and the two bits of the End token fill the first control byte, so
`prs_put_control_bit` opens a new control byte at index 7, `prs_finish` skips it
(`bitpos == 0`) and it is counted in the returned size with whatever the destination
held: compressing the same source into a zero-filled and into a `0xFF`-filled
destination returns 10 both times and output bytes that differ at index 7. -/
theorem prs_compress_keeps_destination_byte :
    (prs_compress (memOfList [1, 2, 3, 4, 5, 6] 0) (fun _ => 0) 6).1 = 10
    ∧ (prs_compress (memOfList [1, 2, 3, 4, 5, 6] 0) (fun _ => 255) 6).1 = 10
    ∧ prs_compress_bytes (memOfList [1, 2, 3, 4, 5, 6] 0) (fun _ => 0) 6
        = [191, 1, 2, 3, 4, 5, 6, 0, 0, 0]
    ∧ prs_compress_bytes (memOfList [1, 2, 3, 4, 5, 6] 0) (fun _ => 255) 6
        = [191, 1, 2, 3, 4, 5, 6, 255, 0, 0] := by
  decide

/-! ## The size probe walks the stream as the decompressor does -/

theorem size_read_control_bit_probe (src : Mem) (s : PRS_DECOMPRESSOR) :
    size_read_control_bit src s.probe
      = ((read_control_bit src s).1, (read_control_bit src s).2.probe) := by
  unfold size_read_control_bit read_control_bit PRS_DECOMPRESSOR.probe
  simp only []
  split_ifs <;> rfl

theorem copy_loop_destptr (t : Nat) (dest : IMem) (p : Nat) (q : Int) :
    (copy_loop t dest p q).2 = size_copy_loop t p := by
  induction t generalizing dest p q with
  | zero => rfl
  | succ t ih => simp only [copy_loop, size_copy_loop]; exact ih _ _ _

theorem and_255_of_mod (x : Nat) : (x % 256) &&& 0xFF = x % 256 := by
  have := Nat.and_pow_two_sub_one_eq_mod (x % 256) 8
  simpa using this

theorem prs_decompress_size_long_probe (src : Mem) (s : PRS_DECOMPRESSOR) :
    prs_decompress_size_long src s.probe = (prs_decompress_long src s).probe := by
  have h1 : s.probe.sourceptr = s.sourceptr := rfl
  have h2 : s.probe.destptr = s.destptr := rfl
  have h3 : s.probe.bitpos = s.bitpos := rfl
  have h4 : s.probe.currentbyte = s.currentbyte := rfl
  unfold prs_decompress_size_long prs_decompress_long
  simp only [and_255_of_mod, h1, h2, h3, h4]
  split_ifs <;> simp only [PRS_STEP.probe, PRS_DECOMPRESSOR.probe, copy_loop_destptr]

theorem prs_decompress_size_short_probe (src : Mem) (s : PRS_DECOMPRESSOR) :
    prs_decompress_size_short src s.probe = (prs_decompress_short src s).probe := by
  unfold prs_decompress_size_short prs_decompress_short
  rw [size_read_control_bit_probe]
  simp only []
  rw [size_read_control_bit_probe]
  simp only [PRS_STEP.probe, PRS_DECOMPRESSOR.probe, copy_loop_destptr]

theorem prs_decompress_size_step_probe (src : Mem) (s : PRS_DECOMPRESSOR) :
    prs_decompress_size_step src s.probe = (prs_decompress_step src s).probe := by
  unfold prs_decompress_size_step prs_decompress_step
  rw [size_read_control_bit_probe]
  simp only []
  rw [size_read_control_bit_probe]
  simp only [prs_decompress_size_long_probe, prs_decompress_size_short_probe]
  split_ifs <;> simp only [PRS_STEP.probe, PRS_DECOMPRESSOR.probe]

theorem prs_decompress_size_loop_probe (src : Mem) (fuel : Nat) (s : PRS_DECOMPRESSOR) :
    prs_decompress_size_loop src fuel s.probe
      = (prs_decompress_loop src fuel s).map (fun r => (r.1, r.2.probe)) := by
  induction fuel generalizing s with
  | zero => rfl
  | succ fuel ih =>
    simp only [prs_decompress_size_loop, prs_decompress_loop, prs_decompress_size_step_probe]
    cases h : prs_decompress_step src s with
    | done ret s1 => simp [PRS_STEP.probe]
    | next s1 => simp only [PRS_STEP.probe]; exact ih s1

/-- C4: `prs_decompress_size` is the walk of `prs_decompress` without the writes. For
every source memory, every destination memory and every bound on the number of loop
passes, the probe returns exactly when the decompressor does, with the same return value
and the same locals at the `return` (bit position, current control byte, source pointer,
i.e. the same source bytes consumed, and byte count); the destination contents do not
enter the result. -/
theorem prs_decompress_size_same_walk (fuel : Nat) (src : Mem) (dest : IMem) :
    prs_decompress_size fuel src
      = (prs_decompress fuel src dest).map (fun r => (r.1, r.2.probe)) :=
  prs_decompress_size_loop_probe src fuel (prs_decompress_init src dest)

/-! ## Size of the compressed stream -/

theorem nosave_bits (pc : PRS_COMPRESSOR) (bit : Nat) :
    (prs_put_control_bit_nosave pc bit).bitpos = pc.bitpos + 1
    ∧ (prs_put_control_bit_nosave pc bit).out_bits = pc.out_bits + 1 := by
  refine ⟨rfl, ?_⟩
  show 8 * pc.dstptr + (pc.bitpos + 1) = 8 * pc.dstptr + pc.bitpos + 1
  omega

theorem save_bits (pc : PRS_COMPRESSOR) (h : pc.bitpos ≤ 8) :
    (prs_put_control_save pc).bitpos < 8
    ∧ (prs_put_control_save pc).out_bits = pc.out_bits := by
  unfold prs_put_control_save PRS_COMPRESSOR.out_bits
  split_ifs with h8
  · simp only []; omega
  · omega

theorem put_control_bit_bits (pc : PRS_COMPRESSOR) (bit : Nat) (h : pc.bitpos < 8) :
    (prs_put_control_bit pc bit).bitpos < 8
    ∧ (prs_put_control_bit pc bit).out_bits = pc.out_bits + 1 := by
  obtain ⟨h1, h2⟩ := nosave_bits pc bit
  obtain ⟨h3, h4⟩ := save_bits (prs_put_control_bit_nosave pc bit) (by omega)
  unfold prs_put_control_bit
  omega

theorem static_data_bits (pc : PRS_COMPRESSOR) (data : Nat) :
    (prs_put_static_data pc data).bitpos = pc.bitpos
    ∧ (prs_put_static_data pc data).out_bits = pc.out_bits + 8 := by
  refine ⟨rfl, ?_⟩
  show 8 * (pc.dstptr + 1) + pc.bitpos = 8 * pc.dstptr + pc.bitpos + 8
  omega

theorem rawbyte_bits (src : Mem) (pc : PRS_COMPRESSOR) (h : pc.bitpos < 8) :
    (prs_rawbyte src pc).bitpos < 8 ∧ (prs_rawbyte src pc).out_bits = pc.out_bits + 9 := by
  unfold prs_rawbyte
  simp only [prs_get_static_data]
  obtain ⟨h1, h2⟩ := nosave_bits pc 1
  generalize prs_put_control_bit_nosave pc 1 = p1 at *
  have e : ({ p1 with srcptr := p1.srcptr + 1 } : PRS_COMPRESSOR).bitpos = p1.bitpos
      ∧ ({ p1 with srcptr := p1.srcptr + 1 } : PRS_COMPRESSOR).out_bits = p1.out_bits :=
    ⟨rfl, rfl⟩
  generalize ({ p1 with srcptr := p1.srcptr + 1 } : PRS_COMPRESSOR) = p2 at *
  obtain ⟨h3, h4⟩ := static_data_bits p2 (src p1.srcptr)
  generalize prs_put_static_data p2 (src p1.srcptr) = p3 at *
  obtain ⟨h5, h6⟩ := save_bits p3 (by omega)
  omega

theorem shortcopy_bits (pc : PRS_COMPRESSOR) (offset : Int) (size : Nat) (h : pc.bitpos < 8) :
    (prs_shortcopy pc offset size).bitpos < 8
    ∧ (prs_shortcopy pc offset size).out_bits = pc.out_bits + 12 := by
  unfold prs_shortcopy
  simp only []
  obtain ⟨h1, e1⟩ := put_control_bit_bits pc 0 h
  generalize prs_put_control_bit pc 0 = p1 at *
  obtain ⟨h2, e2⟩ := put_control_bit_bits p1 0 h1
  generalize prs_put_control_bit p1 0 = p2 at *
  obtain ⟨h3, e3⟩ := put_control_bit_bits p2 ((((size + 254) % 256) >>> 1) &&& 1) h2
  generalize prs_put_control_bit p2 ((((size + 254) % 256) >>> 1) &&& 1) = p3 at *
  obtain ⟨h4, e4⟩ := nosave_bits p3 (((size + 254) % 256) &&& 1)
  generalize prs_put_control_bit_nosave p3 (((size + 254) % 256) &&& 1) = p4 at *
  obtain ⟨h5, e5⟩ := static_data_bits p4 (low8 offset &&& 0xFF)
  generalize prs_put_static_data p4 (low8 offset &&& 0xFF) = p5 at *
  obtain ⟨h6, e6⟩ := save_bits p5 (by omega)
  omega

theorem longcopy_bits (pc : PRS_COMPRESSOR) (offset : Int) (size : Nat) (h : pc.bitpos < 8) :
    (prs_longcopy pc offset size).bitpos < 8
    ∧ (prs_longcopy pc offset size).out_bits
        = pc.out_bits + (if size ≤ 9 then 18 else 26) := by
  unfold prs_longcopy
  split_ifs with h9
  · simp only []
    obtain ⟨h1, e1⟩ := put_control_bit_bits pc 0 h
    generalize prs_put_control_bit pc 0 = p1 at *
    obtain ⟨h2, e2⟩ := nosave_bits p1 1
    generalize prs_put_control_bit_nosave p1 1 = p2 at *
    generalize ((low8 (offset * 8) &&& 0xF8) ||| (low8 ((size : Int) - 2) &&& 0x07)) = d1
    obtain ⟨h3, e3⟩ := static_data_bits p2 d1
    generalize prs_put_static_data p2 d1 = p3 at *
    obtain ⟨h4, e4⟩ := static_data_bits p3 (low8 (offset / 32) &&& 0xFF)
    generalize prs_put_static_data p3 (low8 (offset / 32) &&& 0xFF) = p4 at *
    obtain ⟨h5, e5⟩ := save_bits p4 (by omega)
    omega
  · simp only []
    obtain ⟨h1, e1⟩ := put_control_bit_bits pc 0 h
    generalize prs_put_control_bit pc 0 = p1 at *
    obtain ⟨h2, e2⟩ := nosave_bits p1 1
    generalize prs_put_control_bit_nosave p1 1 = p2 at *
    obtain ⟨h3, e3⟩ := static_data_bits p2 (low8 (offset * 8) &&& 0xF8)
    generalize prs_put_static_data p2 (low8 (offset * 8) &&& 0xF8) = p3 at *
    obtain ⟨h4, e4⟩ := static_data_bits p3 (low8 (offset / 32) &&& 0xFF)
    generalize prs_put_static_data p3 (low8 (offset / 32) &&& 0xFF) = p4 at *
    obtain ⟨h6, e6⟩ := static_data_bits p4 (size - 1)
    generalize prs_put_static_data p4 (size - 1) = p5 at *
    obtain ⟨h5, e5⟩ := save_bits p5 (by omega)
    omega

theorem copy_bits (pc : PRS_COMPRESSOR) (offset : Int) (size : Nat) (h : pc.bitpos < 8) :
    (prs_copy pc offset size).bitpos < 8
    ∧ (prs_copy pc offset size).out_bits
        ≤ pc.out_bits + (if size % 256 ≤ 9 then 18 else 26) := by
  unfold prs_copy
  simp only []
  generalize size % 256 = sz
  split_ifs with hc h9 h9
  · obtain ⟨h1, e1⟩ := shortcopy_bits pc offset sz h
    exact ⟨h1, by simp only [PRS_COMPRESSOR.out_bits] at e1 ⊢; omega⟩
  · omega
  · obtain ⟨h1, e1⟩ := longcopy_bits pc offset sz h
    rw [if_pos h9] at e1
    exact ⟨h1, by simp only [PRS_COMPRESSOR.out_bits] at e1 ⊢; omega⟩
  · obtain ⟨h1, e1⟩ := longcopy_bits pc offset sz h
    rw [if_neg h9] at e1
    exact ⟨h1, by simp only [PRS_COMPRESSOR.out_bits] at e1 ⊢; omega⟩

theorem finish_tail_bits (pc0 : PRS_COMPRESSOR) :
    (prs_put_static_data (prs_put_static_data pc0 0) 0).out_bits = pc0.out_bits + 16 := by
  show 8 * (pc0.dstptr + 1 + 1) + pc0.bitpos = 8 * pc0.dstptr + pc0.bitpos + 16
  omega

theorem finish_bits (pc : PRS_COMPRESSOR) (h : pc.bitpos < 8) :
    (prs_finish pc).out_bits = pc.out_bits + 18 := by
  unfold prs_finish
  simp only []
  obtain ⟨h1, e1⟩ := put_control_bit_bits pc 0 h
  generalize prs_put_control_bit pc 0 = p1 at *
  obtain ⟨h2, e2⟩ := put_control_bit_bits p1 1 h1
  generalize prs_put_control_bit p1 1 = p2 at *
  rw [finish_tail_bits]
  split_ifs
  · simp only [PRS_COMPRESSOR.out_bits] at *
    omega
  · omega

theorem match_extend_gt (src : Mem) (size x y n xsize : Nat) :
    xsize + 1 ≤ match_extend src size x y n xsize := by
  induction n generalizing xsize with
  | zero => simp only [match_extend]; omega
  | succ n ih =>
    simp only [match_extend]
    split_ifs
    · have := ih (xsize + 1); omega
    · omega

theorem match_extend_in_bounds (src : Mem) (size x y n xsize : Nat) :
    match_extend src size x y n xsize = xsize + 1
    ∨ x + (match_extend src size x y n xsize - 1) ≤ size := by
  induction n generalizing xsize with
  | zero => left; rfl
  | succ n ih =>
    simp only [match_extend]
    split_ifs with hc
    · right
      simp only [Bool.and_eq_true, decide_eq_true_eq] at hc
      rcases ih (xsize + 1) with h | h
      · rw [h]; omega
      · exact h
    · left; rfl

/-- An invariant of the match search: a property of `(lsoffset, lssize)` that holds
before the `y` loop and for every candidate whose three-byte `memcmp` succeeds, holds
for the result. -/
theorem search_loop_invariant (P : Int × Nat → Prop) (src : Mem) (size x : Nat)
    (y xsize : Nat) (lsoffset : Int) (lssize : Nat)
    (h0 : P (lsoffset, lssize))
    (hstep : ∀ c, 1 ≤ c → c ≤ y → memcmp_eq src c x 3 = true → (x : Int) - 0x1FF0 < (c : Int) →
      P (-((x : Int) - (c : Int)), match_extend src size x c 253 3 - 1)) :
    P (search_loop src size x y xsize lsoffset lssize) := by
  induction y generalizing xsize lsoffset lssize with
  | zero => simpa only [search_loop] using h0
  | succ y ih =>
    have hstep' : ∀ c, 1 ≤ c → c ≤ y → memcmp_eq src c x 3 = true →
        (x : Int) - 0x1FF0 < (c : Int) →
        P (-((x : Int) - (c : Int)), match_extend src size x c 253 3 - 1) :=
      fun c h1 h2 h3 h4 => hstep c h1 (by omega) h3 h4
    simp only [search_loop]
    split_ifs with hw hm hg
    · exact ih _ _ _ (hstep (y + 1) (by omega) (by omega) hm hw.1) hstep'
    · exact ih _ _ _ h0 hstep'
    · exact ih _ _ _ h0 hstep'
    · exact h0

theorem prs_search_size (src : Mem) (size x : Nat) :
    (prs_search src size x).2 = 0
    ∨ (3 ≤ (prs_search src size x).2
        ∧ ((prs_search src size x).2 = 3 ∨ x + (prs_search src size x).2 ≤ size)) := by
  unfold prs_search
  apply search_loop_invariant (fun r => r.2 = 0 ∨ (3 ≤ r.2 ∧ (r.2 = 3 ∨ x + r.2 ≤ size)))
  · left; rfl
  · intro c _ _ _ _
    right
    have h1 := match_extend_gt src size x c 253 3
    rcases match_extend_in_bounds src size x c 253 3 with h | h
    · simp only []; omega
    · simp only []; omega

theorem compress_loop_bits (src : Mem) (size : Nat) (n x : Nat) (pc : PRS_COMPRESSOR)
    (hb : pc.bitpos < 8) (h1 : pc.out_bits ≤ 17 + 9 * size)
    (h2 : x ≤ size → pc.out_bits ≤ 8 + 9 * x) :
    (compress_loop src size n x pc).bitpos < 8
    ∧ (compress_loop src size n x pc).out_bits ≤ 17 + 9 * size := by
  induction n generalizing x pc with
  | zero => exact ⟨hb, h1⟩
  | succ n ih =>
    simp only [compress_loop]
    split_ifs with hx h0
    · obtain ⟨hb', e⟩ := rawbyte_bits src pc hb
      have := h2 (by omega)
      exact ih (x + 1) _ hb' (by omega) (fun _ => by omega)
    · obtain ⟨hb', e⟩ := copy_bits pc (prs_search src size x).1 (prs_search src size x).2 hb
      have := h2 (by omega)
      rcases prs_search_size src size x with hz | ⟨h3, hs⟩
      · exact absurd hz h0
      · refine ih _ _ hb' ?_ ?_
        · split_ifs at e <;> omega
        · intro _; split_ifs at e <;> omega
    · exact ⟨hb, h1⟩

theorem prs_compress_size_le (src dst : Mem) (size : Nat) :
    (prs_compress src dst size).1 ≤ (9 * size + 35) / 8 := by
  have h := compress_loop_bits src size size 0 (prs_init dst) (show (0 : Nat) < 8 by omega)
    (by show 8 * 1 + 0 ≤ 17 + 9 * size; omega) (fun _ => by show 8 * 1 + 0 ≤ 8 + 9 * 0; omega)
  obtain ⟨hb, ho⟩ := h
  have hf := finish_bits _ hb
  unfold prs_compress
  simp only []
  generalize prs_finish (compress_loop src size size 0 (prs_init dst)) = pf at *
  have : (pf.dstptr - pf.dstptr_orig) % 4294967296 ≤ pf.dstptr :=
    le_trans (Nat.mod_le _ _) (Nat.sub_le _ _)
  simp only [PRS_COMPRESSOR.out_bits] at hf ho
  omega

/-- C6 as stated fails: eight bytes without a repeat compress to twelve bytes (one
control byte, eight literals, the control byte of the End token and its two zero bytes),
more than `9 * 8 / 8 = 9`. -/
theorem prs_compress_exceeds_nine_eighths :
    ¬ ((prs_compress (memOfList [1, 2, 3, 4, 5, 6, 7, 8] 0) (fun _ => 0) 8).1 ≤ 9 * 8 / 8) := by
  decide

/-- C6, amended: for every source memory, destination memory and size `n` (below 2^31,
the range of the `int` position counter), the value `prs_compress` returns (the number
of bytes it wrote) is at most `(9 * n + 35) / 8`, which is at most `9 * n / 8 + 5`. -/
theorem prs_compress_size_bound (src dst : Mem) (n : Nat) (_hn : n < 2147483648) :
    (prs_compress src dst n).1 ≤ (9 * n + 35) / 8
    ∧ (prs_compress src dst n).1 ≤ 9 * n / 8 + 5 := by
  have h := prs_compress_size_le src dst n
  exact ⟨h, by omega⟩

/-- C6, amended, at the eight bytes `1 2 3 4 5 6 7 8`: the size returned is 12, the
bound is `(9 * 8 + 35) / 8 = 13`. -/
theorem prs_compress_size_bound_witness :
    8 < 2147483648
    ∧ (prs_compress (memOfList [1, 2, 3, 4, 5, 6, 7, 8] 0) (fun _ => 0) 8).1 ≤ (9 * 8 + 35) / 8
    ∧ (prs_compress (memOfList [1, 2, 3, 4, 5, 6, 7, 8] 0) (fun _ => 0) 8).1 ≤ 9 * 8 / 8 + 5 :=
  ⟨by decide,
    prs_compress_size_bound (memOfList [1, 2, 3, 4, 5, 6, 7, 8] 0) (fun _ => 0) 8 (by decide)⟩

/-! ## The copy loop of the decompressor -/

theorem copy_loop_snd (t : Nat) (dest : IMem) (p : Nat) (q : Int) :
    (copy_loop t dest p q).2 = p + t := by
  induction t generalizing dest p q with
  | zero => rfl
  | succ t ih => simp only [copy_loop]; rw [ih]; omega

theorem toInt32_short (d : Nat) (h : d < 256) :
    toInt32 (d ||| 0xFFFFFF00) = (d : Int) - 256 := by
  interval_cases d <;> rfl

theorem copy_loop_frame (t : Nat) (dest : IMem) (p : Nat) (q : Int) (j : Int)
    (hj : j < (p : Int)) : (copy_loop t dest p q).1 j = dest j := by
  induction t generalizing dest p q with
  | zero => rfl
  | succ t ih =>
    simp only [copy_loop]
    rw [ih _ _ _ (by push_cast; omega)]
    simp only [istore]
    rw [if_neg (by omega)]

theorem istore_bytes (dest : IMem) (a : Int) (v : Nat) (hb : ∀ j, dest j < 256) :
    ∀ j, istore dest a v j < 256 := by
  intro k
  simp only [istore]
  split_ifs
  · exact Nat.mod_lt _ (by norm_num)
  · exact hb k

theorem copy_loop_overlap (t : Nat) (dest : IMem) (p d : Nat) (hb : ∀ j, dest j < 256)
    (hd : 1 ≤ d) (i : Nat) (hi : i < t) :
    (copy_loop t dest p ((p : Int) - d)).1 ((p : Int) + i)
      = (copy_loop t dest p ((p : Int) - d)).1 ((p : Int) + i - d) := by
  induction t generalizing dest p i with
  | zero => omega
  | succ t ih =>
    simp only [copy_loop]
    have hb' := istore_bytes dest (p : Int) (dest ((p : Int) - d)) hb
    have hq : ((p : Int) - d + 1) = ((p + 1 : Nat) : Int) - d := by push_cast; ring
    rw [hq]
    rcases Nat.eq_zero_or_pos i with h0 | h0
    · subst h0
      rw [copy_loop_frame _ _ _ _ _ (by push_cast; omega),
        copy_loop_frame _ _ _ _ _ (by push_cast; omega)]
      simp only [istore, Nat.cast_zero, add_zero, if_true]
      rw [if_neg (by omega)]
      exact Nat.mod_eq_of_lt (hb _)
    · have := ih (istore dest (p : Int) (dest ((p : Int) - d))) (p + 1) hb' (i - 1) (by omega)
      have e1 : ((p + 1 : Nat) : Int) + ((i - 1 : Nat) : Int) = (p : Int) + i := by
        push_cast [Nat.cast_sub h0]; ring
      rw [e1] at this
      exact this

theorem prs_overlap_stream (b fill fuel : Nat) (dest : IMem) (hb : b < 256) :
    prs_decompress_bytes (fuel + 3) (memOfList [0x59, b, 0xFF, 0, 0] fill) dest
      = some (6, [b, b, b, b, b, b]) := by
  have s1 : prs_decompress_step (memOfList [0x59, b, 0xFF, 0, 0] fill)
      (prs_decompress_init (memOfList [0x59, b, 0xFF, 0, 0] fill) dest)
      = .next { bitpos := 8, sourceptr := 2, destptr := 1, currentbyte := 44,
                dest := istore dest 0 b } := by
    simp [prs_decompress_step, prs_decompress_init, read_control_bit, memOfList]
  have s2 : prs_decompress_step (memOfList [0x59, b, 0xFF, 0, 0] fill)
      { bitpos := 8, sourceptr := 2, destptr := 1, currentbyte := 44, dest := istore dest 0 b }
      = .next { bitpos := 4, sourceptr := 3, destptr := 6, currentbyte := 2,
                dest := (copy_loop 5 (istore dest 0 b) 1 0).1 } := by
    simp [prs_decompress_step, read_control_bit, memOfList, prs_decompress_short, toInt32,
      copy_loop_snd]
  have s3 : prs_decompress_step (memOfList [0x59, b, 0xFF, 0, 0] fill)
      { bitpos := 4, sourceptr := 3, destptr := 6, currentbyte := 2,
        dest := (copy_loop 5 (istore dest 0 b) 1 0).1 }
      = .done 6 { bitpos := 2, sourceptr := 5, destptr := 6, currentbyte := 0,
                  dest := (copy_loop 5 (istore dest 0 b) 1 0).1 } := by
    simp [prs_decompress_step, read_control_bit, memOfList, prs_decompress_long]
  simp only [prs_decompress_bytes, prs_decompress, prs_decompress_loop, s1, s2, s3,
    Option.map_some', readIBytes]
  simp [List.range, List.range.loop, copy_loop, istore, Nat.mod_eq_of_lt hb]

theorem prs_first_copy_stream (d fill fuel : Nat) (dest : IMem) (hd : d < 256)
    (hb : ∀ j, dest j < 256) :
    prs_decompress_bytes (fuel + 2) (memOfList [0x20, d, 0, 0] fill) dest
      = some (2, [dest ((d : Int) - 256),
                  if d = 255 then dest (-1) else dest ((d : Int) - 255)]) := by
  have s1 : prs_decompress_step (memOfList [0x20, d, 0, 0] fill)
      (prs_decompress_init (memOfList [0x20, d, 0, 0] fill) dest)
      = .next { bitpos := 5, sourceptr := 2, destptr := 2, currentbyte := 2,
                dest := (copy_loop 2 dest 0 ((d : Int) - 256)).1 } := by
    simp [prs_decompress_step, prs_decompress_init, read_control_bit, memOfList,
      prs_decompress_short, copy_loop_snd, Nat.mod_eq_of_lt hd, toInt32_short d hd]
  have s2 : prs_decompress_step (memOfList [0x20, d, 0, 0] fill)
      { bitpos := 5, sourceptr := 2, destptr := 2, currentbyte := 2,
        dest := (copy_loop 2 dest 0 ((d : Int) - 256)).1 }
      = .done 2 { bitpos := 3, sourceptr := 4, destptr := 2, currentbyte := 0,
                  dest := (copy_loop 2 dest 0 ((d : Int) - 256)).1 } := by
    simp [prs_decompress_step, read_control_bit, memOfList, prs_decompress_long]
  simp only [prs_decompress_bytes, prs_decompress, prs_decompress_loop, s1, s2,
    Option.map_some', readIBytes]
  have e0 : ¬ ((d : Int) - 256 = 0) := by omega
  have e1 : ¬ ((d : Int) - 256 + 1 = 1) := by omega
  have e2 : ((d : Int) - 256 + 1 = 0) ↔ d = 255 := by omega
  have e3 : (d : Int) - 256 + 1 = (d : Int) - 255 := by ring
  by_cases h5 : d = 255
  · subst h5
    simp [List.range, List.range.loop, copy_loop, istore, Nat.mod_eq_of_lt (hb _)]
  · have e4 : ¬ ((d : Int) - 256 + 1 = 0) := by omega
    have e5 : ¬ ((d : Int) - 255 = 0) := by omega
    simp [List.range, List.range.loop, copy_loop, istore, Nat.mod_eq_of_lt (hb _), e0, e1, e4,
      e3, e5, h5]

theorem copy_loop_first (t : Nat) (dest : IMem) (p : Nat) (q : Int) (hb : ∀ j, dest j < 256) :
    (copy_loop (t + 1) dest p q).1 (p : Int) = dest q := by
  simp only [copy_loop]
  rw [copy_loop_frame _ _ _ _ _ (by push_cast; omega)]
  simp only [istore, if_true]
  exact Nat.mod_eq_of_lt (hb q)

theorem prs_first_short_copy (src : Mem) (dest : IMem) (hb : ∀ j, dest j < 256)
    (h : src 0 % 4 = 0) :
    ∃ s, prs_decompress_step src (prs_decompress_init src dest) = .next s
      ∧ 2 ≤ s.destptr ∧ s.sourceptr = 2
      ∧ s.dest 0 = dest ((src 1 % 256 : Nat) - 256) := by
  have h1 : (src 0 % 256) &&& 1 = 0 := by rw [Nat.and_one_is_mod]; omega
  have h2 : ((src 0 % 256) >>> 1) &&& 1 = 0 := by
    rw [Nat.and_one_is_mod, Nat.shiftRight_eq_div_pow]; omega
  have hoff := toInt32_short (src 1 % 256) (Nat.mod_lt _ (by norm_num))
  simp only [prs_decompress_step, prs_decompress_init, read_control_bit, prs_decompress_short]
  norm_num [h1, h2, hoff, copy_loop_snd]
  generalize ((src 0 % 256) >>> 1 >>> 1 % 2) <<< 1 ||| (src 0 % 256) >>> 1 >>> 1 >>> 1 % 2 = r
  have := copy_loop_first (r + 1) dest 0 ((src 1 : Int) % 256 - 256) hb
  simpa using this

set_option maxRecDepth 100000 in
/-- C7 as stated fails. The stream `20 FF 00 00` starts with a short copy of length 2 at
distance -1, followed by End. `prs_decompress` returns 2, as on a well-formed stream,
and the two bytes it wrote are the byte stored just below the destination buffer: with
`7` there the output is `7 7`, with `9` there it is `9 9`. No error is reported and the
byte at `dest - 1` is read. -/
theorem prs_decompress_reads_below_dest :
    prs_decompress_bytes 2 (memOfList [0x20, 0xFF, 0, 0] 0)
        (fun i => if i = -1 then 7 else 0) = some (2, [7, 7])
    ∧ prs_decompress_bytes 2 (memOfList [0x20, 0xFF, 0, 0] 0)
        (fun i => if i = -1 then 9 else 0) = some (2, [9, 9]) := by
  decide

/-- C7, amended: `prs_decompress` has no error result, and a copy as the very first
token is carried out on the memory below the destination buffer. For every source
memory whose first control byte has its two low bits clear (the first token is a short
copy) and every byte memory around the destination, the first loop pass ends in the
next pass, not in a return, and has written to `dest[0]` the byte stored at
`dest + (source[1] - 256)`, an address below the buffer. On the stream `20 d 00 00`
(short copy of length 2 at distance `d - 256`, then End), for every byte `d`,
`prs_decompress` returns 2, and the bytes it wrote are the byte found at
`dest + (d - 256)` and the byte after it (for `d = 255` the byte it has just written). -/
theorem prs_decompress_first_copy :
    (∀ (src : Mem) (dest : IMem), (∀ j, dest j < 256) → src 0 % 4 = 0 →
      ∃ s, prs_decompress_step src (prs_decompress_init src dest) = .next s
        ∧ 2 ≤ s.destptr ∧ s.sourceptr = 2
        ∧ s.dest 0 = dest ((src 1 % 256 : Nat) - 256))
    ∧ (∀ (d fill fuel : Nat) (dest : IMem), d < 256 → (∀ j, dest j < 256) →
      prs_decompress_bytes (fuel + 2) (memOfList [0x20, d, 0, 0] fill) dest
        = some (2, [dest ((d : Int) - 256),
                    if d = 255 then dest (-1) else dest ((d : Int) - 255)])) :=
  ⟨fun src dest hb h => prs_first_short_copy src dest hb h,
    fun d fill fuel dest hd hb => prs_first_copy_stream d fill fuel dest hd hb⟩

/-- C7, amended, at `d = 255` with the byte `7` everywhere around the destination. -/
theorem prs_decompress_first_copy_witness :
    (255 < 256) ∧ (∀ j : Int, (fun _ => 7 : IMem) j < 256)
    ∧ memOfList [0x20, 255, 0, 0] 0 0 % 4 = 0
    ∧ prs_decompress_bytes (0 + 2) (memOfList [0x20, 255, 0, 0] 0) (fun _ => 7)
        = some (2, [7, 7])
    ∧ ∃ s, prs_decompress_step (memOfList [0x20, 255, 0, 0] 0)
          (prs_decompress_init (memOfList [0x20, 255, 0, 0] 0) (fun _ => 7)) = .next s
        ∧ 2 ≤ s.destptr ∧ s.sourceptr = 2
        ∧ s.dest 0 = (fun _ => 7 : IMem) ((memOfList [0x20, 255, 0, 0] 0 1 % 256 : Nat) - 256) :=
  ⟨by decide, fun _ => (by decide : (7 : Nat) < 256), by decide,
    prs_decompress_first_copy.2 255 0 0 (fun _ => 7) (by decide)
      (fun _ => (by decide : (7 : Nat) < 256)),
    prs_decompress_first_copy.1 (memOfList [0x20, 255, 0, 0] 0) (fun _ => 7)
      (fun _ => (by decide : (7 : Nat) < 256)) (by decide)⟩

/-- C9: the copy of `prs_decompress` goes byte by byte in increasing order. For every
byte memory, write position `p`, distance `d ≥ 1` and length `n`, after the copy loop
has run from `ptr_reg = destptr - d` every byte `i < n` it wrote satisfies
`dest[p + i] = dest[p + i - d]` in the final memory, also where `p + i - d ≥ p`, i.e.
where the byte read was written by the same copy. And for every byte `b` the stream
`59 b FF 00 00` decodes to six bytes `b` with return value 6. -/
theorem prs_overlapping_copy :
    (∀ (dest : IMem) (p d n i : Nat), (∀ j, dest j < 256) → 1 ≤ d → i < n →
        (copy_loop n dest p ((p : Int) - d)).1 ((p : Int) + i)
          = (copy_loop n dest p ((p : Int) - d)).1 ((p : Int) + i - d))
    ∧ (∀ (b fill fuel : Nat) (dest : IMem), b < 256 →
        prs_decompress_bytes (fuel + 3) (memOfList [0x59, b, 0xFF, 0, 0] fill) dest
          = some (6, [b, b, b, b, b, b])) :=
  ⟨fun dest p d n i hb hd hi => copy_loop_overlap n dest p d hb hd i hi,
    fun b fill fuel dest hb => prs_overlap_stream b fill fuel dest hb⟩

/-- C9 at the byte `b = 7`, and the copy loop at distance 1 and length 5 after one byte
`7` at address 0: the fourth byte written equals the third. -/
theorem prs_overlapping_copy_witness :
    prs_decompress_bytes (0 + 3) (memOfList [0x59, 7, 0xFF, 0, 0] 0) (fun _ => 0)
        = some (6, [7, 7, 7, 7, 7, 7])
    ∧ (copy_loop 5 (istore (fun _ => 0) 0 7) 1 ((1 : Nat) - (1 : Nat))).1 ((1 : Nat) + (3 : Nat))
        = (copy_loop 5 (istore (fun _ => 0) 0 7) 1 ((1 : Nat) - (1 : Nat))).1
            ((1 : Nat) + (3 : Nat) - (1 : Nat)) :=
  ⟨prs_overlapping_copy.2 7 0 0 (fun _ => 0) (by decide),
    prs_overlapping_copy.1 (istore (fun _ => 0) 0 7) 1 1 5 3
      (istore_bytes _ _ _ (fun _ => (by decide : (0 : Nat) < 256))) (by decide) (by decide)⟩

/-! ## The match search keeps the nearest of the longest matches -/

theorem search_loop_nearest (src : Mem) (size x : Nat) (y xsize : Nat) (lsoffset : Int)
    (lssize : Nat) (hy : y = 0 ∨ y + 3 ≤ x)
    (hA : lssize = 0 ∨ ∃ y0, y < y0 ∧ y0 + 3 ≤ x ∧ x < y0 + 0x1FF0
      ∧ lsoffset = -((x : Int) - (y0 : Int)) ∧ match_size src size x y0 = lssize)
    (hB : ∀ c, y < c → c + 3 ≤ x → match_size src size x c ≤ lssize)
    (hC : ∀ c, y < c → c + 3 ≤ x → match_size src size x c = lssize → lssize ≠ 0 →
      -lsoffset ≤ (x : Int) - (c : Int)) :
    ((search_loop src size x y xsize lsoffset lssize).2 = 0
      ∨ ∃ y0, 1 ≤ y0 ∧ y0 + 3 ≤ x ∧ x < y0 + 0x1FF0
        ∧ (search_loop src size x y xsize lsoffset lssize).1 = -((x : Int) - (y0 : Int))
        ∧ match_size src size x y0 = (search_loop src size x y xsize lsoffset lssize).2)
    ∧ ∀ c, c + 3 ≤ x →
        match_size src size x c = (search_loop src size x y xsize lsoffset lssize).2 →
        (search_loop src size x y xsize lsoffset lssize).2 ≠ 0 →
        -(search_loop src size x y xsize lsoffset lssize).1 ≤ (x : Int) - (c : Int) := by
  have stop : ∀ (y : Nat) (lsoffset : Int) (lssize : Nat),
      (lssize = 0 ∨ ∃ y0, y < y0 ∧ y0 + 3 ≤ x ∧ x < y0 + 0x1FF0
        ∧ lsoffset = -((x : Int) - (y0 : Int)) ∧ match_size src size x y0 = lssize) →
      (∀ c, y < c → c + 3 ≤ x → match_size src size x c = lssize → lssize ≠ 0 →
        -lsoffset ≤ (x : Int) - (c : Int)) →
      (lssize = 0 ∨ ∃ y0, 1 ≤ y0 ∧ y0 + 3 ≤ x ∧ x < y0 + 0x1FF0
        ∧ lsoffset = -((x : Int) - (y0 : Int)) ∧ match_size src size x y0 = lssize)
      ∧ ∀ c, c + 3 ≤ x → match_size src size x c = lssize → lssize ≠ 0 →
        -lsoffset ≤ (x : Int) - (c : Int) := by
    intro y lsoffset lssize hA hC
    refine ⟨?_, ?_⟩
    · rcases hA with h | ⟨y0, g1, g2, g3, g4, g5⟩
      · exact Or.inl h
      · exact Or.inr ⟨y0, by omega, g2, g3, g4, g5⟩
    · intro c hc hm hne
      by_cases hyc : y < c
      · exact hC c hyc hc hm hne
      · rcases hA with h | ⟨y0, g1, g2, g3, g4, g5⟩
        · exact absurd h hne
        · rw [g4]; omega
  induction y generalizing xsize lsoffset lssize with
  | zero =>
    simp only [search_loop]
    exact stop 0 lsoffset lssize hA hC
  | succ y ih =>
    have hy1 : y + 1 + 3 ≤ x := by
      rcases hy with h | h
      · exact absurd h (Nat.succ_ne_zero y)
      · exact h
    have hy' : y = 0 ∨ y + 3 ≤ x := Or.inr (Nat.le_of_succ_le hy1)
    simp only [search_loop]
    split_ifs with hw hm hg
    · -- a longer match: the candidate becomes the best match
      have hms : match_size src size x (y + 1) = match_extend src size x (y + 1) 253 3 - 1 := by
        simp only [match_size, hm, if_true]
      apply ih
      · exact hy'
      · right
        exact ⟨y + 1, by omega, hy1, by omega, by push_cast; ring, hms⟩
      · intro c h1 h2
        by_cases hc : c = y + 1
        · subst hc; rw [hms]
        · have := hB c (by omega) h2; omega
      · intro c h1 h2 h3 _
        by_cases hc : c = y + 1
        · subst hc; push_cast; omega
        · have := hB c (by omega) h2; omega
    · -- a match that is not longer: the best match stays
      have hms : match_size src size x (y + 1) = match_extend src size x (y + 1) 253 3 - 1 := by
        simp only [match_size, hm, if_true]
      apply ih
      · exact hy'
      · rcases hA with h | ⟨y0, g1, g2, g3, g4, g5⟩
        · exact Or.inl h
        · exact Or.inr ⟨y0, by omega, g2, g3, g4, g5⟩
      · intro c h1 h2
        by_cases hc : c = y + 1
        · subst hc; rw [hms]; omega
        · exact hB c (by omega) h2
      · intro c h1 h2 h3 hne
        by_cases hc : c = y + 1
        · subst hc
          rcases hA with h | ⟨y0, g1, g2, g3, g4, g5⟩
          · exact absurd h hne
          · rw [g4]; push_cast; omega
        · exact hC c (by omega) h2 h3 hne
    · -- no match at this candidate
      have hms : match_size src size x (y + 1) = 0 := by
        simp only [match_size, hm, Bool.false_eq_true, if_false]
      apply ih
      · exact hy'
      · rcases hA with h | ⟨y0, g1, g2, g3, g4, g5⟩
        · exact Or.inl h
        · exact Or.inr ⟨y0, by omega, g2, g3, g4, g5⟩
      · intro c h1 h2
        by_cases hc : c = y + 1
        · subst hc; rw [hms]; omega
        · exact hB c (by omega) h2
      · intro c h1 h2 h3 hne
        by_cases hc : c = y + 1
        · subst hc; rw [hms] at h3; exact absurd h3.symm hne
        · exact hC c (by omega) h2 h3 hne
    · exact stop (y + 1) lsoffset lssize hA hC

theorem compress_loop_copy (src : Mem) (size n x : Nat) (pc : PRS_COMPRESSOR)
    (hx : x < size) (h0 : (prs_search src size x).2 ≠ 0) :
    compress_loop src size (n + 1) x pc
      = compress_loop src size n (x + ((prs_search src size x).2 - 1) + 1)
          (prs_copy pc (prs_search src size x).1 (prs_search src size x).2) := by
  simp only [compress_loop, if_pos hx, if_neg h0]

/-! ## The data transform of the ciphers -/

theorem pc_crypt_loop_eq (size n x : Nat) (c : CRYPT_SETUP) (data : Mem) :
    pc_crypt_loop size n x c data = xor_loop CRYPT_PC_GetNextKey size n x c data := by
  induction n generalizing x c data with
  | zero => rfl
  | succ n ih => simp only [pc_crypt_loop, xor_loop, ih]

theorem gc_crypt_loop_eq (size n x : Nat) (c : CRYPT_SETUP) (data : Mem) :
    gc_crypt_loop size n x c data = xor_loop CRYPT_GC_GetNextKey size n x c data := by
  induction n generalizing x c data with
  | zero => rfl
  | succ n ih => simp only [gc_crypt_loop, xor_loop, ih]

theorem xor_mod_two_pow (a b n : Nat) : (a ^^^ b) % 2 ^ n = (a % 2 ^ n) ^^^ (b % 2 ^ n) := by
  apply Nat.eq_of_testBit_eq
  intro i
  simp only [Nat.testBit_mod_two_pow, Nat.testBit_xor]
  cases decide (i < n) <;> simp

theorem xor32_twice (w k : Nat) (hw : w < 4294967296) :
    ((((w ^^^ k) % 4294967296) ^^^ k) % 4294967296) = w := by
  have h := xor_mod_two_pow ((w ^^^ k) % 2 ^ 32) k 32
  have h2 := xor_mod_two_pow w k 32
  norm_num at h h2
  rw [h, h2, Nat.xor_cancel_right, Nat.mod_eq_of_lt hw]

theorem store32_apply (m : Mem) (a w j : Nat) :
    store32 m a w j
      = if j = a + 3 then w / 16777216 % 256
        else if j = a + 2 then w / 65536 % 256
        else if j = a + 1 then w / 256 % 256
        else if j = a then w % 256
        else m j := by
  simp only [store32, store, Nat.mod_mod]

theorem store32_frame (m : Mem) (a w j : Nat) (h : j < a ∨ a + 4 ≤ j) :
    store32 m a w j = m j := by
  rw [store32_apply]
  split_ifs <;> omega

theorem store32_bytes (m : Mem) (a w : Nat) (hb : ∀ j, m j < 256) :
    ∀ j, store32 m a w j < 256 := by
  intro j
  rw [store32_apply]
  split_ifs <;> first | exact Nat.mod_lt _ (by norm_num) | exact hb j

theorem load32_lt (m : Mem) (a : Nat) : load32 m a < 4294967296 := by
  unfold load32
  omega

theorem load32_congr (m m' : Mem) (a : Nat) (h : ∀ j, a ≤ j → j < a + 4 → m j = m' j) :
    load32 m a = load32 m' a := by
  unfold load32
  rw [h a (by omega) (by omega), h (a + 1) (by omega) (by omega),
    h (a + 2) (by omega) (by omega), h (a + 3) (by omega) (by omega)]

theorem load32_store32 (m : Mem) (a w : Nat) : load32 (store32 m a w) a = w % 4294967296 := by
  unfold load32
  simp only [store32_apply, if_true]
  split_ifs <;> omega

theorem store32_load32 (m : Mem) (a : Nat) (hb : ∀ j, m j < 256) (j : Nat) :
    store32 m a (load32 m a) j = m j := by
  rw [store32_apply]
  have h0 := hb a
  have h1 := hb (a + 1)
  have h2 := hb (a + 2)
  have h3 := hb (a + 3)
  unfold load32
  split_ifs with e3 e2 e1 e0
  · subst e3; omega
  · subst e2; omega
  · subst e1; omega
  · subst e0; omega
  · rfl

theorem store32_mod (m : Mem) (a w : Nat) :
    store32 m a (w % 4294967296) = store32 m a w := by
  funext j
  simp only [store32_apply]
  split_ifs <;> omega

theorem xor_loop_frame (next : CRYPT_SETUP → Nat × CRYPT_SETUP) (size n x : Nat)
    (c : CRYPT_SETUP) (data : Mem) (a : Nat) (ha : a < x) :
    (xor_loop next size n x c data).2 a = data a := by
  induction n generalizing x c data with
  | zero => rfl
  | succ n ih =>
    simp only [xor_loop]
    split_ifs
    · rw [ih _ _ _ (by omega), store32_frame _ _ _ _ (Or.inl ha)]
    · rfl

theorem xor_loop_congr (next : CRYPT_SETUP → Nat × CRYPT_SETUP) (size n x : Nat)
    (c : CRYPT_SETUP) (d1 d2 : Mem) (h : ∀ a, x ≤ a → d1 a = d2 a) (a : Nat) (ha : x ≤ a) :
    (xor_loop next size n x c d1).2 a = (xor_loop next size n x c d2).2 a := by
  induction n generalizing x c d1 d2 a with
  | zero => exact h a ha
  | succ n ih =>
    simp only [xor_loop]
    split_ifs
    · have hl : load32 d1 x = load32 d2 x := load32_congr _ _ _ (fun j h1 _ => h j h1)
      rw [hl]
      have hs : ∀ b, x ≤ b → store32 d1 x (load32 d2 x ^^^ (next c).1) b
          = store32 d2 x (load32 d2 x ^^^ (next c).1) b := by
        intro b hb
        simp only [store32_apply]
        split_ifs <;> first | rfl | exact h b hb
      by_cases h4 : x + 4 ≤ a
      · exact ih _ _ _ _ (fun b hb => hs b (by omega)) a h4
      · rw [xor_loop_frame _ _ _ _ _ _ _ (by omega), xor_loop_frame _ _ _ _ _ _ _ (by omega)]
        exact hs a ha
    · exact h a ha

theorem xor_loop_involution (next1 next2 : CRYPT_SETUP → Nat × CRYPT_SETUP)
    (R : CRYPT_SETUP → CRYPT_SETUP → Prop)
    (hR : ∀ c1 c2, R c1 c2 → (next1 c1).1 = (next2 c2).1 ∧ R (next1 c1).2 (next2 c2).2)
    (size n x : Nat) (c1 c2 : CRYPT_SETUP) (data : Mem) (h12 : R c1 c2)
    (hb : ∀ j, data j < 256) (a : Nat) :
    (xor_loop next2 size n x c2 (xor_loop next1 size n x c1 data).2).2 a = data a := by
  induction n generalizing x c1 c2 data a with
  | zero => rfl
  | succ n ih =>
    simp only [xor_loop]
    split_ifs with hx
    · obtain ⟨hk, hR'⟩ := hR c1 c2 h12
      rw [← hk]
      generalize (next1 c1).1 = k
      have hb1 := store32_bytes data x (load32 data x ^^^ k) hb
      -- the memory after the first call, and its bytes at and below the word at `x`
      have hM : ∀ b, b < x + 4 →
          (xor_loop next1 size n (x + 4) (next1 c1).2 (store32 data x (load32 data x ^^^ k))).2 b
            = store32 data x (load32 data x ^^^ k) b :=
        fun b hlt => xor_loop_frame _ _ _ _ _ _ _ hlt
      generalize hMdef :
        (xor_loop next1 size n (x + 4) (next1 c1).2 (store32 data x (load32 data x ^^^ k))).2 = M
        at hM
      have hl : load32 M x = (load32 data x ^^^ k) % 4294967296 := by
        rw [load32_congr M (store32 data x (load32 data x ^^^ k)) x
          (fun j _ h2 => hM j h2), load32_store32]
      by_cases h4 : x + 4 ≤ a
      · rw [xor_loop_congr next2 size n (x + 4) (next2 c2).2 _ M
          (fun b hb4 => store32_frame _ _ _ _ (Or.inr hb4)) a h4, ← hMdef,
          ih (x + 4) _ _ _ hR' hb1 a, store32_frame _ _ _ _ (Or.inr h4)]
      · rw [xor_loop_frame _ _ _ _ _ _ _ (by omega), hl, store32_apply]
        have e := xor32_twice (load32 data x) k (load32_lt data x)
        have e' := store32_load32 data x hb a
        rw [store32_apply] at e'
        by_cases hax : a < x
        · rw [if_neg (by omega), if_neg (by omega), if_neg (by omega), if_neg (by omega),
            hM a (by omega), store32_frame _ _ _ _ (Or.inl hax)]
        · rw [← e'] 
          have e2 : ∀ v, v / 16777216 % 256 = (v % 4294967296) / 16777216 % 256
              ∧ v / 65536 % 256 = (v % 4294967296) / 65536 % 256
              ∧ v / 256 % 256 = (v % 4294967296) / 256 % 256
              ∧ v % 256 = (v % 4294967296) % 256 := fun v => by omega
          obtain ⟨f3, f2, f1, f0⟩ := e2 ((load32 data x ^^^ k) % 4294967296 ^^^ k)
          rw [f3, f2, f1, f0, e]
          split_ifs <;> first | rfl | omega
    · rfl

/-! ## The PC keystream depends on the seed only -/

theorem wstore_agree (k1 k2 : Keys) (P : Nat → Prop) (a v1 v2 : Nat) (hv : v1 = v2)
    (h : ∀ i, P i → k1 i = k2 i) : ∀ i, (P i ∨ i = a) → wstore k1 a v1 i = wstore k2 a v2 i := by
  intro i hi
  simp only [wstore, hv]
  split_ifs with e
  · rfl
  · rcases hi with hi | hi
    · exact h i hi
    · exact absurd hi e

theorem pc_mix_loop1_agree (edx eax : Nat) (k1 k2 : Keys)
    (h : ∀ i, 1 ≤ i → i ≤ 55 → k1 i = k2 i) (he : 1 ≤ eax) (hb : eax + edx ≤ 25) :
    ∀ i, 1 ≤ i → i ≤ 55 → pc_mix_loop1 edx eax k1 i = pc_mix_loop1 edx eax k2 i := by
  induction edx generalizing eax k1 k2 with
  | zero => exact h
  | succ edx ih =>
    simp only [pc_mix_loop1]
    apply ih _ _ _ _ (by omega) (by omega)
    intro i h1 h2
    apply wstore_agree k1 k2 (fun i => 1 ≤ i ∧ i ≤ 55) _ _ _ _ (fun j hj => h j hj.1 hj.2) i
      (Or.inl ⟨h1, h2⟩)
    rw [h eax he (by omega), h (eax + 0x1F) (by omega) (by omega)]

theorem pc_mix_loop2_agree (edx eax : Nat) (k1 k2 : Keys)
    (h : ∀ i, 1 ≤ i → i ≤ 55 → k1 i = k2 i) (he : 25 ≤ eax) (hb : eax + edx ≤ 56) :
    ∀ i, 1 ≤ i → i ≤ 55 → pc_mix_loop2 edx eax k1 i = pc_mix_loop2 edx eax k2 i := by
  induction edx generalizing eax k1 k2 with
  | zero => exact h
  | succ edx ih =>
    simp only [pc_mix_loop2]
    apply ih _ _ _ _ (by omega) (by omega)
    intro i h1 h2
    apply wstore_agree k1 k2 (fun i => 1 ≤ i ∧ i ≤ 55) _ _ _ _ (fun j hj => h j hj.1 hj.2) i
      (Or.inl ⟨h1, h2⟩)
    rw [h eax (by omega) (by omega), h (eax - 0x18) (by omega) (by omega)]

theorem pc_mix_agree (c1 c2 : CRYPT_SETUP) (h : ∀ i, 1 ≤ i → i ≤ 55 → c1.keys i = c2.keys i) :
    ∀ i, 1 ≤ i → i ≤ 55 → (CRYPT_PC_MixKeys c1).keys i = (CRYPT_PC_MixKeys c2).keys i := by
  simp only [CRYPT_PC_MixKeys]
  exact pc_mix_loop2_agree _ _ _ _
    (pc_mix_loop1_agree _ _ _ _ h (by omega) (by omega)) (by omega) (by omega)

theorem pc_next_of_end (c : CRYPT_SETUP) (h : c.pc_posn = 56) :
    CRYPT_PC_GetNextKey c
      = ((CRYPT_PC_MixKeys c).keys 1, { (CRYPT_PC_MixKeys c) with pc_posn := 2 }) := by
  simp only [CRYPT_PC_GetNextKey, h, if_true]

theorem pc_next_of_lt (c : CRYPT_SETUP) (h : c.pc_posn < 56) :
    CRYPT_PC_GetNextKey c = (c.keys c.pc_posn, { c with pc_posn := c.pc_posn + 1 }) := by
  have e : ¬ c.pc_posn = 56 := by omega
  have hlt : (c.pc_posn + 1) % 4294967296 = c.pc_posn + 1 := by omega
  simp only [CRYPT_PC_GetNextKey, e, if_false, hlt]

theorem pc_next_same (c1 c2 : CRYPT_SETUP) (h : PcSame c1 c2) :
    (CRYPT_PC_GetNextKey c1).1 = (CRYPT_PC_GetNextKey c2).1
    ∧ PcSame (CRYPT_PC_GetNextKey c1).2 (CRYPT_PC_GetNextKey c2).2 := by
  obtain ⟨hp, h1, h56, hk⟩ := h
  by_cases e : c1.pc_posn = 56
  · rw [pc_next_of_end c1 e, pc_next_of_end c2 (hp ▸ e)]
    have hm := pc_mix_agree c1 c2 hk
    generalize CRYPT_PC_MixKeys c1 = m1 at hm ⊢
    generalize CRYPT_PC_MixKeys c2 = m2 at hm ⊢
    refine ⟨hm 1 (le_refl 1) (by norm_num), ?_⟩
    unfold PcSame
    exact ⟨rfl, by norm_num, by norm_num, hm⟩
  · have e1 : c1.pc_posn < 56 := by omega
    have e2 : c2.pc_posn < 56 := by omega
    rw [pc_next_of_lt c1 e1, pc_next_of_lt c2 e2]
    refine ⟨by rw [← hp]; exact hk _ h1 (by omega), ?_⟩
    unfold PcSame
    refine ⟨by simp only [hp], ?_, ?_, hk⟩
    · show 1 ≤ c1.pc_posn + 1
      omega
    · show c1.pc_posn + 1 ≤ 56
      omega

theorem pc_create_loop_agree (n esi ebx edi : Nat) (k1 k2 : Keys) (P : Nat → Prop)
    (h : ∀ i, P i → k1 i = k2 i) :
    ∀ i, (P i ∨ ∃ j, j < n ∧ edi + 0x15 * j ≤ 0x46E ∧ i = (edi + 0x15 * j) % 55) →
      pc_create_loop n esi ebx edi k1 i = pc_create_loop n esi ebx edi k2 i := by
  induction n generalizing esi ebx edi k1 k2 P with
  | zero =>
    intro i hi
    rcases hi with hi | ⟨j, hj, _⟩
    · exact h i hi
    · omega
  | succ n ih =>
    intro i hi
    simp only [pc_create_loop]
    have hedx : edi - edi / 55 * 55 = edi % 55 := by omega
    split_ifs with hle
    · simp only [hedx]
      have hw : wstore k1 (edi % 55) esi (edi % 55) = wstore k2 (edi % 55) esi (edi % 55) := by
        simp only [wstore, if_true]
      rw [hw]
      apply ih _ _ _ _ _ (fun i => P i ∨ i = edi % 55)
        (wstore_agree k1 k2 P (edi % 55) esi esi rfl h)
      rcases hi with hi | ⟨j, hj, hj2, hj3⟩
      · exact Or.inl (Or.inl hi)
      · rcases Nat.eq_zero_or_pos j with hj0 | hj0
        · subst hj0
          exact Or.inl (Or.inr (by simpa using hj3))
        · exact Or.inr ⟨j - 1, by omega, by omega, by rw [hj3]; congr 1; omega⟩
    · rcases hi with hi | ⟨j, hj, hj2, hj3⟩
      · exact h i hi
      · omega

theorem pc_create_covers (i : Nat) (h : i < 55) (h1 : 1 ≤ i) :
    ∃ j, j < 55 ∧ 0x15 + 0x15 * j ≤ 0x46E ∧ i = (0x15 + 0x15 * j) % 55 :=
  ⟨(21 * i) % 55 - 1, by omega, by omega, by omega⟩

theorem pc_create_same (cs1 cs2 : CRYPT_SETUP) (val : Nat) :
    PcSame (CRYPT_PC_CreateKeys cs1 val) (CRYPT_PC_CreateKeys cs2 val) := by
  refine ⟨rfl, by show 1 ≤ 56; omega, by show 56 ≤ 56; omega, ?_⟩
  have h0 : ∀ i, 1 ≤ i → i ≤ 55 →
      pc_create_loop 55 1 val 0x15 (wstore (wstore cs1.keys 56 val) 55 val) i
        = pc_create_loop 55 1 val 0x15 (wstore (wstore cs2.keys 56 val) 55 val) i := by
    intro i h1 h2
    apply pc_create_loop_agree 55 1 val 0x15 _ _ (fun i => i = 55)
    · intro j hj
      simp only [wstore, hj, if_true]
    · by_cases e : i = 55
      · exact Or.inl e
      · exact Or.inr (pc_create_covers i (by omega) h1)
  simp only [CRYPT_PC_CreateKeys]
  exact pc_mix_agree _ _ (pc_mix_agree _ _ (pc_mix_agree _ _ (pc_mix_agree _ _ h0)))

theorem pc_keystream_same (n : Nat) (c1 c2 : CRYPT_SETUP) (h : PcSame c1 c2) :
    pc_keystream n c1 = pc_keystream n c2 := by
  induction n generalizing c1 c2 with
  | zero => rfl
  | succ n ih =>
    simp only [pc_keystream]
    obtain ⟨h1, h2⟩ := pc_next_same c1 c2 h
    rw [h1, ih _ _ h2]

/-! ## The GameCube keystream depends on the seed only -/

theorem gc_mix_loop1_fst (n r5 r6 : Nat) (k : Keys) : (gc_mix_loop1 n r5 r6 k).1 = r5 + n := by
  induction n generalizing r5 r6 k with
  | zero => rfl
  | succ n ih => simp only [gc_mix_loop1]; rw [ih]; omega

theorem gc_mix_loop1_agree (n r5 r6 : Nat) (k1 k2 : Keys)
    (h : ∀ i, i < 521 → k1 i = k2 i) (h5 : r5 + n ≤ 521) (h6 : r6 + n ≤ 521) :
    ∀ i, i < 521 → (gc_mix_loop1 n r5 r6 k1).2 i = (gc_mix_loop1 n r5 r6 k2).2 i := by
  induction n generalizing r5 r6 k1 k2 with
  | zero => exact h
  | succ n ih =>
    simp only [gc_mix_loop1]
    apply ih _ _ _ _ _ (by omega) (by omega)
    intro i hi
    apply wstore_agree k1 k2 (fun i => i < 521) _ _ _ _ h i (Or.inl hi)
    rw [h r6 (by omega), h r5 (by omega)]

theorem gc_mix_loop2_agree (n r5 r7 : Nat) (k1 k2 : Keys)
    (h : ∀ i, i < 521 → k1 i = k2 i) (h5 : r5 + n ≤ 521) (h7 : r7 + n ≤ 521) :
    ∀ i, i < 521 → gc_mix_loop2 n r5 r7 k1 i = gc_mix_loop2 n r5 r7 k2 i := by
  induction n generalizing r5 r7 k1 k2 with
  | zero => exact h
  | succ n ih =>
    simp only [gc_mix_loop2]
    apply ih _ _ _ _ _ (by omega) (by omega)
    intro i hi
    apply wstore_agree k1 k2 (fun i => i < 521) _ _ _ _ h i (Or.inl hi)
    rw [h r7 (by omega), h r5 (by omega)]

theorem gc_mix_keys (cs : CRYPT_SETUP) (he : cs.gc_block_end_ptr = 521) :
    (CRYPT_GC_MixKeys cs).keys
      = gc_mix_loop2 489 32 0 (gc_mix_loop1 32 0 489 cs.keys).2 := by
  simp only [CRYPT_GC_MixKeys, he, gc_mix_loop1_fst]

theorem gc_mix_agree (c1 c2 : CRYPT_SETUP) (h1 : c1.gc_block_end_ptr = 521)
    (h2 : c2.gc_block_end_ptr = 521) (h : ∀ i, i < 521 → c1.keys i = c2.keys i) :
    ∀ i, i < 521 → (CRYPT_GC_MixKeys c1).keys i = (CRYPT_GC_MixKeys c2).keys i := by
  rw [gc_mix_keys c1 h1, gc_mix_keys c2 h2]
  exact gc_mix_loop2_agree _ _ _ _ _
    (gc_mix_loop1_agree _ _ _ _ _ h (by omega) (by omega)) (by omega) (by omega)

theorem gc_mix_ptr (cs : CRYPT_SETUP) : (CRYPT_GC_MixKeys cs).gc_block_ptr = 0 := by
  simp only [CRYPT_GC_MixKeys]

theorem gc_mix_end (cs : CRYPT_SETUP) :
    (CRYPT_GC_MixKeys cs).gc_block_end_ptr = cs.gc_block_end_ptr := by
  simp only [CRYPT_GC_MixKeys]

theorem gc_next_of_end (c : CRYPT_SETUP) (h : c.gc_block_ptr + 1 = c.gc_block_end_ptr) :
    CRYPT_GC_GetNextKey c
      = ((CRYPT_GC_MixKeys { c with gc_block_ptr := c.gc_block_ptr + 1 }).keys 0,
          CRYPT_GC_MixKeys { c with gc_block_ptr := c.gc_block_ptr + 1 }) := by
  simp only [CRYPT_GC_GetNextKey, h, if_true, gc_mix_ptr]

theorem gc_next_of_ne (c : CRYPT_SETUP) (h : ¬ c.gc_block_ptr + 1 = c.gc_block_end_ptr) :
    CRYPT_GC_GetNextKey c
      = (c.keys (c.gc_block_ptr + 1), { c with gc_block_ptr := c.gc_block_ptr + 1 }) := by
  simp only [CRYPT_GC_GetNextKey, h, if_false]

theorem gc_next_same (c1 c2 : CRYPT_SETUP) (h : GcSame c1 c2) :
    (CRYPT_GC_GetNextKey c1).1 = (CRYPT_GC_GetNextKey c2).1
    ∧ GcSame (CRYPT_GC_GetNextKey c1).2 (CRYPT_GC_GetNextKey c2).2 := by
  obtain ⟨hp, h520, he1, he2, hk⟩ := h
  by_cases e : c1.gc_block_ptr + 1 = 521
  · rw [gc_next_of_end c1 (by rw [he1]; exact e), gc_next_of_end c2 (by rw [he2, ← hp]; exact e)]
    have hm := gc_mix_agree { c1 with gc_block_ptr := c1.gc_block_ptr + 1 }
      { c2 with gc_block_ptr := c2.gc_block_ptr + 1 } he1 he2 hk
    have p1 := gc_mix_ptr { c1 with gc_block_ptr := c1.gc_block_ptr + 1 }
    have p2 := gc_mix_ptr { c2 with gc_block_ptr := c2.gc_block_ptr + 1 }
    have q1 := gc_mix_end { c1 with gc_block_ptr := c1.gc_block_ptr + 1 }
    have q2 := gc_mix_end { c2 with gc_block_ptr := c2.gc_block_ptr + 1 }
    generalize CRYPT_GC_MixKeys { c1 with gc_block_ptr := c1.gc_block_ptr + 1 } = m1 at *
    generalize CRYPT_GC_MixKeys { c2 with gc_block_ptr := c2.gc_block_ptr + 1 } = m2 at *
    refine ⟨hm 0 (by norm_num), ?_⟩
    unfold GcSame
    exact ⟨by rw [p1, p2], by rw [p1]; norm_num, by rw [q1]; exact he1, by rw [q2]; exact he2, hm⟩
  · rw [gc_next_of_ne c1 (by rw [he1]; exact e), gc_next_of_ne c2 (by rw [he2, ← hp]; exact e)]
    refine ⟨by rw [← hp]; exact hk _ (by omega), ?_⟩
    unfold GcSame
    refine ⟨by simp only [hp], ?_, he1, he2, hk⟩
    show c1.gc_block_ptr + 1 ≤ 520
    omega

theorem gc_keystream_same (n : Nat) (c1 c2 : CRYPT_SETUP) (h : GcSame c1 c2) :
    gc_keystream n c1 = gc_keystream n c2 := by
  induction n generalizing c1 c2 with
  | zero => rfl
  | succ n ih =>
    simp only [gc_keystream]
    obtain ⟨h1, h2⟩ := gc_next_same c1 c2 h
    rw [h1, ih _ _ h2]

theorem gc_base_words_snd (n : Nat) (k1 k2 : Keys) (ptr seed basekey : Nat) :
    (gc_base_words n k1 ptr seed basekey).2 = (gc_base_words n k2 ptr seed basekey).2
    ∧ (gc_base_words n k1 ptr seed basekey).2.1 = ptr + n := by
  induction n generalizing k1 k2 ptr seed basekey with
  | zero => exact ⟨rfl, rfl⟩
  | succ n ih =>
    simp only [gc_base_words]
    obtain ⟨h1, h2⟩ := ih (wstore k1 ptr (gc_base_rounds 32 seed basekey).2)
      (wstore k2 ptr (gc_base_rounds 32 seed basekey).2) (ptr + 1)
      (gc_base_rounds 32 seed basekey).1 (gc_base_rounds 32 seed basekey).2
    exact ⟨h1, by rw [h2]; omega⟩

theorem gc_base_words_agree (n : Nat) (k1 k2 : Keys) (ptr seed basekey : Nat) (P : Nat → Prop)
    (h : ∀ i, P i → k1 i = k2 i) :
    ∀ i, (P i ∨ (ptr ≤ i ∧ i < ptr + n)) →
      (gc_base_words n k1 ptr seed basekey).1 i = (gc_base_words n k2 ptr seed basekey).1 i := by
  induction n generalizing k1 k2 ptr seed basekey P with
  | zero =>
    intro i hi
    rcases hi with hi | hi
    · exact h i hi
    · omega
  | succ n ih =>
    intro i hi
    simp only [gc_base_words]
    apply ih _ _ _ _ _ (fun i => P i ∨ i = ptr) (wstore_agree k1 k2 P ptr _ _ rfl h)
    rcases hi with hi | hi
    · exact Or.inl (Or.inl hi)
    · by_cases e : i = ptr
      · exact Or.inl (Or.inr e)
      · exact Or.inr (by omega)

theorem gc_fill_loop_snd (n : Nat) (k : Keys) (ptr s1 s2 s3 : Nat) :
    (gc_fill_loop n k ptr s1 s2 s3).2 = ptr + n := by
  induction n generalizing k ptr s1 s2 s3 with
  | zero => rfl
  | succ n ih => simp only [gc_fill_loop]; rw [ih]; omega

theorem gc_fill_loop_agree (n : Nat) (k1 k2 : Keys) (ptr s1 s2 s3 : Nat)
    (h : ∀ i, i < ptr → k1 i = k2 i) (h1 : s1 < ptr) (h2 : s2 < ptr) (h3 : s3 < ptr) :
    ∀ i, i < ptr + n →
      (gc_fill_loop n k1 ptr s1 s2 s3).1 i = (gc_fill_loop n k2 ptr s1 s2 s3).1 i := by
  induction n generalizing k1 k2 ptr s1 s2 s3 with
  | zero => exact h
  | succ n ih =>
    intro i hi
    simp only [gc_fill_loop]
    rw [h s1 h1, h s2 h2, h s3 h3]
    apply ih _ _ (ptr + 1) (s1 + 1) (s2 + 1) (s3 + 1) _ (by omega) (by omega) (by omega) i
      (by omega)
    intro j hj
    apply wstore_agree k1 k2 (fun i => i < ptr) ptr _ _ rfl h j
    by_cases e : j = ptr
    · exact Or.inr e
    · exact Or.inl (by omega)

theorem gc_create_fill_keys (cs : CRYPT_SETUP) (seed : Nat) :
    (gc_create_fill cs seed).keys
      = (gc_fill_loop 504
          (wstore (gc_base_words 17 cs.keys 0 seed 0).1 16
            ((((gc_base_words 17 cs.keys 0 seed 0).1 0 >>> 9)
              ^^^ (((gc_base_words 17 cs.keys 0 seed 0).1 16 <<< 23) % 4294967296))
              ^^^ (gc_base_words 17 cs.keys 0 seed 0).1 15))
          17 0 1 16).1 := by
  have hp := (gc_base_words_snd 17 cs.keys cs.keys 0 seed 0).2
  simp only [gc_create_fill, hp]

theorem gc_create_fill_end (cs : CRYPT_SETUP) (seed : Nat) :
    (gc_create_fill cs seed).gc_block_end_ptr = 521 := by
  simp only [gc_create_fill]

theorem gc_create_fill_agree (cs1 cs2 : CRYPT_SETUP) (seed : Nat) :
    ∀ i, i < 521 → (gc_create_fill cs1 seed).keys i = (gc_create_fill cs2 seed).keys i := by
  intro i hi
  rw [gc_create_fill_keys, gc_create_fill_keys]
  have hB : ∀ j, j < 17 →
      (gc_base_words 17 cs1.keys 0 seed 0).1 j = (gc_base_words 17 cs2.keys 0 seed 0).1 j := by
    intro j hj
    exact gc_base_words_agree 17 cs1.keys cs2.keys 0 seed 0 (fun _ => False)
      (fun _ hf => absurd hf id) j (Or.inr ⟨by omega, by omega⟩)
  rw [hB 0 (by omega), hB 16 (by omega), hB 15 (by omega)]
  apply gc_fill_loop_agree 504 _ _ 17 0 1 16 _ (by omega) (by omega) (by omega) i (by omega)
  intro j hj
  apply wstore_agree _ _ (fun i => i < 17) 16 _ _ rfl hB j (Or.inl hj)

theorem gc_create_same (cs1 cs2 : CRYPT_SETUP) (seed : Nat) :
    GcSame (CRYPT_GC_CreateKeys cs1 seed) (CRYPT_GC_CreateKeys cs2 seed) := by
  have hc : ∀ cs, CRYPT_GC_CreateKeys cs seed
      = { (CRYPT_GC_MixKeys (CRYPT_GC_MixKeys (CRYPT_GC_MixKeys (gc_create_fill cs seed))))
          with gc_block_ptr := 520 } := fun _ => by simp only [CRYPT_GC_CreateKeys]
  rw [hc cs1, hc cs2]
  unfold GcSame
  have h0 := gc_create_fill_agree cs1 cs2 seed
  have e1 := gc_create_fill_end cs1 seed
  have e2 := gc_create_fill_end cs2 seed
  generalize gc_create_fill cs1 seed = f1 at *
  generalize gc_create_fill cs2 seed = f2 at *
  have h1 := gc_mix_agree f1 f2 e1 e2 h0
  have e1' := (gc_mix_end f1).trans e1
  have e2' := (gc_mix_end f2).trans e2
  have h2 := gc_mix_agree _ _ e1' e2' h1
  have e1'' := (gc_mix_end (CRYPT_GC_MixKeys f1)).trans e1'
  have e2'' := (gc_mix_end (CRYPT_GC_MixKeys f2)).trans e2'
  have h3 := gc_mix_agree _ _ e1'' e2'' h2
  have e1''' := (gc_mix_end (CRYPT_GC_MixKeys (CRYPT_GC_MixKeys f1))).trans e1''
  have e2''' := (gc_mix_end (CRYPT_GC_MixKeys (CRYPT_GC_MixKeys f2))).trans e2''
  generalize CRYPT_GC_MixKeys (CRYPT_GC_MixKeys (CRYPT_GC_MixKeys f1)) = m1 at *
  generalize CRYPT_GC_MixKeys (CRYPT_GC_MixKeys (CRYPT_GC_MixKeys f2)) = m2 at *
  exact ⟨rfl, le_refl 520, e1''', e2''', h3⟩

/-- C10: the keystream depends on the seed only. For both variants, every seed `s`,
every `n`, and any two context structures with arbitrary previous contents, the first
`n` words returned by the next-key routine after key creation with `s` are the same
(`n` is unbounded, so any number of internal remixes is covered). -/
theorem keystream_determinism (s n : Nat) (cs1 cs2 : CRYPT_SETUP) :
    pc_keystream n (CRYPT_PC_CreateKeys cs1 s) = pc_keystream n (CRYPT_PC_CreateKeys cs2 s)
    ∧ gc_keystream n (CRYPT_GC_CreateKeys cs1 s)
        = gc_keystream n (CRYPT_GC_CreateKeys cs2 s) :=
  ⟨pc_keystream_same n _ _ (pc_create_same cs1 cs2 s),
    gc_keystream_same n _ _ (gc_create_same cs1 cs2 s)⟩

theorem memOfList_lt (l : List Nat) (fill : Nat) (hl : ∀ v ∈ l, v < 256) (hf : fill < 256)
    (j : Nat) : memOfList l fill j < 256 := by
  unfold memOfList
  rw [List.getD_eq_getElem?_getD]
  cases h : l[j]? with
  | none => exact hf
  | some v => exact hl v (List.getElem?_mem h)

/-- C2: the transform is an involution under a fresh context of the same seed. For both
variants, every seed `s`, every byte memory `data` and every size that is a multiple of
4 (below 2^32, the range of the `uint32_t` loop counter of the PC variant): transforming
the data with a context freshly created from `s` and then transforming the result with
another context freshly created from `s` gives back the original memory, whatever the
two context structures held before key creation. -/
theorem cipher_involution (s size : Nat) (cs1 cs2 : CRYPT_SETUP) (data : Mem)
    (hb : ∀ j, data j < 256) (_h4 : size % 4 = 0) (_hsz : size < 4294967296) :
    (CRYPT_PC_CryptData (CRYPT_PC_CreateKeys cs2 s)
        (CRYPT_PC_CryptData (CRYPT_PC_CreateKeys cs1 s) data size).2 size).2 = data
    ∧ (CRYPT_GC_CryptData (CRYPT_GC_CreateKeys cs2 s)
        (CRYPT_GC_CryptData (CRYPT_GC_CreateKeys cs1 s) data size).2 size).2 = data := by
  constructor
  · funext a
    simp only [CRYPT_PC_CryptData, pc_crypt_loop_eq]
    exact xor_loop_involution CRYPT_PC_GetNextKey CRYPT_PC_GetNextKey PcSame pc_next_same
      size size 0 _ _ data (pc_create_same cs1 cs2 s) hb a
  · funext a
    simp only [CRYPT_GC_CryptData, gc_crypt_loop_eq]
    exact xor_loop_involution CRYPT_GC_GetNextKey CRYPT_GC_GetNextKey GcSame gc_next_same
      size size 0 _ _ data (gc_create_same cs1 cs2 s) hb a

/-- C2 at the seed 1 and the 8-byte buffer `1 2 3 4 5 6 7 8`, with both contexts
zeroed before key creation. -/
theorem cipher_involution_witness :
    (∀ j, memOfList [1, 2, 3, 4, 5, 6, 7, 8] 0 j < 256) ∧ 8 % 4 = 0 ∧ 8 < 4294967296
    ∧ (CRYPT_PC_CryptData (CRYPT_PC_CreateKeys zeroSetup 1)
        (CRYPT_PC_CryptData (CRYPT_PC_CreateKeys zeroSetup 1)
          (memOfList [1, 2, 3, 4, 5, 6, 7, 8] 0) 8).2 8).2
        = memOfList [1, 2, 3, 4, 5, 6, 7, 8] 0
    ∧ (CRYPT_GC_CryptData (CRYPT_GC_CreateKeys zeroSetup 1)
        (CRYPT_GC_CryptData (CRYPT_GC_CreateKeys zeroSetup 1)
          (memOfList [1, 2, 3, 4, 5, 6, 7, 8] 0) 8).2 8).2
        = memOfList [1, 2, 3, 4, 5, 6, 7, 8] 0 :=
  ⟨memOfList_lt _ _ (by decide) (by decide), by decide, by decide,
    cipher_involution 1 8 zeroSetup zeroSetup (memOfList [1, 2, 3, 4, 5, 6, 7, 8] 0)
      (memOfList_lt _ _ (by decide) (by decide)) (by decide) (by decide)⟩

/-! ## Ranges of the copy tokens -/

theorem match_extend_le (src : Mem) (size x y n xsize : Nat) (h : xsize ≤ 255) :
    match_extend src size x y n xsize ≤ 256 := by
  induction n generalizing xsize with
  | zero => simp only [match_extend]; omega
  | succ n ih =>
    simp only [match_extend]
    split_ifs with hc
    · simp only [Bool.and_eq_true, decide_eq_true_eq] at hc
      exact ih (xsize + 1) (by omega)
    · omega

theorem prs_search_size_le (src : Mem) (size x : Nat) : (prs_search src size x).2 ≤ 255 := by
  unfold prs_search
  apply search_loop_invariant (fun r => r.2 ≤ 255)
  · show (0 : Nat) ≤ 255
    omega
  · intro c _ _ _ _
    have h1 := match_extend_le src size x c 253 3 (by omega)
    show match_extend src size x c 253 3 - 1 ≤ 255
    omega

theorem prs_search_candidate (src : Mem) (size x : Nat) (h0 : (prs_search src size x).2 ≠ 0) :
    ∃ y0, 1 ≤ y0 ∧ y0 + 3 ≤ x ∧ x < y0 + 0x1FF0
      ∧ (prs_search src size x).1 = -((x : Int) - (y0 : Int))
      ∧ match_size src size x y0 = (prs_search src size x).2 := by
  have h := search_loop_nearest src size x (x - 3) 0 0 0 (by omega) (Or.inl rfl)
    (fun c h1 h2 => by omega) (fun c _ _ _ hne => absurd rfl hne)
  rcases h.1 with h1 | h1
  · exact absurd h1 h0
  · exact h1

/-- C16: the ranges of the copy tokens. At every position `x < size` (sizes below 2^31,
the range of the `int` position counter) where the match search of `prs_compress` ends
with `lssize ≠ 0`, the loop pass emits `prs_copy(lsoffset, lssize)` where
`lsoffset = -(x - y)` for a candidate start `y` with `1 ≤ y ≤ x - 3` and `x - y ≤ 8175`,
whose match has length `lssize`; so the distance lies in `[-8175, -3]`, and the length
lies in `[3, 255]`. -/
theorem prs_copy_token_ranges (src : Mem) (size x : Nat) (pc : PRS_COMPRESSOR) (n : Nat)
    (_hs : size < 2147483648) (hx : x < size) (h0 : (prs_search src size x).2 ≠ 0) :
    compress_loop src size (n + 1) x pc
      = compress_loop src size n (x + ((prs_search src size x).2 - 1) + 1)
          (prs_copy pc (prs_search src size x).1 (prs_search src size x).2)
    ∧ (∃ y, 1 ≤ y ∧ y + 3 ≤ x ∧ x - y ≤ 8175
        ∧ (prs_search src size x).1 = -((x : Int) - (y : Int))
        ∧ match_size src size x y = (prs_search src size x).2)
    ∧ -8175 ≤ (prs_search src size x).1 ∧ (prs_search src size x).1 ≤ -3
    ∧ 3 ≤ (prs_search src size x).2 ∧ (prs_search src size x).2 ≤ 255 := by
  obtain ⟨y0, h1, h2, h3, h4, h5⟩ := prs_search_candidate src size x h0
  have hle := prs_search_size_le src size x
  have hge : 3 ≤ (prs_search src size x).2 := by
    rcases prs_search_size src size x with hz | ⟨hz, _⟩
    · exact absurd hz h0
    · exact hz
  refine ⟨compress_loop_copy src size n x pc hx h0, ⟨y0, h1, h2, by omega, h4, h5⟩, ?_, ?_,
    hge, hle⟩
  · rw [h4]; omega
  · rw [h4]; omega

set_option maxRecDepth 100000 in
/-- C16 at `x = 9` of the buffer `0 1 2 3 9 1 2 3 8 1 2 3 7`: the copy emitted there
has distance -4 and length 3. -/
theorem prs_copy_token_ranges_witness :
    13 < 2147483648 ∧ 9 < 13
    ∧ (prs_search (memOfList [0, 1, 2, 3, 9, 1, 2, 3, 8, 1, 2, 3, 7] 0) 13 9).2 ≠ 0
    ∧ prs_search (memOfList [0, 1, 2, 3, 9, 1, 2, 3, 8, 1, 2, 3, 7] 0) 13 9 = (-4, 3)
    ∧ -8175 ≤ (prs_search (memOfList [0, 1, 2, 3, 9, 1, 2, 3, 8, 1, 2, 3, 7] 0) 13 9).1
    ∧ (prs_search (memOfList [0, 1, 2, 3, 9, 1, 2, 3, 8, 1, 2, 3, 7] 0) 13 9).2 ≤ 255 :=
  ⟨by decide, by decide, by decide, by decide,
    (prs_copy_token_ranges (memOfList [0, 1, 2, 3, 9, 1, 2, 3, 8, 1, 2, 3, 7] 0) 13 9
      (prs_init (fun _ => 0)) 0 (by decide) (by decide) (by decide)).2.2.1,
    (prs_copy_token_ranges (memOfList [0, 1, 2, 3, 9, 1, 2, 3, 8, 1, 2, 3, 7] 0) 13 9
      (prs_init (fun _ => 0)) 0 (by decide) (by decide) (by decide)).2.2.2.2.2⟩

/-! ## The match search at the end of the source, and the End token -/

set_option maxRecDepth 100000 in
/-- C13 (match bounds), evaluated where it breaks: the 6-byte buffer `7 8 9 5 8 9`.
At `x = 4` the three-byte `memcmp` against `y = 1` compares `src[6]`, a byte behind the
buffer. When that byte is `5` the search returns the copy `(-3, 3)`, for which
`x + L = 7` exceeds `size = 6`; when it is `0` the search returns no match. The two
memories agree on the whole buffer, and `prs_compress` writes different output for
them. -/
theorem prs_match_leaves_source :
    readBytes (memOfList [7, 8, 9, 5, 8, 9, 5] 0) 6 = readBytes (memOfList [7, 8, 9, 5, 8, 9] 0) 6
    ∧ prs_search (memOfList [7, 8, 9, 5, 8, 9, 5] 0) 6 4 = (-3, 3)
    ∧ ¬ (4 + 3 ≤ 6)
    ∧ prs_search (memOfList [7, 8, 9, 5, 8, 9] 0) 6 4 = (0, 0)
    ∧ prs_compress_bytes (memOfList [7, 8, 9, 5, 8, 9, 5] 0) (fun _ => 0) 6
        = [143, 7, 8, 9, 5, 253, 2, 0, 0]
    ∧ prs_compress_bytes (memOfList [7, 8, 9, 5, 8, 9] 0) (fun _ => 0) 6
        = [191, 7, 8, 9, 5, 8, 9, 0, 0, 0] := by
  decide

set_option maxRecDepth 100000 in
/-- C11 (End-token invariant), evaluated where it breaks: a destination buffer used
twice. Compressing `31 32 33 34 35 36 16 37 6` into a zero-filled destination leaves `16`
in byte 7. Compressing `1 2 3 4 5 6` into the same destination, the End bits fill the
first control byte, `prs_finish` opens a control byte at index 7 and never writes it, and
the 10 bytes returned are `BF 01 02 03 04 05 06 10 00 00`. The decoder reads `10 00` as
the long-form field, which is not zero: it decodes a copy there, does not stop within
seven tokens, and stops only at bytes 11 and 12, behind the 10 bytes returned. -/
theorem prs_end_token_breaks :
    prs_compress_bytes (memOfList [1, 2, 3, 4, 5, 6] 0)
        (prs_compress (memOfList [31, 32, 33, 34, 35, 36, 16, 37, 6] 0) (fun _ => 0) 9).2 6
      = [191, 1, 2, 3, 4, 5, 6, 16, 0, 0]
    ∧ (prs_decompress 7
        (prs_compress (memOfList [1, 2, 3, 4, 5, 6] 0)
          (prs_compress (memOfList [31, 32, 33, 34, 35, 36, 16, 37, 6] 0) (fun _ => 0) 9).2 6).2
        (fun _ => 0)).isNone = true
    ∧ (prs_decompress 8
        (prs_compress (memOfList [1, 2, 3, 4, 5, 6] 0)
          (prs_compress (memOfList [31, 32, 33, 34, 35, 36, 16, 37, 6] 0) (fun _ => 0) 9).2 6).2
        (fun _ => 0)).map (fun r => (r.1, r.2.sourceptr)) = some (7, 13) := by
  decide

/-! ## The cipher facade -/

/-- C12: the facade fails only on an unknown variant. For every type tag (an
`unsigned char`, so below 256) `CRYPT_CreateKeys` returns 1 exactly when the tag is
`CRYPT_GAMECUBE` (0), `CRYPT_BLUEBURST` (1) or `CRYPT_PC` (2), and returns 0 for every
other tag. `CRYPT_CryptData` returns 1 exactly when the type of the context is one of
the three, and for every other type it returns 0 and leaves the context and the data
buffer as they were. -/
theorem crypt_facade_returns (bb : BB_CIPHER) (cs0 : CRYPT_SETUP) (key : Mem) (type : Nat)
    (cs : CRYPT_SETUP) (data : Mem) (size : Nat) (encrypting : Int) (ht : type < 256) :
    ((CRYPT_CreateKeys bb cs0 key type).1 = 1 ↔ (type = 0 ∨ type = 1 ∨ type = 2))
    ∧ (¬ (type = 0 ∨ type = 1 ∨ type = 2) → (CRYPT_CreateKeys bb cs0 key type).1 = 0)
    ∧ ((CRYPT_CryptData bb cs data size encrypting).1 = 1
        ↔ (cs.type = 0 ∨ cs.type = 1 ∨ cs.type = 2))
    ∧ (¬ (cs.type = 0 ∨ cs.type = 1 ∨ cs.type = 2)
        → CRYPT_CryptData bb cs data size encrypting = (0, cs, data)) := by
  have hm : type % 256 = type := Nat.mod_eq_of_lt ht
  refine ⟨?_, ?_, ?_, ?_⟩
  · simp only [CRYPT_CreateKeys, hm]
    split_ifs with h1 h2 h3
    · exact ⟨fun _ => Or.inr (Or.inr h1), fun _ => rfl⟩
    · exact ⟨fun _ => Or.inl h2, fun _ => rfl⟩
    · exact ⟨fun _ => Or.inr (Or.inl h3), fun _ => rfl⟩
    · constructor
      · intro h; exact absurd h (by decide)
      · intro h; rcases h with h | h | h
        · exact absurd h h2
        · exact absurd h h3
        · exact absurd h h1
  · intro h
    simp only [CRYPT_CreateKeys, hm]
    split_ifs with h1 h2 h3
    · exact absurd (Or.inr (Or.inr h1)) h
    · exact absurd (Or.inl h2) h
    · exact absurd (Or.inr (Or.inl h3)) h
    · rfl
  · simp only [CRYPT_CryptData]
    split_ifs with h1 h2 h3 h4
    · exact ⟨fun _ => Or.inr (Or.inr h1), fun _ => rfl⟩
    · exact ⟨fun _ => Or.inl h2, fun _ => rfl⟩
    · exact ⟨fun _ => Or.inr (Or.inl h3), fun _ => rfl⟩
    · exact ⟨fun _ => Or.inr (Or.inl h3), fun _ => rfl⟩
    · constructor
      · intro h; exact absurd h (by decide)
      · intro h; rcases h with h | h | h
        · exact absurd h h2
        · exact absurd h h3
        · exact absurd h h1
  · intro h
    simp only [CRYPT_CryptData]
    split_ifs with h1 h2 h3 h4
    · exact absurd (Or.inr (Or.inr h1)) h
    · exact absurd (Or.inl h2) h
    · exact absurd (Or.inr (Or.inl h3)) h
    · exact absurd (Or.inr (Or.inl h3)) h
    · rfl

/-- C12 at the tag 7 and a context of type 7, with a Blue Burst cipher that does
nothing: both facade functions return 0. -/
theorem crypt_facade_returns_witness :
    7 < 256
    ∧ (CRYPT_CreateKeys ⟨fun c _ => c, fun c d _ => (c, d), fun c d _ => (c, d)⟩ zeroSetup
        (fun _ => 0) 7).1 = 0
    ∧ (CRYPT_CryptData ⟨fun c _ => c, fun c d _ => (c, d), fun c d _ => (c, d)⟩
        (CRYPT_CreateKeys ⟨fun c _ => c, fun c d _ => (c, d), fun c d _ => (c, d)⟩ zeroSetup
          (fun _ => 0) 7).2 (fun _ => 0) 8 1).1 = 0 :=
  ⟨by decide,
    (crypt_facade_returns ⟨fun c _ => c, fun c d _ => (c, d), fun c d _ => (c, d)⟩ zeroSetup
      (fun _ => 0) 7 zeroSetup (fun _ => 0) 0 0 (by decide)).2.1 (by decide),
    by decide⟩

/-! ## The PC cipher: next word and key derivation -/

/-- C18 as stated, refuted: in a context whose cursor is 55 (ring slot `p` holding `p`)
`CRYPT_PC_GetNextKey` returns slot 55 and moves the cursor to 56; it does not reset the
cursor and does not run the mix (slot 1 keeps its value, which the mix would change). -/
theorem pc_next_word_at_55 :
    (CRYPT_PC_GetNextKey { zeroSetup with keys := fun p => p, pc_posn := 55 }).1 = 55
    ∧ (CRYPT_PC_GetNextKey { zeroSetup with keys := fun p => p, pc_posn := 55 }).2.pc_posn = 56
    ∧ (CRYPT_PC_GetNextKey { zeroSetup with keys := fun p => p, pc_posn := 55 }).2.keys 1 = 1
    ∧ (CRYPT_PC_MixKeys { zeroSetup with keys := fun p => p, pc_posn := 55 }).keys 1
        = 4294967265 := by
  decide

/-- C18, amended: for every PC context state, `CRYPT_PC_GetNextKey` runs the mix once and
resets the cursor to 1 exactly when the cursor equals 56: then it returns slot 1 of the
mixed ring and leaves the mixed ring with the cursor at 2. In every other state it leaves
the ring as it is, returns `ring[cursor]` and increments the cursor (a `uint32_t`). -/
theorem pc_next_word (c : CRYPT_SETUP) :
    CRYPT_PC_GetNextKey c
      = if c.pc_posn = 56 then
          ((CRYPT_PC_MixKeys c).keys 1, { (CRYPT_PC_MixKeys c) with pc_posn := 2 })
        else (c.keys c.pc_posn, { c with pc_posn := (c.pc_posn + 1) % 4294967296 }) := by
  by_cases h : c.pc_posn = 56
  · rw [if_pos h]
    exact pc_next_of_end c h
  · rw [if_neg h]
    simp only [CRYPT_PC_GetNextKey, h, if_false]

theorem pc_create_fill_keys (pc : CRYPT_SETUP) (val : Nat) :
    CRYPT_PC_CreateKeys pc val
      = { (CRYPT_PC_MixKeys (CRYPT_PC_MixKeys (CRYPT_PC_MixKeys (CRYPT_PC_MixKeys
            { pc with keys := pc_create_fill pc val })))) with pc_posn := 56 } := rfl

theorem pc_create_loop_recurrence (n : Nat) :
    ∀ (i a b : Nat) (k : Keys), i + n = 55 →
      pc_create_loop (n + 1) b a (21 * i) k = pc_ring_recurrence n i a b k := by
  induction n with
  | zero =>
    intro i a b k h
    have e : ¬ (21 * i ≤ 0x46E) := by omega
    simp only [pc_create_loop, pc_ring_recurrence, e, if_false]
  | succ n ih =>
    intro i a b k h
    have e : 21 * i ≤ 0x46E := by omega
    have e1 : 21 * i - 21 * i / 55 * 55 = (21 * i) % 55 := by omega
    have e2 : 21 * i + 0x15 = 21 * (i + 1) := by omega
    rw [pc_create_loop]
    simp only [e, if_true, e1, e2]
    rw [ih (i + 1) _ _ _ (by omega)]
    simp only [pc_ring_recurrence]

theorem pc_ring_recurrence_frame (j : Nat) (n : Nat) :
    ∀ (i a b : Nat) (k : Keys), (∀ m, i ≤ m → m < i + n → (21 * m) % 55 ≠ j) →
      pc_ring_recurrence n i a b k j = k j := by
  induction n with
  | zero => intro i a b k _; rfl
  | succ n ih =>
    intro i a b k h
    simp only [pc_ring_recurrence]
    rw [ih (i + 1) _ _ _ (fun m h1 h2 => h m (by omega) (by omega))]
    have := h i (Nat.le_refl i) (by omega)
    simp only [wstore]
    rw [if_neg (fun e => this e.symm)]
set_option maxRecDepth 100000 in
/-- C17 as stated, refuted at the seed 1: the ring `CRYPT_PC_CreateKeys` builds before
the mix has 1 in slot 21 and leaves slot 0 as the `memset` made it, while the recurrence
started with `a = seed`, `b = seed` and run for `i = 0..54` puts 0 in slot 21 and the
seed in slot 0. -/
theorem pc_key_derivation_seed_one :
    pc_create_fill zeroSetup 1 21 = 1
    ∧ pc_ring_recurrence 55 0 1 1 zeroSetup.keys 21 = 0
    ∧ pc_create_fill zeroSetup 1 0 = 0
    ∧ pc_ring_recurrence 55 0 1 1 zeroSetup.keys 0 = 1 := by
  decide

/-- C17, amended: for every 32-bit seed, the ring that `CRYPT_PC_CreateKeys` builds
before it runs the mix operation equals the ring produced by this recurrence
(arithmetic mod 2^32) from the ring whose slots 55 and 56 hold the seed: `a = seed`,
`b = 1`; for `i = 1..54` at `idx = (21 * i) mod 55`: `ring[idx] = b`, then `b = a - b`
and `a = ring[idx]`. Slot 0 is not written, and slots 55 and 56 keep the seed. The four
mixes of `CRYPT_PC_CreateKeys` start from this ring. -/
theorem pc_key_derivation (pc : CRYPT_SETUP) (seed : Nat) :
    pc_create_fill pc seed
      = pc_ring_recurrence 54 1 seed 1 (wstore (wstore pc.keys 56 seed) 55 seed)
    ∧ pc_create_fill pc seed 0 = pc.keys 0
    ∧ pc_create_fill pc seed 55 = seed % 4294967296
    ∧ pc_create_fill pc seed 56 = seed % 4294967296
    ∧ CRYPT_PC_CreateKeys pc seed
        = { (CRYPT_PC_MixKeys (CRYPT_PC_MixKeys (CRYPT_PC_MixKeys (CRYPT_PC_MixKeys
              { pc with keys := pc_create_fill pc seed })))) with pc_posn := 56 } := by
  have h : pc_create_fill pc seed
      = pc_ring_recurrence 54 1 seed 1 (wstore (wstore pc.keys 56 seed) 55 seed) :=
    pc_create_loop_recurrence 54 1 seed 1 _ (by omega)
  refine ⟨h, ?_, ?_, ?_, pc_create_fill_keys pc seed⟩
  · rw [h, pc_ring_recurrence_frame 0 54 1 seed 1 _ (fun m h1 h2 => by omega)]
    simp [wstore]
  · rw [h, pc_ring_recurrence_frame 55 54 1 seed 1 _ (fun m h1 h2 => by omega)]
    simp [wstore]
  · rw [h, pc_ring_recurrence_frame 56 54 1 seed 1 _ (fun m h1 h2 => by omega)]
    simp [wstore]

/-! ## The GameCube cipher: ring fill and mix -/

theorem gc_fill_word_lt (a b c : Nat) (ha : a < 4294967296) :
    a ^^^ ((((b <<< 23) % 4294967296) &&& 0xFF800000) ^^^ ((c >>> 9) &&& 0x007FFFFF))
      < 4294967296 := by
  have h1 : ((b <<< 23) % 4294967296) &&& 0xFF800000 < 2 ^ 32 :=
    Nat.lt_of_le_of_lt Nat.and_le_right (by decide)
  have h2 : (c >>> 9) &&& 0x007FFFFF < 2 ^ 32 :=
    Nat.lt_of_le_of_lt Nat.and_le_right (by decide)
  have ha' : a < 2 ^ 32 := ha
  exact Nat.xor_lt_two_pow ha' (Nat.xor_lt_two_pow h1 h2)

theorem gc_fill_loop_recurrence (n : Nat) :
    ∀ (k : Keys) (ptr : Nat), 17 ≤ ptr → k (ptr - 1) < 4294967296 →
      (∀ i, i < ptr → (gc_fill_loop n k ptr (ptr - 17) (ptr - 16) (ptr - 1)).1 i = k i)
      ∧ (∀ i, ptr ≤ i → i < ptr + n →
          (gc_fill_loop n k ptr (ptr - 17) (ptr - 16) (ptr - 1)).1 i
            = (gc_fill_loop n k ptr (ptr - 17) (ptr - 16) (ptr - 1)).1 (i - 1) ^^^
              (((((gc_fill_loop n k ptr (ptr - 17) (ptr - 16) (ptr - 1)).1 (i - 17) <<< 23)
                  % 4294967296) &&& 0xFF800000) ^^^
                (((gc_fill_loop n k ptr (ptr - 17) (ptr - 16) (ptr - 1)).1 (i - 16) >>> 9)
                  &&& 0x007FFFFF))) := by
  induction n with
  | zero =>
    intro k ptr _ _
    exact ⟨fun i _ => rfl, fun i h1 h2 => by omega⟩
  | succ n ih =>
    intro k ptr hp hk
    have e1 : ptr - 17 + 1 = ptr + 1 - 17 := by omega
    have e2 : ptr - 16 + 1 = ptr + 1 - 16 := by omega
    have e3 : ptr - 1 + 1 = ptr + 1 - 1 := by omega
    have hv := gc_fill_word_lt (k (ptr - 1)) (k (ptr - 17)) (k (ptr - 16)) hk
    simp only [gc_fill_loop, e1, e2, e3]
    generalize hvd : k (ptr - 1) ^^^
      ((((k (ptr - 17) <<< 23) % 4294967296) &&& 0xFF800000)
        ^^^ ((k (ptr - 16) >>> 9) &&& 0x007FFFFF)) = v at hv ⊢
    have hw : wstore k ptr v (ptr + 1 - 1) < 4294967296 := by
      have : ptr + 1 - 1 = ptr := by omega
      rw [this]
      simp only [wstore, if_true]
      exact Nat.mod_lt _ (by decide)
    obtain ⟨f, r⟩ := ih (wstore k ptr v) (ptr + 1) (by omega) hw
    generalize gc_fill_loop n (wstore k ptr v) (ptr + 1) (ptr + 1 - 17) (ptr + 1 - 16)
      (ptr + 1 - 1) = R at f r
    have old : ∀ i, i < ptr → R.1 i = k i := by
      intro i hi
      rw [f i (by omega)]
      simp only [wstore]
      rw [if_neg (by omega)]
    refine ⟨old, ?_⟩
    intro i h1 h2
    by_cases hi : i = ptr
    · subst hi
      rw [f i (by omega), old (i - 1) (by omega), old (i - 17) (by omega),
        old (i - 16) (by omega)]
      simp only [wstore, if_true]
      rw [Nat.mod_eq_of_lt hv]
      exact hvd.symm
    · exact r i (by omega) (by omega)
theorem gc_create_fill_recurrence (cs : CRYPT_SETUP) (seed : Nat) :
    (∀ i, i < 17 → (gc_create_fill cs seed).keys i
        = wstore (gc_base_words 17 cs.keys 0 seed 0).1 16
            ((((gc_base_words 17 cs.keys 0 seed 0).1 0 >>> 9)
              ^^^ (((gc_base_words 17 cs.keys 0 seed 0).1 16 <<< 23) % 4294967296))
              ^^^ (gc_base_words 17 cs.keys 0 seed 0).1 15) i)
    ∧ (∀ i, 17 ≤ i → i < 521 →
        (gc_create_fill cs seed).keys i
          = (gc_create_fill cs seed).keys (i - 1) ^^^
            (((((gc_create_fill cs seed).keys (i - 17) <<< 23) % 4294967296) &&& 0xFF800000)
              ^^^ (((gc_create_fill cs seed).keys (i - 16) >>> 9) &&& 0x007FFFFF))) := by
  rw [gc_create_fill_keys]
  generalize (((gc_base_words 17 cs.keys 0 seed 0).1 0 >>> 9)
      ^^^ (((gc_base_words 17 cs.keys 0 seed 0).1 16 <<< 23) % 4294967296))
      ^^^ (gc_base_words 17 cs.keys 0 seed 0).1 15 = v
  generalize (gc_base_words 17 cs.keys 0 seed 0).1 = b
  have hlt : wstore b 16 v (17 - 1) < 4294967296 := by
    show (if 16 = 16 then v % 4294967296 else b 16) < 4294967296
    rw [if_pos rfl]
    exact Nat.mod_lt _ (by decide)
  have h := gc_fill_loop_recurrence 504 (wstore b 16 v) 17 (by omega) hlt
  simp only [Nat.reduceSub] at h
  exact ⟨h.1, fun i h1 h2 => h.2 i h1 (by omega)⟩

theorem shl23_mask (b : Nat) :
    ((b <<< 23) % 4294967296) &&& 0xFF800000 = (b <<< 23) &&& 0xFF800000 := by
  have h : (b <<< 23) % 2 ^ 32 = (b <<< 23) &&& (2 ^ 32 - 1) :=
    (Nat.and_pow_two_sub_one_eq_mod (b <<< 23) 32).symm
  have e : (4294967296 : Nat) = 2 ^ 32 := by decide
  rw [e, h, Nat.and_assoc]
  have m : (2 ^ 32 - 1) &&& 0xFF800000 = 0xFF800000 := by decide
  rw [m]

set_option maxRecDepth 1000000 in
/-- C19 as stated, refuted at the seed 1 and the index 17: the ring `CRYPT_GC_CreateKeys`
builds before the mix holds 2590140667 in word 17, while
`word[0] XOR ((word[0] << 23) & 0xFF800000) XOR ((word[1] >> 9) & 0x007FFFFF)`, the value
the stated recurrence gives from `word[i-17]` and `word[i-16]`, is 3472320096. -/
theorem gc_ring_fill_seed_one :
    (gc_create_fill zeroSetup 1).keys 17 = 2590140667
    ∧ (gc_create_fill zeroSetup 1).keys (17 - 17) ^^^
        ((((gc_create_fill zeroSetup 1).keys (17 - 17) <<< 23) &&& 0xFF800000)
          ^^^ (((gc_create_fill zeroSetup 1).keys (17 - 16) >>> 9) &&& 0x007FFFFF))
        = 3472320096 := by
  obtain ⟨f, r⟩ := gc_create_fill_recurrence zeroSetup 1
  have h0 : (gc_create_fill zeroSetup 1).keys 0 = 999872490 := by
    rw [f 0 (by omega)]; decide
  have h1 : (gc_create_fill zeroSetup 1).keys 1 = 3747812470 := by
    rw [f 1 (by omega)]; decide
  have h16 : (gc_create_fill zeroSetup 1).keys 16 = 1863178609 := by
    rw [f 16 (by omega)]; decide
  have h17 := r 17 (by omega) (by omega)
  simp only [Nat.reduceSub] at h17 ⊢
  rw [h17, h0, h1, h16]
  decide

/-- C19, amended: for every 32-bit seed, in the ring that `CRYPT_GC_CreateKeys` builds
before it runs the mix operation, every word after the first 17 (indices 17..520)
satisfies `word[i] = word[i-1] XOR ((word[i-17] << 23) & 0xFF800000) XOR
((word[i-16] >> 9) & 0x007FFFFF)`: the first term is the word just written. -/
theorem gc_ring_fill (cs : CRYPT_SETUP) (seed : Nat) (i : Nat) (h1 : 17 ≤ i) (h2 : i < 521) :
    (gc_create_fill cs seed).keys i
      = (gc_create_fill cs seed).keys (i - 1) ^^^
        ((((gc_create_fill cs seed).keys (i - 17) <<< 23) &&& 0xFF800000)
          ^^^ (((gc_create_fill cs seed).keys (i - 16) >>> 9) &&& 0x007FFFFF)) := by
  rw [← shl23_mask]
  exact (gc_create_fill_recurrence cs seed).2 i h1 h2

/-- C19 at the seed 1 and the index 17. -/
theorem gc_ring_fill_witness :
    17 ≤ 17 ∧ 17 < 521
    ∧ (gc_create_fill zeroSetup 1).keys 17
      = (gc_create_fill zeroSetup 1).keys (17 - 1) ^^^
        ((((gc_create_fill zeroSetup 1).keys (17 - 17) <<< 23) &&& 0xFF800000)
          ^^^ (((gc_create_fill zeroSetup 1).keys (17 - 16) >>> 9) &&& 0x007FFFFF)) :=
  ⟨by decide, by decide, gc_ring_fill zeroSetup 1 17 (by decide) (by decide)⟩

theorem gc_mix_loop1_pass (n : Nat) :
    ∀ (r5 : Nat) (k : Keys), r5 + n ≤ 32 →
      (gc_mix_loop1 n r5 (r5 + 489) k).2 = gc_mix_pass n r5 k := by
  induction n with
  | zero => intro r5 k _; rfl
  | succ n ih =>
    intro r5 k h
    have e : (r5 + 489) % 521 = r5 + 489 := by omega
    have e1 : r5 + 489 + 1 = r5 + 1 + 489 := by omega
    simp only [gc_mix_loop1, gc_mix_pass, e, e1]
    rw [ih (r5 + 1) _ (by omega), Nat.xor_comm]

theorem gc_mix_loop2_pass (n : Nat) :
    ∀ (r5 : Nat) (k : Keys), 32 ≤ r5 → r5 + n ≤ 521 →
      gc_mix_loop2 n r5 (r5 - 32) k = gc_mix_pass n r5 k := by
  induction n with
  | zero => intro r5 k _ _; rfl
  | succ n ih =>
    intro r5 k h1 h2
    have e : (r5 + 489) % 521 = r5 - 32 := by omega
    have e1 : r5 - 32 + 1 = r5 + 1 - 32 := by omega
    simp only [gc_mix_loop2, gc_mix_pass, e, e1]
    rw [ih (r5 + 1) _ (by omega) (by omega), Nat.xor_comm]

theorem gc_mix_pass_add (a b : Nat) :
    ∀ (i : Nat) (k : Keys), gc_mix_pass (a + b) i k = gc_mix_pass b (i + a) (gc_mix_pass a i k) := by
  induction a with
  | zero => intro i k; simp only [Nat.zero_add, Nat.add_zero, gc_mix_pass]
  | succ a ih =>
    intro i k
    have e : a + 1 + b = (a + b) + 1 := by omega
    have e1 : i + (a + 1) = i + 1 + a := by omega
    rw [e, e1]
    simp only [gc_mix_pass]
    rw [ih]

theorem gc_mix_pass_pointwise (n : Nat) :
    ∀ (i : Nat) (k : Keys),
      (∀ j, j < i → gc_mix_pass n i k j = k j)
      ∧ (∀ j, i + n ≤ j → gc_mix_pass n i k j = k j)
      ∧ (∀ j, i ≤ j → j < i + n →
          gc_mix_pass n i k j
            = (k j ^^^ (if (j + 489) % 521 < j then gc_mix_pass n i k ((j + 489) % 521)
                else k ((j + 489) % 521))) % 4294967296) := by
  induction n with
  | zero =>
    intro i k
    exact ⟨fun j _ => rfl, fun j _ => rfl, fun j h1 h2 => by omega⟩
  | succ n ih =>
    intro i k
    obtain ⟨f1, f2, f3⟩ := ih (i + 1) (wstore k i (k i ^^^ k ((i + 489) % 521)))
    simp only [gc_mix_pass]
    generalize gc_mix_pass n (i + 1) (wstore k i (k i ^^^ k ((i + 489) % 521))) = R at f1 f2 f3
    have lo : ∀ j, j < i → R j = k j := by
      intro j hj
      rw [f1 j (by omega)]
      simp only [wstore]
      rw [if_neg (by omega)]
    refine ⟨lo, ?_, ?_⟩
    · intro j hj
      rw [f2 j (by omega)]
      simp only [wstore]
      rw [if_neg (by omega)]
    · intro j h1 h2
      by_cases e : j = i
      · subst e
        rw [f1 j (by omega)]
        simp only [wstore, if_true]
        by_cases ht : (j + 489) % 521 < j
        · rw [if_pos ht, lo _ ht]
        · rw [if_neg ht]
      · rw [f3 j (by omega) (by omega)]
        have e1 : wstore k i (k i ^^^ k ((i + 489) % 521)) j = k j := by
          simp only [wstore]
          rw [if_neg e]
        rw [e1]
        by_cases ht : (j + 489) % 521 < j
        · rw [if_pos ht, if_pos ht]
        · rw [if_neg ht, if_neg ht]
          have e2 : wstore k i (k i ^^^ k ((i + 489) % 521)) ((j + 489) % 521)
              = k ((j + 489) % 521) := by
            simp only [wstore]
            rw [if_neg (by omega)]
          rw [e2]

/-- C20: for every ring state (a context whose end pointer is `&keys[521]`, as
`CRYPT_GC_CreateKeys` sets it), `CRYPT_GC_MixKeys` updates the 521 words exactly as the
sequential in-place pass for `i = 0, 1, ..., 520`: `ring[i] ^= ring[(i + 489) mod 521]`.
Word by word: for `i < 32` the new word is the old word XOR the old `ring[i + 489]`, for
`32 ≤ i < 521` it is the old word XOR the already-updated `ring[i - 32]`, and words
outside the ring are untouched. -/
theorem gc_mix_sequential (cs : CRYPT_SETUP) (he : cs.gc_block_end_ptr = 521) :
    (CRYPT_GC_MixKeys cs).keys = gc_mix_pass 521 0 cs.keys
    ∧ (∀ i, i < 32 → (CRYPT_GC_MixKeys cs).keys i
        = (cs.keys i ^^^ cs.keys (i + 489)) % 4294967296)
    ∧ (∀ i, 32 ≤ i → i < 521 → (CRYPT_GC_MixKeys cs).keys i
        = (cs.keys i ^^^ (CRYPT_GC_MixKeys cs).keys (i - 32)) % 4294967296)
    ∧ (∀ i, 521 ≤ i → (CRYPT_GC_MixKeys cs).keys i = cs.keys i) := by
  have h1 : (gc_mix_loop1 32 0 489 cs.keys).2 = gc_mix_pass 32 0 cs.keys :=
    gc_mix_loop1_pass 32 0 cs.keys (by omega)
  have h2 : gc_mix_loop2 489 32 0 (gc_mix_pass 32 0 cs.keys)
      = gc_mix_pass 489 32 (gc_mix_pass 32 0 cs.keys) :=
    gc_mix_loop2_pass 489 32 _ (by omega) (by omega)
  have h3 : gc_mix_pass 521 0 cs.keys = gc_mix_pass 489 32 (gc_mix_pass 32 0 cs.keys) :=
    gc_mix_pass_add 32 489 0 cs.keys
  have hk : (CRYPT_GC_MixKeys cs).keys = gc_mix_pass 521 0 cs.keys := by
    rw [gc_mix_keys cs he, h1, h2, h3]
  obtain ⟨_, p2, p3⟩ := gc_mix_pass_pointwise 521 0 cs.keys
  rw [hk]
  refine ⟨rfl, fun i hi => ?_, fun i h32 hi => ?_, fun i hi => p2 i (by omega)⟩
  · have e : (i + 489) % 521 = i + 489 := by omega
    rw [p3 i (by omega) (by omega), e, if_neg (by omega)]
  · have e : (i + 489) % 521 = i - 32 := by omega
    have := p3 i (by omega) (by omega)
    rw [e, if_pos (by omega)] at this
    exact this

/-- C20 in the context whose ring slot `p` holds `p`. -/
theorem gc_mix_sequential_witness :
    ({ zeroSetup with keys := fun p => p, gc_block_end_ptr := 521 } : CRYPT_SETUP).gc_block_end_ptr
        = 521
    ∧ (CRYPT_GC_MixKeys { zeroSetup with keys := fun p => p, gc_block_end_ptr := 521 }).keys
        = gc_mix_pass 521 0 (fun p => p) :=
  ⟨rfl, (gc_mix_sequential { zeroSetup with keys := fun p => p, gc_block_end_ptr := 521 } rfl).1⟩

/-! ## The match search finds the longest match -/

theorem memcmp_eq_mono (src : Mem) (a b m n : Nat) (h : memcmp_eq src a b n = true)
    (hm : m ≤ n) : memcmp_eq src a b m = true := by
  simp only [memcmp_eq, List.all_eq_true, List.mem_range] at h ⊢
  exact fun i hi => h i (by omega)

theorem match_extend_first (src : Mem) (size x y n : Nat) :
    ∀ xsize, 255 ≤ xsize + n →
      ¬ (memcmp_eq src y x (match_extend src size x y n xsize) = true
          ∧ match_extend src size x y n xsize < 256
          ∧ y + match_extend src size x y n xsize < x
          ∧ x + match_extend src size x y n xsize ≤ size)
      ∧ ∀ j, xsize + 1 ≤ j → j < match_extend src size x y n xsize →
          memcmp_eq src y x j = true ∧ y + j < x ∧ x + j ≤ size := by
  induction n with
  | zero =>
    intro xsize h
    simp only [match_extend]
    exact ⟨fun hq => by omega, fun j h1 h2 => by omega⟩
  | succ n ih =>
    intro xsize h
    simp only [match_extend]
    split_ifs with hc
    · simp only [Bool.and_eq_true, decide_eq_true_eq] at hc
      obtain ⟨g1, g2⟩ := ih (xsize + 1) (by omega)
      refine ⟨g1, fun j h1 h2 => ?_⟩
      by_cases e : j = xsize + 1
      · subst e
        exact ⟨hc.1.1.1, hc.1.2, hc.2⟩
      · exact g2 j (by omega) h2
    · simp only [Bool.and_eq_true, decide_eq_true_eq] at hc
      exact ⟨fun hq => hc ⟨⟨⟨hq.1, hq.2.1⟩, hq.2.2.1⟩, hq.2.2.2⟩, fun j h1 h2 => by omega⟩

theorem match_size_eq_match_len (src : Mem) (size x y : Nat) (hx : x + 3 ≤ size)
    (hy : y + 3 ≤ x) :
    match_size src size x y = if 3 ≤ match_len src size x y then match_len src size x y else 0 := by
  by_cases h3 : memcmp_eq src y x 3 = true
  · have hr := match_extend_first src size x y 253 3 (by omega)
    have hge := match_extend_gt src size x y 253 3
    have hle := match_extend_le src size x y 253 3 (by omega)
    have hm : match_size src size x y = match_extend src size x y 253 3 - 1 := by
      simp only [match_size, h3, if_true]
    generalize match_extend src size x y 253 3 = r at hr hge hle hm
    obtain ⟨hn, hq⟩ := hr
    have hlen : match_len src size x y = r - 1 := by
      unfold match_len
      rw [Nat.findGreatest_eq_iff]
      refine ⟨by omega, fun _ => ?_, fun k hk1 hk2 hp => ?_⟩
      · by_cases e : r - 1 = 3
        · rw [e]
          exact ⟨h3, Or.inl rfl, hx⟩
        · obtain ⟨q1, q2, q3⟩ := hq (r - 1) (by omega) (by omega)
          exact ⟨q1, Or.inr q2, q3⟩
      · obtain ⟨p1, p2, p3⟩ := hp
        have p2' : y + k < x := by
          rcases p2 with p2 | p2
          · omega
          · exact p2
        exact hn ⟨memcmp_eq_mono src y x r k p1 (by omega), by omega, by omega, by omega⟩
    rw [hm, hlen]
    have : 3 ≤ r - 1 := by omega
    rw [if_pos this]
  · have hm : match_size src size x y = 0 := by
      simp only [match_size, h3]
      rfl
    have hlt : ¬ 3 ≤ match_len src size x y := by
      intro h
      have hs : memcmp_eq src y x (match_len src size x y) = true
          ∧ (match_len src size x y = 3 ∨ y + match_len src size x y < x)
          ∧ x + match_len src size x y ≤ size :=
        Nat.findGreatest_spec (P := fun L => memcmp_eq src y x L = true
          ∧ (L = 3 ∨ y + L < x) ∧ x + L ≤ size) (m := 0) (Nat.zero_le 255)
          ⟨by simp [memcmp_eq], Or.inr (by omega), by omega⟩
      exact h3 (memcmp_eq_mono src y x 3 _ hs.1 h)
    rw [hm, if_neg hlt]
theorem match_size_le (src : Mem) (size x y : Nat) : match_size src size x y ≤ 255 := by
  have h := match_extend_le src size x y 253 3 (by omega)
  unfold match_size
  split_ifs
  · omega
  · omega

theorem search_loop_max (src : Mem) (size x : Nat) :
    ∀ (y xsize : Nat) (lsoffset : Int) (lssize : Nat),
      (255 ≤ xsize → 255 ≤ lssize) →
      (∀ c, y < c → c + 3 ≤ x → x < c + 0x1FF0 → match_size src size x c ≤ lssize) →
      ∀ c, 1 ≤ c → c + 3 ≤ x → x < c + 0x1FF0 →
        match_size src size x c ≤ (search_loop src size x y xsize lsoffset lssize).2 := by
  intro y
  induction y with
  | zero =>
    intro xsize lsoffset lssize _ hB c h1 h2 h3
    simp only [search_loop]
    exact hB c (by omega) h2 h3
  | succ y ih =>
    intro xsize lsoffset lssize hJ hB c h1 h2 h3
    have hms := match_size_le src size x c
    simp only [search_loop]
    split_ifs with hc hm hgt
    · have e : match_size src size x (y + 1) = match_extend src size x (y + 1) 253 3 - 1 := by
        simp only [match_size, hm, if_true]
      refine ih _ _ _ ?_ (fun d hd1 hd2 hd3 => ?_) c h1 h2 h3
      · exact fun h => h
      by_cases ed : d = y + 1
      · rw [ed, e]
      · have := hB d (by omega) hd2 hd3
        exact Nat.le_of_lt (Nat.lt_of_le_of_lt this hgt)
    · have e : match_size src size x (y + 1) = match_extend src size x (y + 1) 253 3 - 1 := by
        simp only [match_size, hm, if_true]
      refine ih _ _ _ ?_ (fun d hd1 hd2 hd3 => ?_) c h1 h2 h3
      · intro h; omega
      by_cases ed : d = y + 1
      · rw [ed, e]; omega
      · exact hB d (by omega) hd2 hd3
    · have e : match_size src size x (y + 1) = 0 := by
        simp only [match_size, hm, Bool.false_eq_true, if_false]
      refine ih _ _ _ ?_ (fun d hd1 hd2 hd3 => ?_) c h1 h2 h3
      · intro h; omega
      by_cases ed : d = y + 1
      · rw [ed, e]; omega
      · exact hB d (by omega) hd2 hd3
    · show match_size src size x c ≤ lssize
      by_cases hw : (x : Int) - 0x1FF0 < ((y + 1 : Nat) : Int)
      · have hx : ¬ xsize < 255 := fun h => hc ⟨hw, h⟩
        have := hJ (by omega)
        omega
      · exact hB c (by omega) h2 h3

theorem prs_search_max (src : Mem) (size x : Nat) :
    ∀ c, 1 ≤ c → c + 3 ≤ x → x < c + 0x1FF0 →
      match_size src size x c ≤ (prs_search src size x).2 :=
  search_loop_max src size x (x - 3) 0 0 0 (fun h => by omega)
    (fun c h1 h2 _ => by omega)

theorem compress_loop_literal (src : Mem) (size n x : Nat) (pc : PRS_COMPRESSOR)
    (hx : x < size) (h0 : (prs_search src size x).2 = 0) :
    compress_loop src size (n + 1) x pc
      = compress_loop src size n (x + 1) (prs_rawbyte src pc) := by
  simp only [compress_loop, if_pos hx, if_pos h0]
set_option maxRecDepth 100000 in
/-- C14 as stated, refuted on the 12-byte buffer `0 1 2 3 4 5 1 2 3 4 5 9`: the
compressor emits six literals and reaches `x = 6`, where the candidate `y = 1` matches
five bytes that end at `x` (`y + 5 ≤ x`, `x + 5 ≤ size`), so the stated `M(1)` is 5; the
`do`/`while` loop stops at `y + xsize < x` and the copy emitted has length 4. -/
theorem prs_longest_match_stated_fails :
    prs_compress_bytes (memOfList [0, 1, 2, 3, 4, 5, 1, 2, 3, 4, 5, 9] 0) (fun _ => 0) 12
      = [63, 0, 1, 2, 3, 4, 5, 45, 251, 5, 9, 0, 0]
    ∧ prs_search (memOfList [0, 1, 2, 3, 4, 5, 1, 2, 3, 4, 5, 9] 0) 12 6 = (-5, 4)
    ∧ match_len_stated (memOfList [0, 1, 2, 3, 4, 5, 1, 2, 3, 4, 5, 9] 0) 12 6 1 = 5
    ∧ match_len (memOfList [0, 1, 2, 3, 4, 5, 1, 2, 3, 4, 5, 9] 0) 12 6 1 = 4 := by
  decide

/-- C14, amended: at every position `x` that `prs_compress` processes with
`x + 3 ≤ size` (sizes below 2^31), with `M(y)` defined as the largest `L ≤ 255` such that
`source[y..y+L) = source[x..x+L)`, `L = 3` or `y + L < x`, and `x + L ≤ size`, the
compressor emits a literal exactly when no `y` in the window `(max(0, x-8176), x-3]` has
`M(y) ≥ 3`, and otherwise emits a copy whose length is the maximum of `M(y)` over that
window and advances `x` by that length. -/
theorem prs_longest_match (src : Mem) (size x : Nat) (pc : PRS_COMPRESSOR) (n : Nat)
    (_hs : size < 2147483648) (hx : x + 3 ≤ size) :
    ((prs_search src size x).2 = 0
      ↔ ∀ c, 1 ≤ c → c + 3 ≤ x → x < c + 8176 → match_len src size x c < 3)
    ∧ ((prs_search src size x).2 = 0 →
        compress_loop src size (n + 1) x pc
          = compress_loop src size n (x + 1) (prs_rawbyte src pc))
    ∧ ((prs_search src size x).2 ≠ 0 →
        (∃ y, 1 ≤ y ∧ y + 3 ≤ x ∧ x < y + 8176
          ∧ match_len src size x y = (prs_search src size x).2)
        ∧ (∀ c, 1 ≤ c → c + 3 ≤ x → x < c + 8176 →
            match_len src size x c ≤ (prs_search src size x).2)
        ∧ compress_loop src size (n + 1) x pc
            = compress_loop src size n (x + (prs_search src size x).2)
                (prs_copy pc (prs_search src size x).1 (prs_search src size x).2)) := by
  have hmax := prs_search_max src size x
  have hrel := fun c (h : c + 3 ≤ x) => match_size_eq_match_len src size x c hx h
  have hsz := prs_search_size src size x
  have hcopy := compress_loop_copy src size n x pc (by omega)
  have hcand := prs_search_candidate src size x
  have hlit := compress_loop_literal src size n x pc (by omega)
  generalize prs_search src size x = r at hmax hsz hcopy hcand hlit ⊢
  refine ⟨⟨fun h0 c h1 h2 h3 => ?_, fun hall => ?_⟩,
    hlit, fun hne => ?_⟩
  · have h := hmax c h1 h2 h3
    rw [hrel c h2, h0] at h
    by_contra hge
    rw [if_pos (by omega)] at h
    omega
  · by_contra hne
    obtain ⟨y0, g1, g2, g3, _, g5⟩ := hcand hne
    have := hall y0 g1 g2 g3
    rw [hrel y0 g2, if_neg (by omega)] at g5
    exact hne g5.symm
  · obtain ⟨y0, g1, g2, g3, _, g5⟩ := hcand hne
    have hge : 3 ≤ r.2 := by
      rcases hsz with h | ⟨h, _⟩
      · exact absurd h hne
      · exact h
    refine ⟨⟨y0, g1, g2, g3, ?_⟩, fun c h1 h2 h3 => ?_, ?_⟩
    · rw [hrel y0 g2] at g5
      by_cases h3 : 3 ≤ match_len src size x y0
      · rw [if_pos h3] at g5; exact g5
      · rw [if_neg h3] at g5; omega
    · have h := hmax c h1 h2 h3
      rw [hrel c h2] at h
      by_cases h3 : 3 ≤ match_len src size x c
      · rw [if_pos h3] at h; exact h
      · omega
    · have e : x + (r.2 - 1) + 1 = x + r.2 := by omega
      rw [← e]
      exact hcopy hne

set_option maxRecDepth 100000 in
/-- C14 at `x = 6` of the buffer `0 1 2 3 4 5 1 2 3 4 5 9`: the copy emitted has length
4, which no candidate of the window exceeds. -/
theorem prs_longest_match_witness :
    12 < 2147483648 ∧ 6 + 3 ≤ 12
    ∧ (prs_search (memOfList [0, 1, 2, 3, 4, 5, 1, 2, 3, 4, 5, 9] 0) 12 6).2 = 4
    ∧ ∀ c, 1 ≤ c → c + 3 ≤ 6 → 6 < c + 8176 →
        match_len (memOfList [0, 1, 2, 3, 4, 5, 1, 2, 3, 4, 5, 9] 0) 12 6 c
          ≤ (prs_search (memOfList [0, 1, 2, 3, 4, 5, 1, 2, 3, 4, 5, 9] 0) 12 6).2 :=
  ⟨by decide, by decide, by decide,
    ((prs_longest_match (memOfList [0, 1, 2, 3, 4, 5, 1, 2, 3, 4, 5, 9] 0) 12 6
      (prs_init (fun _ => 0)) 0 (by decide) (by decide)).2.2 (by decide)).2.1⟩

/-! ## The copy-token codec -/

theorem prs_copy_put_token (pc : PRS_COMPRESSOR) (offset : Int) (size : Nat) :
    prs_copy pc offset size
      = { put_token pc (copy_control_bits offset size) (copy_static_data offset size) with
          srcptr := (put_token pc (copy_control_bits offset size)
            (copy_static_data offset size)).srcptr + size % 256 } := by
  unfold prs_copy copy_control_bits copy_static_data
  simp only []
  by_cases h : offset > -0x100 ∧ size % 256 ≤ 5
  · simp only [if_pos h]
    rfl
  · simp only [if_neg h]
    by_cases h9 : size % 256 ≤ 9
    · simp only [if_pos h9, prs_longcopy]
      rfl
    · simp only [if_neg h9, prs_longcopy]
      rfl
theorem long_token_bytes (offset : Int) (u : Nat) (hu : u < 8192)
    (ho : offset = (u : Int) - 8192) :
    low8 (offset * 8) &&& 0xF8 = (u % 32) * 8 ∧ low8 (offset / 32) &&& 0xFF = u / 32 := by
  have m : ∀ lo, lo < 32 → (lo * 8) &&& 0xF8 = lo * 8 := by decide
  have e1 : low8 (offset * 8) = (u % 32) * 8 := by
    unfold low8
    omega
  have e2 : low8 (offset / 32) = (u / 32) % 256 := by
    unfold low8
    omega
  rw [e1, e2, m _ (Nat.mod_lt _ (by decide)), and_255_of_mod]
  exact ⟨rfl, by omega⟩

theorem long_token_field (u c : Nat) (hc : c < 8) :
    (((u / 32) &&& 0xFF) <<< 8) ||| ((u % 32 * 8 + c) &&& 0xFF) = 256 * (u / 32 % 256) + (u % 32 * 8 + c)
    ∧ (u % 32 * 8 + c) &&& 0xFF &&& 0x00000007 = c := by
  have a1 : (u / 32) &&& 0xFF = u / 32 % 256 := Nat.and_pow_two_sub_one_eq_mod _ 8
  have a2 : (u % 32 * 8 + c) &&& 0xFF = u % 32 * 8 + c := by
    have := Nat.and_pow_two_sub_one_eq_mod (u % 32 * 8 + c) 8
    have lt : u % 32 * 8 + c < 2 ^ 8 := by
      have : (2 : Nat) ^ 8 = 256 := by decide
      omega
    rw [Nat.mod_eq_of_lt lt] at this
    exact this
  have a3 : (u % 32 * 8 + c) &&& 0x00000007 = c := by
    have := Nat.and_pow_two_sub_one_eq_mod (u % 32 * 8 + c) 3
    have p : (2 : Nat) ^ 3 = 8 := by decide
    rw [p] at this
    have q : (u % 32 * 8 + c) % 8 = c := by omega
    rw [q] at this
    exact this
  rw [a1, a2, a3, Nat.shiftLeft_eq]
  refine ⟨?_, rfl⟩
  have lt : u % 32 * 8 + c < 2 ^ 8 := by
    have : (2 : Nat) ^ 8 = 256 := by decide
    omega
  have := Nat.mul_add_lt_is_or lt (u / 32 % 256)
  rw [Nat.mul_comm (u / 32 % 256) (2 ^ 8), ← this]

theorem long_token_offset (u c : Nat) (hu : u < 8192) (hc : c < 8) :
    toInt32 (((256 * (u / 32 % 256) + (u % 32 * 8 + c)) >>> 3) ||| 0xFFFFE000)
      = (u : Int) - 8192 := by
  have e : (256 * (u / 32 % 256) + (u % 32 * 8 + c)) >>> 3 = u := by
    rw [Nat.shiftRight_eq_div_pow]
    have : (2 : Nat) ^ 3 = 8 := by decide
    omega
  have lt : u < 2 ^ 13 := by
    have : (2 : Nat) ^ 13 = 8192 := by decide
    omega
  have o := Nat.mul_add_lt_is_or lt 524287
  have p : 2 ^ 13 * 524287 = 0xFFFFE000 := by decide
  rw [p] at o
  rw [e, Nat.or_comm, ← o]
  unfold toInt32
  split_ifs with h
  · omega
  · omega
theorem decompress_long_token (src : Mem) (s : PRS_DECOMPRESSOR) (u c : Nat) (hu : u < 8192)
    (hc : c < 8) (hne : c ≠ 0)
    (h0 : src s.sourceptr % 256 = u % 32 * 8 + c) (h1 : src (s.sourceptr + 1) % 256 = u / 32) :
    prs_decompress_long src s
      = .next { s with
          sourceptr := s.sourceptr + 2,
          dest := (copy_loop (c + 2) s.dest s.destptr ((s.destptr : Int) + ((u : Int) - 8192))).1,
          destptr := s.destptr + (c + 2) } := by
  obtain ⟨f1, f2⟩ := long_token_field u c hc
  have f3 := long_token_offset u c hu hc
  have hz : ¬ (256 * (u / 32 % 256) + (u % 32 * 8 + c) = 0) := by omega
  simp only [prs_decompress_long, h0, h1, f1, f2, f3, hz, hne, if_false, copy_loop_snd]

theorem decompress_long_token_ext (src : Mem) (s : PRS_DECOMPRESSOR) (u : Nat) (hu : u < 8192)
    (hne : u ≠ 0)
    (h0 : src s.sourceptr % 256 = u % 32 * 8) (h1 : src (s.sourceptr + 1) % 256 = u / 32) :
    prs_decompress_long src s
      = .next { s with
          sourceptr := s.sourceptr + 2 + 1,
          dest := (copy_loop (src (s.sourceptr + 2) % 256 + 1) s.dest s.destptr
            ((s.destptr : Int) + ((u : Int) - 8192))).1,
          destptr := s.destptr + (src (s.sourceptr + 2) % 256 + 1) } := by
  obtain ⟨f1, f2⟩ := long_token_field u 0 (by omega)
  have f3 := long_token_offset u 0 hu (by omega)
  have hz : ¬ (256 * (u / 32 % 256) + (u % 32 * 8 + 0) = 0) := by omega
  have h0' : src s.sourceptr % 256 = u % 32 * 8 + 0 := h0
  simp only [prs_decompress_long, h0', h1, f1, f2, f3, hz, if_false, if_true, copy_loop_snd,
    and_255_of_mod]

theorem decompress_short_token (src : Mem) (s : PRS_DECOMPRESSOR) (b1 b0 d : Nat)
    (hb1 : (read_control_bit src s).1 = b1)
    (hb0 : (read_control_bit src (read_control_bit src s).2).1 = b0)
    (hd : d < 256)
    (h0 : src (read_control_bit src (read_control_bit src s).2).2.sourceptr % 256 = d) :
    prs_decompress_short src s
      = .next { (read_control_bit src (read_control_bit src s).2).2 with
          sourceptr := (read_control_bit src (read_control_bit src s).2).2.sourceptr + 1,
          dest := (copy_loop ((((0 <<< 1) ||| b1) <<< 1 ||| b0) + 2)
            (read_control_bit src (read_control_bit src s).2).2.dest
            (read_control_bit src (read_control_bit src s).2).2.destptr
            (((read_control_bit src (read_control_bit src s).2).2.destptr : Int)
              + ((d : Int) - 256))).1,
          destptr := (read_control_bit src (read_control_bit src s).2).2.destptr
            + ((((0 <<< 1) ||| b1) <<< 1 ||| b0) + 2) } := by
  have f := toInt32_short d hd
  simp only [prs_decompress_short, hb1, hb0, h0, f, copy_loop_snd]
theorem read_control_bit_dest (src : Mem) (s : PRS_DECOMPRESSOR) :
    (read_control_bit src s).2.dest = s.dest ∧ (read_control_bit src s).2.destptr = s.destptr := by
  unfold read_control_bit
  simp only []
  split_ifs <;> exact ⟨rfl, rfl⟩

theorem short_token_length (size : Nat) (h2 : 2 ≤ size) (h5 : size ≤ 5) :
    ((((0 <<< 1) ||| ((((size % 256 + 254) % 256) >>> 1) &&& 1)) <<< 1)
      ||| (((size % 256 + 254) % 256) &&& 1)) + 2 = size := by
  interval_cases size <;> rfl

theorem short_token_byte (offset : Int) (h1 : -255 ≤ offset) (h2 : offset ≤ -1) :
    (low8 offset &&& 0xFF) % 256 < 256
    ∧ (((low8 offset &&& 0xFF) % 256 : Nat) : Int) - 256 = offset := by
  have e : low8 offset = (offset + 256).toNat % 256 := by
    unfold low8
    omega
  rw [e, and_255_of_mod]
  omega

theorem codec_short (src : Mem) (s : PRS_DECOMPRESSOR) (offset : Int) (size : Nat)
    (ho1 : -255 ≤ offset) (ho2 : offset ≤ -1) (hs2 : 2 ≤ size) (hs5 : size ≤ 5)
    (hbits : (read_control_bits src 4 s).1
      = [0, 0, (((size % 256 + 254) % 256) >>> 1) &&& 1, ((size % 256 + 254) % 256) &&& 1])
    (hbyte : src (read_control_bits src 4 s).2.sourceptr = (low8 offset &&& 0xFF) % 256) :
    prs_decompress_step src s
      = .next { (read_control_bits src 4 s).2 with
          sourceptr := (read_control_bits src 4 s).2.sourceptr + 1,
          dest := (copy_loop size s.dest s.destptr ((s.destptr : Int) + offset)).1,
          destptr := s.destptr + size } := by
  simp only [read_control_bits, List.cons.injEq, and_true] at hbits hbyte ⊢
  obtain ⟨g1, g2, g3, g4⟩ := hbits
  obtain ⟨d1, d2⟩ := short_token_byte offset ho1 ho2
  have hm : src (read_control_bit src (read_control_bit src (read_control_bit src
      (read_control_bit src s).2).2).2).2.sourceptr % 256 = (low8 offset &&& 0xFF) % 256 := by
    rw [hbyte, Nat.mod_mod]
  have hshort := decompress_short_token src (read_control_bit src (read_control_bit src s).2).2
    _ _ _ g3 g4 d1 hm
  have e1 := read_control_bit_dest src s
  have e2 := read_control_bit_dest src (read_control_bit src s).2
  have e3 := read_control_bit_dest src (read_control_bit src (read_control_bit src s).2).2
  have e4 := read_control_bit_dest src
    (read_control_bit src (read_control_bit src (read_control_bit src s).2).2).2
  have n1 : ¬ (read_control_bit src s).1 ≠ 0 := by rw [g1]; exact fun h => h rfl
  have n2 : ¬ (read_control_bit src (read_control_bit src s).2).1 ≠ 0 := by
    rw [g2]; exact fun h => h rfl
  simp only [prs_decompress_step, n1, n2, if_false]
  rw [hshort, short_token_length size hs2 hs5, d2, e4.1, e3.1, e2.1, e1.1, e4.2, e3.2, e2.2, e1.2]
theorem long_token_first (a c : Nat) (hc : c < 8) : (a * 8) ||| c = a * 8 + c := by
  have lt : c < 2 ^ 3 := by
    have : (2 : Nat) ^ 3 = 8 := by decide
    omega
  have := Nat.mul_add_lt_is_or lt a
  have p : (2 : Nat) ^ 3 = 8 := by decide
  rw [p, Nat.mul_comm 8 a] at this
  exact this.symm

theorem long_token_code (size : Nat) (h3 : 3 ≤ size) (h9 : size ≤ 9) :
    low8 (((size % 256 : Nat) : Int) - 2) &&& 0x07 = size - 2 := by
  interval_cases size <;> rfl

theorem codec_long_small (src : Mem) (s : PRS_DECOMPRESSOR) (offset : Int) (size : Nat)
    (ho1 : -8192 ≤ offset) (ho2 : offset ≤ -1) (hs3 : 3 ≤ size) (hs9 : size ≤ 9)
    (hbits : (read_control_bits src 2 s).1 = [0, 1])
    (hb0 : src (read_control_bits src 2 s).2.sourceptr
      = ((low8 (offset * 8) &&& 0xF8) ||| (low8 (((size % 256 : Nat) : Int) - 2) &&& 0x07)) % 256)
    (hb1 : src ((read_control_bits src 2 s).2.sourceptr + 1) = (low8 (offset / 32) &&& 0xFF) % 256) :
    prs_decompress_step src s
      = .next { (read_control_bits src 2 s).2 with
          sourceptr := (read_control_bits src 2 s).2.sourceptr + 2,
          dest := (copy_loop size s.dest s.destptr ((s.destptr : Int) + offset)).1,
          destptr := s.destptr + size } := by
  simp only [read_control_bits, List.cons.injEq, and_true] at hbits hb0 hb1 ⊢
  obtain ⟨g1, g2⟩ := hbits
  have hu : (offset + 8192).toNat < 8192 := by omega
  have hou : offset = (((offset + 8192).toNat : Nat) : Int) - 8192 := by omega
  obtain ⟨b0, b1⟩ := long_token_bytes offset (offset + 8192).toNat hu hou
  generalize (offset + 8192).toNat = u at hu hou b0 b1
  rw [b0, long_token_code size hs3 hs9, long_token_first _ _ (by omega)] at hb0
  rw [b1] at hb1
  have hm0 : src (read_control_bit src (read_control_bit src s).2).2.sourceptr % 256
      = u % 32 * 8 + (size - 2) := by
    rw [hb0, Nat.mod_mod]; omega
  have hm1 : src ((read_control_bit src (read_control_bit src s).2).2.sourceptr + 1) % 256
      = u / 32 := by
    rw [hb1, Nat.mod_mod]; omega
  have hlong := decompress_long_token src (read_control_bit src (read_control_bit src s).2).2
    u (size - 2) hu (by omega) (by omega) hm0 hm1
  have e1 := read_control_bit_dest src s
  have e2 := read_control_bit_dest src (read_control_bit src s).2
  have n1 : ¬ (read_control_bit src s).1 ≠ 0 := by rw [g1]; exact fun h => h rfl
  have n2 : (read_control_bit src (read_control_bit src s).2).1 ≠ 0 := by
    rw [g2]; exact Nat.one_ne_zero
  have el : size - 2 + 2 = size := by omega
  simp only [prs_decompress_step, n1, n2, if_false, if_true]
  rw [hlong, el, ← hou, e2.1, e1.1, e2.2, e1.2, if_pos n2]

theorem codec_long_ext (src : Mem) (s : PRS_DECOMPRESSOR) (offset : Int) (size : Nat)
    (ho1 : -8192 < offset) (ho2 : offset ≤ -1) (hs10 : 10 ≤ size) (hs255 : size ≤ 255)
    (hbits : (read_control_bits src 2 s).1 = [0, 1])
    (hb0 : src (read_control_bits src 2 s).2.sourceptr = (low8 (offset * 8) &&& 0xF8) % 256)
    (hb1 : src ((read_control_bits src 2 s).2.sourceptr + 1) = (low8 (offset / 32) &&& 0xFF) % 256)
    (hb2 : src ((read_control_bits src 2 s).2.sourceptr + 2) = (size % 256 - 1) % 256) :
    prs_decompress_step src s
      = .next { (read_control_bits src 2 s).2 with
          sourceptr := (read_control_bits src 2 s).2.sourceptr + 3,
          dest := (copy_loop size s.dest s.destptr ((s.destptr : Int) + offset)).1,
          destptr := s.destptr + size } := by
  simp only [read_control_bits, List.cons.injEq, and_true] at hbits hb0 hb1 hb2 ⊢
  obtain ⟨g1, g2⟩ := hbits
  have hu : (offset + 8192).toNat < 8192 := by omega
  have hu0 : (offset + 8192).toNat ≠ 0 := by omega
  have hou : offset = (((offset + 8192).toNat : Nat) : Int) - 8192 := by omega
  obtain ⟨b0, b1⟩ := long_token_bytes offset (offset + 8192).toNat hu hou
  generalize (offset + 8192).toNat = u at hu hu0 hou b0 b1
  rw [b0] at hb0
  rw [b1] at hb1
  have hm0 : src (read_control_bit src (read_control_bit src s).2).2.sourceptr % 256
      = u % 32 * 8 := by
    rw [hb0, Nat.mod_mod]; omega
  have hm1 : src ((read_control_bit src (read_control_bit src s).2).2.sourceptr + 1) % 256
      = u / 32 := by
    rw [hb1, Nat.mod_mod]; omega
  have hm2 : src ((read_control_bit src (read_control_bit src s).2).2.sourceptr + 2) % 256 + 1
      = size := by
    rw [hb2, Nat.mod_mod]; omega
  have hlong := decompress_long_token_ext src
    (read_control_bit src (read_control_bit src s).2).2 u hu hu0 hm0 hm1
  have e1 := read_control_bit_dest src s
  have e2 := read_control_bit_dest src (read_control_bit src s).2
  have n1 : ¬ (read_control_bit src s).1 ≠ 0 := by rw [g1]; exact fun h => h rfl
  have n2 : (read_control_bit src (read_control_bit src s).2).1 ≠ 0 := by
    rw [g2]; exact Nat.one_ne_zero
  simp only [prs_decompress_step, n1, n2, if_false, if_true]
  rw [hlong, hm2, ← hou, e2.1, e1.1, e2.2, e1.2, if_pos n2]
set_option maxRecDepth 100000 in
/-- C15 as stated, refuted at two tokens of the stated grammar. For the long copy with
distance -256 and length 2, `prs_copy` emits the bits `0,1` and the bytes `00 F8`, whose
length code 0 makes the decoder read a further byte: the stream of this token and the
End token decodes to 1 byte, not 2. For the long copy with distance -8192 and length 10,
`prs_copy` emits the bytes `00 00 09`, and the decoder takes the zero field for the End
token: the stream decodes to 0 bytes. -/
theorem prs_copy_codec_stated_fails :
    copy_control_bits (-256) 2 = [0, 1] ∧ copy_static_data (-256) 2 = [0, 248]
    ∧ (prs_decompress 3 (prs_finish (prs_copy (prs_init (fun _ => 0)) (-256) 2)).dst
        (fun _ => 0)).map (fun r => r.1) = some 1
    ∧ copy_control_bits (-8192) 10 = [0, 1] ∧ copy_static_data (-8192) 10 = [0, 0, 9]
    ∧ (prs_decompress 3 (prs_finish (prs_copy (prs_init (fun _ => 0)) (-8192) 10)).dst
        (fun _ => 0)).map (fun r => r.1) = some 0 := by
  decide

/-- The decoder on the control bits and bytes of a copy token: `prs_copy` is the emission
of `copy_control_bits` and `copy_static_data`, and a decoder pass that reads these control
bits, and then finds these bytes at its source pointer, copies `size` bytes from
`destptr + offset` and leaves its source pointer behind the last of the bytes. -/
theorem copy_token_decode (pc : PRS_COMPRESSOR) (offset : Int) (size : Nat) (src : Mem)
    (s : PRS_DECOMPRESSOR) (ho1 : -8192 ≤ offset) (ho2 : offset ≤ -1) (hs2 : 2 ≤ size)
    (hs255 : size ≤ 255) (h2 : size = 2 → -255 ≤ offset) (h8 : offset = -8192 → size ≤ 9)
    (hbits : (read_control_bits src (copy_control_bits offset size).length s).1
      = copy_control_bits offset size)
    (hbytes : ∀ i, i < (copy_static_data offset size).length →
      src ((read_control_bits src (copy_control_bits offset size).length s).2.sourceptr + i)
        = (copy_static_data offset size).getD i 0 % 256) :
    prs_copy pc offset size
      = { put_token pc (copy_control_bits offset size) (copy_static_data offset size) with
          srcptr := (put_token pc (copy_control_bits offset size)
            (copy_static_data offset size)).srcptr + size }
    ∧ prs_decompress_step src s
      = .next { (read_control_bits src (copy_control_bits offset size).length s).2 with
          sourceptr := (read_control_bits src (copy_control_bits offset size).length s).2.sourceptr
            + (copy_static_data offset size).length,
          dest := (copy_loop size s.dest s.destptr ((s.destptr : Int) + offset)).1,
          destptr := s.destptr + size } := by
  have hm : size % 256 = size := Nat.mod_eq_of_lt (by omega)
  refine ⟨?_, ?_⟩
  · have := prs_copy_put_token pc offset size
    rw [hm] at this
    exact this
  · by_cases h : offset > -0x100 ∧ size % 256 ≤ 5
    · have cb : copy_control_bits offset size
          = [0, 0, (((size % 256 + 254) % 256) >>> 1) &&& 1, ((size % 256 + 254) % 256) &&& 1] := by
        unfold copy_control_bits; rw [if_pos h]
      have cd : copy_static_data offset size = [low8 offset &&& 0xFF] := by
        unfold copy_static_data; rw [if_pos h]
      have hl : (copy_control_bits offset size).length = 4 := by rw [cb]; rfl
      rw [hl] at hbits hbytes ⊢
      rw [cb] at hbits
      rw [cd] at hbytes ⊢
      have hb0 := hbytes 0 (by simp only [List.length_cons, List.length_nil]; omega)
      simp only [List.getD_cons_zero, Nat.add_zero] at hb0
      exact codec_short src s offset size (by omega) ho2 hs2 (by omega) hbits hb0
    · have hs3 : 3 ≤ size := by
        by_contra hc
        have e : size = 2 := by omega
        exact h ⟨by have := h2 e; omega, by omega⟩
      have cb : copy_control_bits offset size = [0, 1] := by
        unfold copy_control_bits; rw [if_neg h]
      have hl : (copy_control_bits offset size).length = 2 := by rw [cb]; rfl
      rw [hl] at hbits hbytes ⊢
      rw [cb] at hbits
      by_cases h9 : size % 256 ≤ 9
      · have cd : copy_static_data offset size
            = [(low8 (offset * 8) &&& 0xF8) ||| (low8 (((size % 256 : Nat) : Int) - 2) &&& 0x07),
                low8 (offset / 32) &&& 0xFF] := by
          unfold copy_static_data; rw [if_neg h, if_pos h9]
        rw [cd] at hbytes ⊢
        have hb0 := hbytes 0 (by simp only [List.length_cons, List.length_nil]; omega)
        have hb1 := hbytes 1 (by simp only [List.length_cons, List.length_nil]; omega)
        simp only [List.getD_cons_zero, List.getD_cons_succ, Nat.add_zero] at hb0 hb1
        exact codec_long_small src s offset size ho1 ho2 hs3 (by omega) hbits hb0 hb1
      · have cd : copy_static_data offset size
            = [low8 (offset * 8) &&& 0xF8, low8 (offset / 32) &&& 0xFF, size % 256 - 1] := by
          unfold copy_static_data; rw [if_neg h, if_neg h9]
        rw [cd] at hbytes ⊢
        have hne : -8192 < offset := by
          by_contra hc
          have e : offset = -8192 := by omega
          have := h8 e
          omega
        have hb0 := hbytes 0 (by simp only [List.length_cons, List.length_nil]; omega)
        have hb1 := hbytes 1 (by simp only [List.length_cons, List.length_nil]; omega)
        have hb2 := hbytes 2 (by simp only [List.length_cons, List.length_nil]; omega)
        simp only [List.getD_cons_zero, List.getD_cons_succ, Nat.add_zero] at hb0 hb1 hb2
        exact codec_long_ext src s offset size hne ho2 (by omega) hs255 hbits hb0 hb1 hb2
/-! ## The GameCube cipher: next word and cursor -/

theorem gc_mix_word_zero (cs : CRYPT_SETUP) (he : cs.gc_block_end_ptr = 521) :
    (CRYPT_GC_MixKeys cs).keys 0 = (cs.keys 0 ^^^ cs.keys 489) % 4294967296 := by
  have h1 : (gc_mix_loop1 32 0 489 cs.keys).2 = gc_mix_pass 32 0 cs.keys :=
    gc_mix_loop1_pass 32 0 cs.keys (by omega)
  have h2 : gc_mix_loop2 489 32 0 (gc_mix_pass 32 0 cs.keys)
      = gc_mix_pass 489 32 (gc_mix_pass 32 0 cs.keys) :=
    gc_mix_loop2_pass 489 32 _ (by omega) (by omega)
  have h3 : gc_mix_pass 521 0 cs.keys = gc_mix_pass 489 32 (gc_mix_pass 32 0 cs.keys) :=
    gc_mix_pass_add 32 489 0 cs.keys
  rw [gc_mix_keys cs he, h1, h2, ← h3]
  obtain ⟨_, _, p3⟩ := gc_mix_pass_pointwise 521 0 cs.keys
  rw [p3 0 (by omega) (by omega), if_neg (by omega)]

theorem gc_mix_word_frame (cs : CRYPT_SETUP) (he : cs.gc_block_end_ptr = 521) (i : Nat)
    (hi : 521 ≤ i) : (CRYPT_GC_MixKeys cs).keys i = cs.keys i := by
  have h1 : (gc_mix_loop1 32 0 489 cs.keys).2 = gc_mix_pass 32 0 cs.keys :=
    gc_mix_loop1_pass 32 0 cs.keys (by omega)
  have h2 : gc_mix_loop2 489 32 0 (gc_mix_pass 32 0 cs.keys)
      = gc_mix_pass 489 32 (gc_mix_pass 32 0 cs.keys) :=
    gc_mix_loop2_pass 489 32 _ (by omega) (by omega)
  have h3 : gc_mix_pass 521 0 cs.keys = gc_mix_pass 489 32 (gc_mix_pass 32 0 cs.keys) :=
    gc_mix_pass_add 32 489 0 cs.keys
  rw [gc_mix_keys cs he, h1, h2, ← h3]
  exact (gc_mix_pass_pointwise 521 0 cs.keys).2.1 i (by omega)

theorem gc_next_at_end (c : CRYPT_SETUP) (hp : c.gc_block_ptr + 1 = c.gc_block_end_ptr)
    (he : c.gc_block_end_ptr = 521) :
    (CRYPT_GC_GetNextKey c).2.gc_block_ptr = 0
    ∧ (CRYPT_GC_GetNextKey c).2.gc_block_end_ptr = 521
    ∧ (CRYPT_GC_GetNextKey c).1 = (c.keys 0 ^^^ c.keys 489) % 4294967296
    ∧ (CRYPT_GC_GetNextKey c).1 = (CRYPT_GC_GetNextKey c).2.keys 0
    ∧ ∀ i, 521 ≤ i → (CRYPT_GC_GetNextKey c).2.keys i = c.keys i := by
  rw [gc_next_of_end c hp]
  have he' : ({ c with gc_block_ptr := c.gc_block_ptr + 1 } : CRYPT_SETUP).gc_block_end_ptr
      = 521 := he
  have h0 := gc_mix_word_zero { c with gc_block_ptr := c.gc_block_ptr + 1 } he'
  have hf := gc_mix_word_frame { c with gc_block_ptr := c.gc_block_ptr + 1 } he'
  have hq := gc_mix_ptr { c with gc_block_ptr := c.gc_block_ptr + 1 }
  have hr := gc_mix_end { c with gc_block_ptr := c.gc_block_ptr + 1 }
  generalize CRYPT_GC_MixKeys { c with gc_block_ptr := c.gc_block_ptr + 1 } = m at *
  exact ⟨hq, hr.trans he, h0, rfl, hf⟩

/-- C21 as stated, refuted: in the context whose ring slot `p` holds `p`, with the cursor
at 520 and the end pointer at `&keys[521]`, `CRYPT_GC_GetNextKey` advances the cursor to
521, runs the mix, and the mix resets the cursor: the cursor afterwards is 0, not 521,
and the word returned is word 0 of the mixed ring (`0 XOR 489`), not the word at the
ring-end position 521 (which holds 521). -/
theorem gc_next_word_at_end :
    (CRYPT_GC_GetNextKey
        { zeroSetup with keys := fun p => p, gc_block_ptr := 520, gc_block_end_ptr := 521 }).2.gc_block_ptr
      = 0
    ∧ (CRYPT_GC_GetNextKey
        { zeroSetup with keys := fun p => p, gc_block_ptr := 520, gc_block_end_ptr := 521 }).1
      = 489
    ∧ (CRYPT_GC_GetNextKey
        { zeroSetup with keys := fun p => p, gc_block_ptr := 520, gc_block_end_ptr := 521 }).2.keys 521
      = 521 :=
  ⟨(gc_next_at_end _ rfl rfl).1,
    (gc_next_at_end _ rfl rfl).2.2.1.trans (by decide),
    (gc_next_at_end _ rfl rfl).2.2.2.2 521 (Nat.le_refl 521)⟩
/-- C21, amended: `CRYPT_GC_GetNextKey` advances the cursor by one and, when the advanced
cursor reaches the ring end (the end pointer, index 521), runs the mix, which resets the
cursor to index 0, so that the word it returns in that case is the one at index 0 of the
mixed ring; in every other case it returns the word at the advanced cursor and leaves
the ring as it is. -/
theorem gc_next_word (cs : CRYPT_SETUP) :
    CRYPT_GC_GetNextKey cs
      = (if cs.gc_block_ptr + 1 = cs.gc_block_end_ptr then
          ((CRYPT_GC_MixKeys { cs with gc_block_ptr := cs.gc_block_ptr + 1 }).keys 0,
            CRYPT_GC_MixKeys { cs with gc_block_ptr := cs.gc_block_ptr + 1 })
        else (cs.keys (cs.gc_block_ptr + 1), { cs with gc_block_ptr := cs.gc_block_ptr + 1 }))
    ∧ (CRYPT_GC_MixKeys { cs with gc_block_ptr := cs.gc_block_ptr + 1 }).gc_block_ptr = 0
    ∧ (CRYPT_GC_MixKeys { cs with gc_block_ptr := cs.gc_block_ptr + 1 }).gc_block_end_ptr
        = cs.gc_block_end_ptr := by
  refine ⟨?_, gc_mix_ptr _, gc_mix_end _⟩
  by_cases h : cs.gc_block_ptr + 1 = cs.gc_block_end_ptr
  · rw [if_pos h]
    exact gc_next_of_end cs h
  · rw [if_neg h]
    exact gc_next_of_ne cs h

theorem gc_next_returns (c : CRYPT_SETUP) :
    (CRYPT_GC_GetNextKey c).1
      = (CRYPT_GC_GetNextKey c).2.keys (CRYPT_GC_GetNextKey c).2.gc_block_ptr := by
  by_cases h : c.gc_block_ptr + 1 = c.gc_block_end_ptr
  · rw [gc_next_of_end c h]
    have hq := gc_mix_ptr { c with gc_block_ptr := c.gc_block_ptr + 1 }
    generalize CRYPT_GC_MixKeys { c with gc_block_ptr := c.gc_block_ptr + 1 } = m at *
    show m.keys 0 = m.keys m.gc_block_ptr
    rw [hq]
  · rw [gc_next_of_ne c h]

theorem gc_calls_same (n : Nat) (c1 c2 : CRYPT_SETUP) (h : GcSame c1 c2) :
    GcSame (gc_calls n c1) (gc_calls n c2) := by
  induction n generalizing c1 c2 with
  | zero => exact h
  | succ n ih =>
    simp only [gc_calls]
    exact ih _ _ (gc_next_same c1 c2 h).2

theorem gc_create_ptr (cs : CRYPT_SETUP) (seed : Nat) :
    (CRYPT_GC_CreateKeys cs seed).gc_block_ptr = 520 := by
  simp only [CRYPT_GC_CreateKeys]

/-- C22: the GameCube cursor invariant. The cursor is 520 right after
`CRYPT_GC_CreateKeys(seed)`; in every state reached from there by any number `n` of
`CRYPT_GC_GetNextKey` calls the cursor is in `0..520` and the end pointer is
`&keys[521]`; the next call returns the word of the slot its advanced cursor names, and
that index is in `0..520`. The keystream reads no slot at or beyond index 521: it is the
same whatever the key array holds there. -/
theorem gc_cursor_invariant (cs : CRYPT_SETUP) (seed n : Nat) :
    (CRYPT_GC_CreateKeys cs seed).gc_block_ptr = 520
    ∧ (gc_calls n (CRYPT_GC_CreateKeys cs seed)).gc_block_ptr ≤ 520
    ∧ (gc_calls n (CRYPT_GC_CreateKeys cs seed)).gc_block_end_ptr = 521
    ∧ (CRYPT_GC_GetNextKey (gc_calls n (CRYPT_GC_CreateKeys cs seed))).1
        = (CRYPT_GC_GetNextKey (gc_calls n (CRYPT_GC_CreateKeys cs seed))).2.keys
            (CRYPT_GC_GetNextKey (gc_calls n (CRYPT_GC_CreateKeys cs seed))).2.gc_block_ptr
    ∧ (CRYPT_GC_GetNextKey (gc_calls n (CRYPT_GC_CreateKeys cs seed))).2.gc_block_ptr ≤ 520
    ∧ ∀ k : Keys, (∀ i, i < 521 → k i = (CRYPT_GC_CreateKeys cs seed).keys i) →
        gc_keystream n { (CRYPT_GC_CreateKeys cs seed) with keys := k }
          = gc_keystream n (CRYPT_GC_CreateKeys cs seed) := by
  have h0 := gc_create_same cs cs seed
  have hp := gc_create_ptr cs seed
  generalize CRYPT_GC_CreateKeys cs seed = c0 at h0 hp ⊢
  have hn := gc_calls_same n c0 c0 h0
  have hs := (gc_next_same _ _ hn).2
  refine ⟨hp, hn.2.1, hn.2.2.1, gc_next_returns _, hs.2.1, fun k hk => ?_⟩
  exact gc_keystream_same n _ _ ⟨rfl, h0.2.1, h0.2.2.1, h0.2.2.1, hk⟩

/-! ## Stream chunking -/

theorem xor_loop_fst_congr (next : CRYPT_SETUP → Nat × CRYPT_SETUP) (size n x : Nat)
    (c : CRYPT_SETUP) (d1 d2 : Mem) :
    (xor_loop next size n x c d1).1 = (xor_loop next size n x c d2).1 := by
  induction n generalizing x c d1 d2 with
  | zero => rfl
  | succ n ih =>
    simp only [xor_loop]
    split_ifs
    · exact ih _ _ _ _
    · rfl

theorem xor_loop_fuel (next : CRYPT_SETUP → Nat × CRYPT_SETUP) (size k : Nat) :
    ∀ (n x : Nat) (c : CRYPT_SETUP) (data : Mem), size = x + 4 * k → k ≤ n →
      xor_loop next size n x c data = xor_loop next size k x c data := by
  induction k with
  | zero =>
    intro n x c data hs _
    cases n with
    | zero => rfl
    | succ n =>
      have hge : ¬ x < size := by omega
      simp only [xor_loop, hge, if_false]
  | succ k ih =>
    intro n x c data hs hn
    cases n with
    | zero => omega
    | succ n =>
      have hlt : x < size := by omega
      simp only [xor_loop, hlt, if_true]
      exact ih n (x + 4) _ _ (by omega) (by omega)

theorem xor_loop_split (next : CRYPT_SETUP → Nat × CRYPT_SETUP) (s1 s2 m k : Nat) :
    ∀ (x : Nat) (c : CRYPT_SETUP) (data : Mem), s1 = x + 4 * k → s1 ≤ s2 →
      xor_loop next s2 (k + m) x c data
        = xor_loop next s2 m s1 (xor_loop next s1 k x c data).1
            (xor_loop next s1 k x c data).2 := by
  induction k with
  | zero =>
    intro x c data hs _
    have e : s1 = x := by omega
    rw [e, Nat.zero_add]
    rfl
  | succ k ih =>
    intro x c data hs hle
    have e : k + 1 + m = (k + m) + 1 := by omega
    rw [e]
    have hlt1 : x < s1 := by omega
    have hlt2 : x < s2 := by omega
    simp only [xor_loop, hlt1, hlt2, if_true]
    exact ih (x + 4) _ _ (by omega) hle

theorem xor_loop_above (next : CRYPT_SETUP → Nat × CRYPT_SETUP) (size n : Nat) :
    ∀ (x : Nat) (c : CRYPT_SETUP) (data : Mem), x ≤ size → (size - x) % 4 = 0 →
      ∀ a, size ≤ a → (xor_loop next size n x c data).2 a = data a := by
  induction n with
  | zero => intro x c data _ _ a _; rfl
  | succ n ih =>
    intro x c data hx h4 a ha
    simp only [xor_loop]
    split_ifs with hlt
    · rw [ih (x + 4) _ _ (by omega) (by omega) a ha, store32_frame _ _ _ _ (Or.inr (by omega))]
    · rfl

theorem xor_loop_local (next : CRYPT_SETUP → Nat × CRYPT_SETUP) (size n : Nat) :
    ∀ (x : Nat) (c : CRYPT_SETUP) (d1 d2 : Mem), x ≤ size → (size - x) % 4 = 0 →
      (∀ a, x ≤ a → a < size → d1 a = d2 a) →
      ∀ a, x ≤ a → a < size →
        (xor_loop next size n x c d1).2 a = (xor_loop next size n x c d2).2 a := by
  induction n with
  | zero => intro x c d1 d2 _ _ h a h1 h2; exact h a h1 h2
  | succ n ih =>
    intro x c d1 d2 hx h4 h a h1 h2
    have hlt : x < size := by omega
    simp only [xor_loop, hlt, if_true]
    have hl : load32 d1 x = load32 d2 x :=
      load32_congr _ _ _ (fun j g1 g2 => h j g1 (by omega))
    rw [hl]
    have hs : ∀ b, x ≤ b → b < size → store32 d1 x (load32 d2 x ^^^ (next c).1) b
        = store32 d2 x (load32 d2 x ^^^ (next c).1) b := by
      intro b hb1 hb2
      simp only [store32_apply]
      split_ifs <;> first | rfl | exact h b hb1 hb2
    by_cases ha : x + 4 ≤ a
    · exact ih (x + 4) _ _ _ (by omega) (by omega) (fun b g1 g2 => hs b (by omega) g2) a ha h2
    · rw [xor_loop_frame _ _ _ _ _ _ a (by omega), xor_loop_frame _ _ _ _ _ _ a (by omega)]
      exact hs a h1 h2

theorem xor_loop_shift (next : CRYPT_SETUP → Nat × CRYPT_SETUP) (size t n : Nat) :
    ∀ (x : Nat) (c : CRYPT_SETUP) (data : Mem),
      (xor_loop next (t + size) n (t + x) c data).1
          = (xor_loop next size n x c (fun i => data (t + i))).1
      ∧ ∀ i, (xor_loop next (t + size) n (t + x) c data).2 (t + i)
          = (xor_loop next size n x c (fun i => data (t + i))).2 i := by
  induction n with
  | zero => intro x c data; exact ⟨rfl, fun i => rfl⟩
  | succ n ih =>
    intro x c data
    by_cases hlt : x < size
    · have hlt' : t + x < t + size := by omega
      simp only [xor_loop, hlt, hlt', if_true]
      have hl : load32 data (t + x) = load32 (fun i => data (t + i)) x := by
        simp only [load32, Nat.add_assoc]
      have hst : (fun i => store32 data (t + x) (load32 data (t + x) ^^^ (next c).1) (t + i))
          = store32 (fun i => data (t + i)) x
              (load32 (fun i => data (t + i)) x ^^^ (next c).1) := by
        funext i
        rw [← hl]
        simp only [store32_apply]
        have e3 : (t + i = t + x + 3) = (i = x + 3) := by
          apply propext; constructor <;> intro h <;> omega
        have e2 : (t + i = t + x + 2) = (i = x + 2) := by
          apply propext; constructor <;> intro h <;> omega
        have e1 : (t + i = t + x + 1) = (i = x + 1) := by
          apply propext; constructor <;> intro h <;> omega
        have e0 : (t + i = t + x) = (i = x) := by
          apply propext; constructor <;> intro h <;> omega
        simp only [e3, e2, e1, e0]
      have := ih (x + 4) (next c).2 (store32 data (t + x) (load32 data (t + x) ^^^ (next c).1))
      rw [hst, ← Nat.add_assoc] at this
      exact this
    · have hge' : ¬ t + x < t + size := by omega
      simp only [xor_loop, hlt, hge', if_false, implies_true, and_self]
theorem xor_loop_chunk_mem (next : CRYPT_SETUP → Nat × CRYPT_SETUP) (c : CRYPT_SETUP)
    (n1 n2 : Nat) (d d1 d2 : Mem) (h1 : n1 % 4 = 0) (h2 : n2 % 4 = 0)
    (hd1 : ∀ a, a < n1 → d a = d1 a) (hd2 : ∀ i, d (n1 + i) = d2 i) :
    (xor_loop next (n1 + n2) (n1 + n2) 0 c d).1
        = (xor_loop next n2 n2 0 (xor_loop next n1 n1 0 c d1).1 d2).1
    ∧ (∀ a, a < n1 →
        (xor_loop next (n1 + n2) (n1 + n2) 0 c d).2 a = (xor_loop next n1 n1 0 c d1).2 a)
    ∧ (∀ i, (xor_loop next (n1 + n2) (n1 + n2) 0 c d).2 (n1 + i)
        = (xor_loop next n2 n2 0 (xor_loop next n1 n1 0 c d1).1 d2).2 i) := by
  have hw : xor_loop next (n1 + n2) (n1 + n2) 0 c d
      = xor_loop next (n1 + n2) (n1 / 4 + n2 / 4) 0 c d :=
    xor_loop_fuel next (n1 + n2) (n1 / 4 + n2 / 4) (n1 + n2) 0 c d (by omega) (by omega)
  have hsp : xor_loop next (n1 + n2) (n1 / 4 + n2 / 4) 0 c d
      = xor_loop next (n1 + n2) (n2 / 4) n1 (xor_loop next n1 (n1 / 4) 0 c d).1
          (xor_loop next n1 (n1 / 4) 0 c d).2 :=
    xor_loop_split next n1 (n1 + n2) (n2 / 4) (n1 / 4) 0 c d (by omega) (by omega)
  have hr1 : xor_loop next n1 n1 0 c d1 = xor_loop next n1 (n1 / 4) 0 c d1 :=
    xor_loop_fuel next n1 (n1 / 4) n1 0 c d1 (by omega) (by omega)
  have hq1 : (xor_loop next n1 (n1 / 4) 0 c d).1 = (xor_loop next n1 (n1 / 4) 0 c d1).1 :=
    xor_loop_fst_congr next n1 (n1 / 4) 0 c d d1
  have hql : ∀ a, a < n1 →
      (xor_loop next n1 (n1 / 4) 0 c d).2 a = (xor_loop next n1 (n1 / 4) 0 c d1).2 a :=
    fun a ha => xor_loop_local next n1 (n1 / 4) 0 c d d1 (Nat.zero_le _) (by omega)
      (fun b _ hb => hd1 b hb) a (Nat.zero_le _) ha
  have hqh : (fun i => (xor_loop next n1 (n1 / 4) 0 c d).2 (n1 + i)) = d2 := by
    funext i
    rw [xor_loop_above next n1 (n1 / 4) 0 c d (Nat.zero_le _) (by omega) (n1 + i) (by omega)]
    exact hd2 i
  have hsh := xor_loop_shift next n2 n1 (n2 / 4) 0 (xor_loop next n1 (n1 / 4) 0 c d).1
    (xor_loop next n1 (n1 / 4) 0 c d).2
  rw [hqh, Nat.add_zero] at hsh
  have hr2 : ∀ c', xor_loop next n2 n2 0 c' d2 = xor_loop next n2 (n2 / 4) 0 c' d2 :=
    fun c' => xor_loop_fuel next n2 (n2 / 4) n2 0 c' d2 (by omega) (by omega)
  rw [hw, hsp, hr1, hr2, ← hq1]
  refine ⟨hsh.1, fun a ha => ?_, hsh.2⟩
  rw [xor_loop_frame next (n1 + n2) (n2 / 4) n1 _ _ a ha]
  exact hql a ha
theorem readBytes_append (m m1 m2 : Mem) (n1 n2 : Nat) (hl : ∀ a, a < n1 → m a = m1 a)
    (hh : ∀ i, m (n1 + i) = m2 i) :
    readBytes m (n1 + n2) = readBytes m1 n1 ++ readBytes m2 n2 := by
  unfold readBytes
  rw [List.range_add, List.map_append, List.map_map]
  congr 1
  · exact List.map_congr_left (fun a ha => hl a (List.mem_range.mp ha))
  · exact List.map_congr_left (fun i _ => hh i)

theorem xor_loop_chunk (next : CRYPT_SETUP → Nat × CRYPT_SETUP) (c : CRYPT_SETUP)
    (b1 b2 : List Nat) (fill : Nat) (h1 : b1.length % 4 = 0) (h2 : b2.length % 4 = 0) :
    (xor_loop next (b1.length + b2.length) (b1.length + b2.length) 0 c
        (memOfList (b1 ++ b2) fill)).1
      = (xor_loop next b2.length b2.length 0
          (xor_loop next b1.length b1.length 0 c (memOfList b1 fill)).1 (memOfList b2 fill)).1
    ∧ readBytes (xor_loop next (b1.length + b2.length) (b1.length + b2.length) 0 c
          (memOfList (b1 ++ b2) fill)).2 (b1.length + b2.length)
      = readBytes (xor_loop next b1.length b1.length 0 c (memOfList b1 fill)).2 b1.length
        ++ readBytes (xor_loop next b2.length b2.length 0
            (xor_loop next b1.length b1.length 0 c (memOfList b1 fill)).1
            (memOfList b2 fill)).2 b2.length := by
  have hd1 : ∀ a, a < b1.length → memOfList (b1 ++ b2) fill a = memOfList b1 fill a :=
    fun a ha => List.getD_append b1 b2 fill a ha
  have hd2 : ∀ i, memOfList (b1 ++ b2) fill (b1.length + i) = memOfList b2 fill i := by
    intro i
    unfold memOfList
    rw [List.getD_append_right b1 b2 fill (b1.length + i) (by omega)]
    congr 1
    omega
  obtain ⟨g1, g2, g3⟩ := xor_loop_chunk_mem next c b1.length b2.length
    (memOfList (b1 ++ b2) fill) (memOfList b1 fill) (memOfList b2 fill) h1 h2 hd1 hd2
  exact ⟨g1, readBytes_append _ _ _ _ _ g2 g3⟩

/-- C23: stream chunking. For each of the PC and GameCube variants, for every context
state and buffers `b1` and `b2` whose lengths are multiples of 4 (together below 2^32,
the range of the `uint32_t` loop counter of the PC variant), transforming `b1` and then
`b2` with the same context gives the same output bytes and the same final context as
transforming the concatenation `b1 ++ b2` in a single call. -/
theorem stream_chunking (c : CRYPT_SETUP) (b1 b2 : List Nat) (fill : Nat)
    (h1 : b1.length % 4 = 0) (h2 : b2.length % 4 = 0)
    (_hsz : b1.length + b2.length < 4294967296) :
    ((CRYPT_PC_CryptData c (memOfList (b1 ++ b2) fill) (b1.length + b2.length)).1
        = (CRYPT_PC_CryptData (CRYPT_PC_CryptData c (memOfList b1 fill) b1.length).1
            (memOfList b2 fill) b2.length).1
      ∧ readBytes (CRYPT_PC_CryptData c (memOfList (b1 ++ b2) fill)
            (b1.length + b2.length)).2 (b1.length + b2.length)
        = readBytes (CRYPT_PC_CryptData c (memOfList b1 fill) b1.length).2 b1.length
          ++ readBytes (CRYPT_PC_CryptData (CRYPT_PC_CryptData c (memOfList b1 fill) b1.length).1
              (memOfList b2 fill) b2.length).2 b2.length)
    ∧ ((CRYPT_GC_CryptData c (memOfList (b1 ++ b2) fill) (b1.length + b2.length)).1
        = (CRYPT_GC_CryptData (CRYPT_GC_CryptData c (memOfList b1 fill) b1.length).1
            (memOfList b2 fill) b2.length).1
      ∧ readBytes (CRYPT_GC_CryptData c (memOfList (b1 ++ b2) fill)
            (b1.length + b2.length)).2 (b1.length + b2.length)
        = readBytes (CRYPT_GC_CryptData c (memOfList b1 fill) b1.length).2 b1.length
          ++ readBytes (CRYPT_GC_CryptData (CRYPT_GC_CryptData c (memOfList b1 fill) b1.length).1
              (memOfList b2 fill) b2.length).2 b2.length) := by
  constructor
  · simp only [CRYPT_PC_CryptData, pc_crypt_loop_eq]
    exact xor_loop_chunk CRYPT_PC_GetNextKey c b1 b2 fill h1 h2
  · simp only [CRYPT_GC_CryptData, gc_crypt_loop_eq]
    exact xor_loop_chunk CRYPT_GC_GetNextKey c b1 b2 fill h1 h2
set_option maxRecDepth 100000 in
/-- C23 for the buffers `1 2 3 4` and `5 6 7 8 9 10 11 12` and the context whose ring slot
`p` holds `p`, with the PC cursor at 56 and the GameCube cursor at 520: the PC transform
of the 12 bytes in one call gives `E0 FD FC FB E4 F9 F8 F7 E8 F5 F4 F3`, and so do the
two calls one after the other. -/
theorem stream_chunking_witness :
    [1, 2, 3, 4].length % 4 = 0 ∧ [5, 6, 7, 8, 9, 10, 11, 12].length % 4 = 0
    ∧ [1, 2, 3, 4].length + [5, 6, 7, 8, 9, 10, 11, 12].length < 4294967296
    ∧ readBytes (CRYPT_PC_CryptData
          { zeroSetup with keys := fun p => p, pc_posn := 56, gc_block_ptr := 520,
                           gc_block_end_ptr := 521 }
          (memOfList ([1, 2, 3, 4] ++ [5, 6, 7, 8, 9, 10, 11, 12]) 0)
          ([1, 2, 3, 4].length + [5, 6, 7, 8, 9, 10, 11, 12].length)).2
        ([1, 2, 3, 4].length + [5, 6, 7, 8, 9, 10, 11, 12].length)
      = [224, 253, 252, 251, 228, 249, 248, 247, 232, 245, 244, 243]
    ∧ readBytes (CRYPT_PC_CryptData
          { zeroSetup with keys := fun p => p, pc_posn := 56, gc_block_ptr := 520,
                           gc_block_end_ptr := 521 }
          (memOfList ([1, 2, 3, 4] ++ [5, 6, 7, 8, 9, 10, 11, 12]) 0)
          ([1, 2, 3, 4].length + [5, 6, 7, 8, 9, 10, 11, 12].length)).2
        ([1, 2, 3, 4].length + [5, 6, 7, 8, 9, 10, 11, 12].length)
      = readBytes (CRYPT_PC_CryptData
            { zeroSetup with keys := fun p => p, pc_posn := 56, gc_block_ptr := 520,
                             gc_block_end_ptr := 521 }
            (memOfList [1, 2, 3, 4] 0) [1, 2, 3, 4].length).2 [1, 2, 3, 4].length
        ++ readBytes (CRYPT_PC_CryptData
            (CRYPT_PC_CryptData
              { zeroSetup with keys := fun p => p, pc_posn := 56, gc_block_ptr := 520,
                               gc_block_end_ptr := 521 }
              (memOfList [1, 2, 3, 4] 0) [1, 2, 3, 4].length).1
            (memOfList [5, 6, 7, 8, 9, 10, 11, 12] 0)
            [5, 6, 7, 8, 9, 10, 11, 12].length).2 [5, 6, 7, 8, 9, 10, 11, 12].length :=
  ⟨by decide, by decide, by decide, by decide,
    (stream_chunking
      { zeroSetup with keys := fun p => p, pc_posn := 56, gc_block_ptr := 520,
                       gc_block_end_ptr := 521 }
      [1, 2, 3, 4] [5, 6, 7, 8, 9, 10, 11, 12] 0 (by decide) (by decide) (by decide)).1.2⟩

/-! ## The copy-token codec on the stream the compressor writes -/

theorem shift_in_bit_eq (v b : Nat) (hv : v < 256) :
    shift_in_bit v b = v / 2 + (if b = 0 then 0 else 128) := by
  unfold shift_in_bit
  rw [Nat.shiftRight_eq_div_pow]
  have lt : v / 2 ^ 1 < 2 ^ 7 := by
    have : (2 : Nat) ^ 7 = 128 := by decide
    have : (2 : Nat) ^ 1 = 2 := by decide
    omega
  by_cases hb : b = 0
  · simp only [hb, if_true, Nat.zero_shiftLeft, Nat.or_zero]
    have : (2 : Nat) ^ 1 = 2 := by decide
    omega
  · simp only [hb, if_false]
    have h := Nat.mul_add_lt_is_or lt 1
    have e : (1 : Nat) <<< 7 = 2 ^ 7 * 1 := by decide
    rw [e, Nat.or_comm, ← h]
    have : (2 : Nat) ^ 7 = 128 := by decide
    have : (2 : Nat) ^ 1 = 2 := by decide
    omega

theorem wf_nosave (pc : PRS_COMPRESSOR) (b : Nat) (hw : prs_wf pc) (he : pc.bitpos < 8) :
    prs_wf (prs_put_control_bit_nosave pc b) := by
  obtain ⟨_, h2, h3⟩ := hw
  refine ⟨by show pc.bitpos + 1 ≤ 8; omega, h2, fun a => ?_⟩
  show store pc.dst pc.controlbyteptr _ a < 256
  unfold store
  split_ifs
  · exact Nat.mod_lt _ (by decide)
  · exact h3 a

theorem wf_save (pc : PRS_COMPRESSOR) (hw : prs_wf pc) :
    prs_wf (prs_put_control_save pc) ∧ (prs_put_control_save pc).bitpos < 8 := by
  obtain ⟨h1, h2, h3⟩ := hw
  unfold prs_put_control_save
  split_ifs with h8
  · exact ⟨⟨by show (0 : Nat) ≤ 8; omega, by show pc.dstptr < pc.dstptr + 1; omega, h3⟩,
      by show (0 : Nat) < 8; omega⟩
  · exact ⟨⟨h1, h2, h3⟩, by omega⟩

theorem wf_static_data (pc : PRS_COMPRESSOR) (d : Nat) (hw : prs_wf pc) :
    prs_wf (prs_put_static_data pc d) := by
  obtain ⟨h1, h2, h3⟩ := hw
  refine ⟨h1, by show pc.controlbyteptr < pc.dstptr + 1; omega, fun a => ?_⟩
  show store pc.dst pc.dstptr d a < 256
  unfold store
  split_ifs
  · exact Nat.mod_lt _ (by decide)
  · exact h3 a

theorem pending_nosave (pc : PRS_COMPRESSOR) (b : Nat) (out : Mem) (hw : prs_wf pc)
    (he : pc.bitpos < 8) (h : prs_pending (prs_put_control_bit_nosave pc b) out) :
    prs_pending pc out
    ∧ (out pc.controlbyteptr % 256) / 2 ^ pc.bitpos % 2 = (if b = 0 then 0 else 1) := by
  obtain ⟨_, h2, h3⟩ := hw
  obtain ⟨f, g⟩ := h
  have f' : ∀ a, a < pc.dstptr → a ≠ pc.controlbyteptr → out a = pc.dst a := by
    intro a ha hne
    have := f a ha hne
    simp only [prs_put_control_bit_nosave, store, if_neg hne] at this
    exact this
  have g' : (out pc.controlbyteptr % 256) % 2 ^ (pc.bitpos + 1)
      = (pc.dst pc.controlbyteptr / 2 + (if b = 0 then 0 else 128)) / 2 ^ (8 - (pc.bitpos + 1)) := by
    have := g
    simp only [prs_put_control_bit_nosave, store, if_true] at this
    rw [shift_in_bit_eq _ _ (h3 _)] at this
    have lt : pc.dst pc.controlbyteptr / 2 + (if b = 0 then 0 else 128) < 256 := by
      have := h3 pc.controlbyteptr
      split_ifs <;> omega
    rw [Nat.mod_eq_of_lt lt] at this
    exact this
  have hv := h3 pc.controlbyteptr
  have hx : out pc.controlbyteptr % 256 < 256 := Nat.mod_lt _ (by decide)
  refine ⟨⟨f', ?_⟩, ?_⟩
  · show (out pc.controlbyteptr % 256) % 2 ^ pc.bitpos
      = pc.dst pc.controlbyteptr / 2 ^ (8 - pc.bitpos)
    generalize pc.dst pc.controlbyteptr = v at g' hv ⊢
    generalize out pc.controlbyteptr % 256 = X at g' hx ⊢
    generalize pc.bitpos = e at he g' ⊢
    interval_cases e <;> split_ifs at g' <;> simp only [Nat.reducePow, Nat.reduceSub,
      Nat.reduceAdd] at g' ⊢ <;> omega
  · generalize pc.dst pc.controlbyteptr = v at g' hv ⊢
    generalize out pc.controlbyteptr % 256 = X at g' hx ⊢
    generalize pc.bitpos = e at he g' ⊢
    interval_cases e <;> split_ifs at g' ⊢ <;> simp only [Nat.reducePow, Nat.reduceSub,
      Nat.reduceAdd] at g' ⊢ <;> omega
theorem pending_save (pc : PRS_COMPRESSOR) (out : Mem) (hw : prs_wf pc)
    (h : prs_pending (prs_put_control_save pc) out) : prs_pending pc out := by
  obtain ⟨h1, h2, h3⟩ := hw
  unfold prs_put_control_save at h
  by_cases h8 : pc.bitpos ≥ 8
  · rw [if_pos h8] at h
    obtain ⟨f, _⟩ := h
    have e8 : pc.bitpos = 8 := by omega
    have f' : ∀ a, a < pc.dstptr + 1 → a ≠ pc.dstptr → out a = pc.dst a := f
    refine ⟨fun a ha hne => f' a (by omega) (by omega), ?_⟩
    have hv := h3 pc.controlbyteptr
    rw [e8, f' pc.controlbyteptr (by omega) (by omega)]
    simp only [Nat.reducePow, Nat.reduceSub]
    omega
  · rw [if_neg h8] at h
    exact h

theorem pending_static_data (pc : PRS_COMPRESSOR) (d : Nat) (out : Mem) (hw : prs_wf pc)
    (h : prs_pending (prs_put_static_data pc d) out) :
    prs_pending pc out ∧ out pc.dstptr = d % 256 := by
  obtain ⟨_, h2, _⟩ := hw
  obtain ⟨f, g⟩ := h
  have f' : ∀ a, a < pc.dstptr + 1 → a ≠ pc.controlbyteptr
      → out a = store pc.dst pc.dstptr d a := f
  have g' : (out pc.controlbyteptr % 256) % 2 ^ pc.bitpos
      = store pc.dst pc.dstptr d pc.controlbyteptr / 2 ^ (8 - pc.bitpos) := g
  have hne : ¬ pc.controlbyteptr = pc.dstptr := by omega
  simp only [store, hne, if_false] at g'
  refine ⟨⟨fun a ha hn => ?_, g'⟩, ?_⟩
  · have := f' a (by omega) hn
    have hd : ¬ a = pc.dstptr := by omega
    simp only [store, hd, if_false] at this
    exact this
  · have := f' pc.dstptr (by omega) (by omega)
    simp only [store, if_true] at this
    exact this

theorem loaded_read (pc : PRS_COMPRESSOR) (s : PRS_DECOMPRESSOR) (out : Mem) (b : Nat)
    (he : pc.bitpos < 8) (hs : prs_in_step pc s out) :
    (read_control_bit out s).1 = (out pc.controlbyteptr % 256) / 2 ^ pc.bitpos % 2
    ∧ prs_loaded (prs_put_control_bit_nosave pc b) (read_control_bit out s).2 out := by
  rcases hs with ⟨h1, h2, h3⟩ | ⟨h0, h1, h2, h3⟩
  · have hb : ¬ s.bitpos = 0 := by omega
    have hb' : ¬ s.bitpos - 1 = 0 := by omega
    simp only [read_control_bit, hb, hb', if_false]
    refine ⟨?_, h1, ?_, ?_⟩
    · rw [h3, Nat.and_one_is_mod, Nat.shiftRight_eq_div_pow]
    · show s.bitpos - 1 = 9 - (pc.bitpos + 1)
      omega
    · show s.currentbyte >>> 1 = (out pc.controlbyteptr % 256) >>> (pc.bitpos + 1)
      rw [h3, Nat.shiftRight_add]
  · have hb : ¬ s.bitpos = 0 := by omega
    have hb' : s.bitpos - 1 = 0 := by omega
    simp only [read_control_bit, hb, hb', if_false, if_true]
    refine ⟨?_, ?_, ?_, ?_⟩
    · rw [h2, h0, Nat.and_one_is_mod]
      simp only [Nat.pow_zero, Nat.div_one]
    · show s.sourceptr + 1 = pc.dstptr
      omega
    · show 8 = 9 - (pc.bitpos + 1)
      omega
    · show (out s.sourceptr % 256) >>> 1 = (out pc.controlbyteptr % 256) >>> (pc.bitpos + 1)
      rw [h2, h0]

theorem loaded_save (pc : PRS_COMPRESSOR) (s : PRS_DECOMPRESSOR) (out : Mem)
    (he : pc.bitpos ≤ 8) (hs : prs_loaded pc s out) :
    prs_in_step (prs_put_control_save pc) s out := by
  obtain ⟨h1, h2, h3⟩ := hs
  unfold prs_put_control_save
  by_cases h8 : pc.bitpos ≥ 8
  · rw [if_pos h8]
    right
    exact ⟨rfl, by omega, h1, rfl⟩
  · rw [if_neg h8]
    left
    exact ⟨h1, h2, h3⟩

theorem loaded_static_data (pc : PRS_COMPRESSOR) (s : PRS_DECOMPRESSOR) (out : Mem) (d : Nat)
    (hs : prs_loaded pc s out) :
    prs_loaded (prs_put_static_data pc d) { s with sourceptr := s.sourceptr + 1 } out := by
  obtain ⟨h1, h2, h3⟩ := hs
  refine ⟨?_, h2, h3⟩
  show s.sourceptr + 1 = pc.dstptr + 1
  omega
theorem wf_put_control_bit (pc : PRS_COMPRESSOR) (b : Nat) (hw : prs_wf pc)
    (he : pc.bitpos < 8) :
    prs_wf (prs_put_control_bit pc b) ∧ (prs_put_control_bit pc b).bitpos < 8 :=
  wf_save _ (wf_nosave pc b hw he)

theorem pending_put_control_bit (pc : PRS_COMPRESSOR) (b : Nat) (out : Mem) (hw : prs_wf pc)
    (he : pc.bitpos < 8) (h : prs_pending (prs_put_control_bit pc b) out) :
    prs_pending pc out
    ∧ (out pc.controlbyteptr % 256) / 2 ^ pc.bitpos % 2 = (if b = 0 then 0 else 1) :=
  pending_nosave pc b out hw he (pending_save _ out (wf_nosave pc b hw he) h)

theorem pending_finish_tail (pc : PRS_COMPRESSOR) (hw : prs_wf pc) (he : pc.bitpos < 8) :
    prs_pending pc
      (prs_put_static_data (prs_put_static_data
        (if pc.bitpos ≠ 0 then
          { pc with dst := store pc.dst pc.controlbyteptr
                      (((pc.dst pc.controlbyteptr) <<< pc.bitpos) >>> 8) }
        else pc) 0) 0).dst := by
  obtain ⟨_, h2, h3⟩ := hw
  have hv := h3 pc.controlbyteptr
  by_cases h0 : pc.bitpos = 0
  · have hn : ¬ pc.bitpos ≠ 0 := fun h => h h0
    rw [if_neg hn]
    have hA1 : ¬ pc.controlbyteptr = pc.dstptr + 1 := by omega
    have hA : ¬ pc.controlbyteptr = pc.dstptr := by omega
    refine ⟨fun a ha hne => ?_, ?_⟩
    · have e1 : ¬ a = pc.dstptr + 1 := by omega
      have e2 : ¬ a = pc.dstptr := by omega
      simp only [prs_put_static_data, store, e1, e2, if_false]
    · simp only [prs_put_static_data, store, hA1, hA, if_false, h0, Nat.pow_zero, Nat.mod_one,
        Nat.sub_zero, Nat.reducePow]
      omega
  · have hn : pc.bitpos ≠ 0 := h0
    rw [if_pos hn]
    have hA1 : ¬ pc.controlbyteptr = pc.dstptr + 1 := by omega
    have hA : ¬ pc.controlbyteptr = pc.dstptr := by omega
    refine ⟨fun a ha hne => ?_, ?_⟩
    · have e1 : ¬ a = pc.dstptr + 1 := by omega
      have e2 : ¬ a = pc.dstptr := by omega
      simp only [prs_put_static_data, store, e1, e2, hne, if_false]
    · simp only [prs_put_static_data, store, hA1, hA, if_false, if_true, Nat.mod_mod,
        Nat.shiftLeft_eq, Nat.shiftRight_eq_div_pow]
      generalize pc.dst pc.controlbyteptr = v at hv ⊢
      generalize pc.bitpos = e at he h0 ⊢
      interval_cases e <;> simp only [Nat.reducePow, Nat.reduceSub] <;> omega

theorem pending_finish (pc : PRS_COMPRESSOR) (hw : prs_wf pc) (he : pc.bitpos < 8) :
    prs_pending pc (prs_finish pc).dst := by
  obtain ⟨w1, e1⟩ := wf_put_control_bit pc 0 hw he
  obtain ⟨w2, e2⟩ := wf_put_control_bit (prs_put_control_bit pc 0) 1 w1 e1
  have h := pending_finish_tail (prs_put_control_bit (prs_put_control_bit pc 0) 1) w2 e2
  have h' : prs_pending (prs_put_control_bit (prs_put_control_bit pc 0) 1) (prs_finish pc).dst := h
  exact (pending_put_control_bit pc 0 _ hw he
    (pending_put_control_bit (prs_put_control_bit pc 0) 1 _ w1 e1 h').1).1
theorem wf_put_control_bits (bits : List Nat) (hne : bits ≠ []) :
    ∀ pc : PRS_COMPRESSOR, prs_wf pc → pc.bitpos < 8 → prs_wf (put_control_bits pc bits) := by
  induction bits with
  | nil => exact absurd rfl hne
  | cons b bs ih =>
    intro pc hw he
    cases bs with
    | nil => exact wf_nosave pc b hw he
    | cons c cs =>
      obtain ⟨w1, e1⟩ := wf_put_control_bit pc b hw he
      exact ih (List.cons_ne_nil c cs) _ w1 e1

theorem pending_put_control_bits (out : Mem) (bits : List Nat) (hne : bits ≠ []) :
    ∀ pc : PRS_COMPRESSOR, prs_wf pc → pc.bitpos < 8 →
      prs_pending (put_control_bits pc bits) out → prs_pending pc out := by
  induction bits with
  | nil => exact absurd rfl hne
  | cons b bs ih =>
    intro pc hw he h
    cases bs with
    | nil => exact (pending_nosave pc b out hw he h).1
    | cons c cs =>
      obtain ⟨w1, e1⟩ := wf_put_control_bit pc b hw he
      exact (pending_put_control_bit pc b out hw he
        (ih (List.cons_ne_nil c cs) _ w1 e1 h)).1

theorem read_put_control_bits (out : Mem) (bits : List Nat) (hne : bits ≠ [])
    (h01 : ∀ b ∈ bits, b < 2) :
    ∀ (pc : PRS_COMPRESSOR) (s : PRS_DECOMPRESSOR), prs_wf pc → pc.bitpos < 8 →
      prs_in_step pc s out → prs_pending (put_control_bits pc bits) out →
      (read_control_bits out bits.length s).1 = bits
      ∧ prs_loaded (put_control_bits pc bits) (read_control_bits out bits.length s).2 out := by
  induction bits with
  | nil => exact absurd rfl hne
  | cons b bs ih =>
    intro pc s hw he hs h
    have hb : b < 2 := h01 b (List.mem_cons_self b bs)
    have hnb : (if b = 0 then 0 else 1) = b := by split_ifs <;> omega
    cases bs with
    | nil =>
      obtain ⟨_, hbit⟩ := pending_nosave pc b out hw he h
      obtain ⟨r1, r2⟩ := loaded_read pc s out b he hs
      rw [hbit, hnb] at r1
      exact ⟨by simp only [List.length_cons, List.length_nil, read_control_bits, r1], r2⟩
    | cons c cs =>
      obtain ⟨w1, e1⟩ := wf_put_control_bit pc b hw he
      have hp1 : prs_pending (prs_put_control_bit pc b) out :=
        pending_put_control_bits out (c :: cs) (List.cons_ne_nil c cs) _ w1 e1 h
      obtain ⟨_, hbit⟩ := pending_put_control_bit pc b out hw he hp1
      obtain ⟨r1, r2⟩ := loaded_read pc s out b he hs
      rw [hbit, hnb] at r1
      have hs1 : prs_in_step (prs_put_control_bit pc b) (read_control_bit out s).2 out :=
        loaded_save _ _ out (wf_nosave pc b hw he).1 r2
      obtain ⟨i1, i2⟩ := ih (List.cons_ne_nil c cs)
        (fun x hx => h01 x (List.mem_cons_of_mem b hx)) _ _ w1 e1 hs1 h
      refine ⟨?_, i2⟩
      show (read_control_bit out s).1
          :: (read_control_bits out (c :: cs).length (read_control_bit out s).2).1 = b :: c :: cs
      rw [r1, i1]
theorem foldl_static_data_fields (bytes : List Nat) :
    ∀ pc : PRS_COMPRESSOR,
      (bytes.foldl prs_put_static_data pc).dstptr = pc.dstptr + bytes.length
      ∧ (bytes.foldl prs_put_static_data pc).controlbyteptr = pc.controlbyteptr
      ∧ (bytes.foldl prs_put_static_data pc).bitpos = pc.bitpos := by
  induction bytes with
  | nil => intro pc; exact ⟨rfl, rfl, rfl⟩
  | cons d ds ih =>
    intro pc
    obtain ⟨h1, h2, h3⟩ := ih (prs_put_static_data pc d)
    simp only [List.foldl_cons, List.length_cons]
    refine ⟨?_, h2, h3⟩
    rw [h1]
    show pc.dstptr + 1 + ds.length = pc.dstptr + (ds.length + 1)
    omega

theorem wf_foldl_static_data (bytes : List Nat) :
    ∀ pc : PRS_COMPRESSOR, prs_wf pc → prs_wf (bytes.foldl prs_put_static_data pc) := by
  induction bytes with
  | nil => intro pc hw; exact hw
  | cons d ds ih =>
    intro pc hw
    exact ih _ (wf_static_data pc d hw)

theorem pending_foldl_static_data (out : Mem) (bytes : List Nat) :
    ∀ pc : PRS_COMPRESSOR, prs_wf pc → prs_pending (bytes.foldl prs_put_static_data pc) out →
      prs_pending pc out
      ∧ ∀ i, i < bytes.length → out (pc.dstptr + i) = bytes.getD i 0 % 256 := by
  induction bytes with
  | nil => intro pc _ h; exact ⟨h, fun i hi => absurd hi (Nat.not_lt_zero i)⟩
  | cons d ds ih =>
    intro pc hw h
    obtain ⟨h1, h2⟩ := ih _ (wf_static_data pc d hw) h
    obtain ⟨h3, h4⟩ := pending_static_data pc d out hw h1
    refine ⟨h3, fun i hi => ?_⟩
    cases i with
    | zero => simpa only [List.getD_cons_zero, Nat.add_zero] using h4
    | succ j =>
      have := h2 j (by simp only [List.length_cons] at hi; omega)
      have e : (prs_put_static_data pc d).dstptr + j = pc.dstptr + (j + 1) := by
        show pc.dstptr + 1 + j = pc.dstptr + (j + 1)
        omega
      rw [e] at this
      simpa only [List.getD_cons_succ] using this

theorem loaded_foldl_static_data (out : Mem) (bytes : List Nat) (pc : PRS_COMPRESSOR)
    (s : PRS_DECOMPRESSOR) (hs : prs_loaded pc s out) (sp : Nat)
    (hsp : sp = s.sourceptr + bytes.length) (t : PRS_DECOMPRESSOR)
    (ht : t.sourceptr = sp ∧ t.bitpos = s.bitpos ∧ t.currentbyte = s.currentbyte) :
    prs_loaded (bytes.foldl prs_put_static_data pc) t out := by
  obtain ⟨h1, h2, h3⟩ := hs
  obtain ⟨f1, f2, f3⟩ := foldl_static_data_fields bytes pc
  obtain ⟨t1, t2, t3⟩ := ht
  unfold prs_loaded
  rw [f1, f2, f3, t1, t2, t3, hsp, h1]
  exact ⟨rfl, h2, h3⟩

theorem wf_put_token (pc : PRS_COMPRESSOR) (bits bytes : List Nat) (hne : bits ≠ [])
    (hw : prs_wf pc) (he : pc.bitpos < 8) :
    prs_wf (put_token pc bits bytes) ∧ (put_token pc bits bytes).bitpos < 8 :=
  wf_save _ (wf_foldl_static_data bytes _ (wf_put_control_bits bits hne pc hw he))

theorem pending_put_token (pc : PRS_COMPRESSOR) (bits bytes : List Nat) (out : Mem)
    (hne : bits ≠ []) (hw : prs_wf pc) (he : pc.bitpos < 8)
    (h : prs_pending (put_token pc bits bytes) out) : prs_pending pc out := by
  have w1 := wf_put_control_bits bits hne pc hw he
  have w2 := wf_foldl_static_data bytes _ w1
  exact pending_put_control_bits out bits hne pc hw he
    (pending_foldl_static_data out bytes _ w1 (pending_save _ out w2 h)).1

theorem copy_control_bits_ne (offset : Int) (size : Nat) :
    copy_control_bits offset size ≠ [] ∧ ∀ b ∈ copy_control_bits offset size, b < 2 := by
  unfold copy_control_bits
  split_ifs
  · refine ⟨List.cons_ne_nil _ _, fun b hb => ?_⟩
    simp only [List.mem_cons, List.mem_singleton, List.not_mem_nil, or_false] at hb
    have a1 : ((size % 256 + 254) % 256) >>> 1 &&& 1 < 2 := by
      rw [Nat.and_one_is_mod]; omega
    have a0 : (size % 256 + 254) % 256 &&& 1 < 2 := by
      rw [Nat.and_one_is_mod]; omega
    rcases hb with h | h | h | h <;> omega
  · refine ⟨List.cons_ne_nil _ _, fun b hb => ?_⟩
    simp only [List.mem_cons, List.mem_singleton, List.not_mem_nil, or_false] at hb
    rcases hb with h | h <;> omega

theorem wf_prs_copy (pc : PRS_COMPRESSOR) (offset : Int) (size : Nat) (hw : prs_wf pc)
    (he : pc.bitpos < 8) :
    prs_wf (prs_copy pc offset size) ∧ (prs_copy pc offset size).bitpos < 8 := by
  rw [prs_copy_put_token]
  exact wf_put_token pc _ _ (copy_control_bits_ne offset size).1 hw he

theorem pending_prs_copy (pc : PRS_COMPRESSOR) (offset : Int) (size : Nat) (out : Mem)
    (hw : prs_wf pc) (he : pc.bitpos < 8) (h : prs_pending (prs_copy pc offset size) out) :
    prs_pending (put_token pc (copy_control_bits offset size) (copy_static_data offset size)) out
    ∧ prs_pending pc out := by
  rw [prs_copy_put_token] at h
  have h' : prs_pending
      (put_token pc (copy_control_bits offset size) (copy_static_data offset size)) out := h
  exact ⟨h', pending_put_token pc _ _ out (copy_control_bits_ne offset size).1 hw he h'⟩

theorem wf_rawbyte (src : Mem) (pc : PRS_COMPRESSOR) (hw : prs_wf pc) (he : pc.bitpos < 8) :
    prs_wf (prs_rawbyte src pc) ∧ (prs_rawbyte src pc).bitpos < 8 := by
  have w1 := wf_nosave pc 1 hw he
  have w1' : prs_wf { (prs_put_control_bit_nosave pc 1) with
      srcptr := (prs_put_control_bit_nosave pc 1).srcptr + 1 } := w1
  exact wf_save _ (wf_static_data _ (src pc.srcptr) w1')

theorem pending_rawbyte (src : Mem) (pc : PRS_COMPRESSOR) (out : Mem) (hw : prs_wf pc)
    (he : pc.bitpos < 8) (h : prs_pending (prs_rawbyte src pc) out) : prs_pending pc out := by
  have w1 := wf_nosave pc 1 hw he
  have w1' : prs_wf { (prs_put_control_bit_nosave pc 1) with
      srcptr := (prs_put_control_bit_nosave pc 1).srcptr + 1 } := w1
  have h2 := (pending_static_data _ (src pc.srcptr) out w1'
    (pending_save _ out (wf_static_data _ (src pc.srcptr) w1') h)).1
  have h2' : prs_pending (prs_put_control_bit_nosave pc 1) out := h2
  exact (pending_nosave pc 1 out hw he h2').1

theorem pending_compress_loop (src : Mem) (size : Nat) (n : Nat) :
    ∀ (x : Nat) (pc : PRS_COMPRESSOR), prs_wf pc → pc.bitpos < 8 →
      prs_pending pc (prs_finish (compress_loop src size n x pc)).dst := by
  induction n with
  | zero => intro x pc hw he; exact pending_finish pc hw he
  | succ n ih =>
    intro x pc hw he
    simp only [compress_loop]
    split_ifs with hx h0
    · obtain ⟨w, e⟩ := wf_rawbyte src pc hw he
      exact pending_rawbyte src pc _ hw he (ih _ _ w e)
    · obtain ⟨w, e⟩ := wf_prs_copy pc (prs_search src size x).1 (prs_search src size x).2 hw he
      exact (pending_prs_copy pc _ _ _ hw he (ih _ _ w e)).2
    · exact pending_finish pc hw he

theorem wf_init (dst : Mem) (hb : ∀ a, dst a < 256) :
    prs_wf (prs_init dst) ∧ (prs_init dst).bitpos < 8 :=
  ⟨⟨by show (0 : Nat) ≤ 8; omega, by show (0 : Nat) < 1; omega, hb⟩,
    by show (0 : Nat) < 8; omega⟩

theorem wf_compress_loop (src : Mem) (size : Nat) (n : Nat) :
    ∀ (x : Nat) (pc : PRS_COMPRESSOR), prs_wf pc → pc.bitpos < 8 →
      prs_wf (compress_loop src size n x pc) ∧ (compress_loop src size n x pc).bitpos < 8 := by
  induction n with
  | zero => intro x pc hw he; exact ⟨hw, he⟩
  | succ n ih =>
    intro x pc hw he
    simp only [compress_loop]
    split_ifs with hx h0
    · obtain ⟨w, e⟩ := wf_rawbyte src pc hw he
      exact ih _ _ w e
    · obtain ⟨w, e⟩ := wf_prs_copy pc (prs_search src size x).1 (prs_search src size x).2 hw he
      exact ih _ _ w e
    · exact ⟨hw, he⟩

theorem in_step_init (dst : Mem) (out : Mem) (dest : IMem) :
    prs_in_step (prs_init dst) (prs_decompress_init out dest) out :=
  Or.inl ⟨rfl, rfl, rfl⟩

theorem prs_rawbyte_decode (src : Mem) (pc : PRS_COMPRESSOR) (s : PRS_DECOMPRESSOR)
    (out : Mem) (hw : prs_wf pc) (he : pc.bitpos < 8) (hs : prs_in_step pc s out)
    (hp : prs_pending (prs_rawbyte src pc) out) :
    ∃ s', prs_decompress_step out s = .next s'
      ∧ s'.dest = istore s.dest (s.destptr : Int) (src pc.srcptr)
      ∧ s'.destptr = s.destptr + 1
      ∧ prs_in_step (prs_rawbyte src pc) s' out := by
  have w1 := wf_nosave pc 1 hw he
  have w1' : prs_wf { (prs_put_control_bit_nosave pc 1) with
      srcptr := (prs_put_control_bit_nosave pc 1).srcptr + 1 } := w1
  have w2 := wf_static_data _ (src pc.srcptr) w1'
  obtain ⟨h2, hbyte⟩ := pending_static_data _ (src pc.srcptr) out w1' (pending_save _ out w2 hp)
  have h2' : prs_pending (prs_put_control_bit_nosave pc 1) out := h2
  obtain ⟨_, hbit⟩ := pending_nosave pc 1 out hw he h2'
  obtain ⟨r1, r2⟩ := loaded_read pc s out 1 he hs
  rw [hbit] at r1
  obtain ⟨d1, d2⟩ := read_control_bit_dest out s
  have hsp : (read_control_bit out s).2.sourceptr = pc.dstptr := r2.1
  have hbyte' : out pc.dstptr = src pc.srcptr % 256 := hbyte
  have hne : (read_control_bit out s).1 ≠ 0 := by rw [r1]; decide
  have hl : prs_loaded (prs_put_static_data { (prs_put_control_bit_nosave pc 1) with
      srcptr := (prs_put_control_bit_nosave pc 1).srcptr + 1 } (src pc.srcptr))
      { (read_control_bit out s).2 with
        dest := istore (read_control_bit out s).2.dest ((read_control_bit out s).2.destptr : Int)
          (out (read_control_bit out s).2.sourceptr),
        sourceptr := (read_control_bit out s).2.sourceptr + 1,
        destptr := (read_control_bit out s).2.destptr + 1 } out := by
    obtain ⟨q1, q2, q3⟩ := r2
    exact ⟨by show (read_control_bit out s).2.sourceptr + 1 = pc.dstptr + 1; omega, q2, q3⟩
  have hstep : prs_decompress_step out s = .next
      { (read_control_bit out s).2 with
        dest := istore (read_control_bit out s).2.dest ((read_control_bit out s).2.destptr : Int)
          (out (read_control_bit out s).2.sourceptr),
        sourceptr := (read_control_bit out s).2.sourceptr + 1,
        destptr := (read_control_bit out s).2.destptr + 1 } := by
    unfold prs_decompress_step
    simp only []
    rw [if_pos hne]
  refine ⟨_, hstep, ?_, ?_, loaded_save _ _ out w2.1 hl⟩
  · show istore (read_control_bit out s).2.dest ((read_control_bit out s).2.destptr : Int)
        (out (read_control_bit out s).2.sourceptr) = _
    rw [d1, d2, hsp, hbyte']
    funext j
    simp only [istore, Nat.mod_mod]
  · show (read_control_bit out s).2.destptr + 1 = s.destptr + 1
    rw [d2]

/-- C15, amended: for every copy token of the PRS token grammar (short copy with
distance in [-255,-1] and length in [2,5]; long copy with distance in [-8192,-1] and
length in [3,255], except distance -8192 with a length above 9), the control bits and
bytes that `prs_copy` emits are decoded by the copy branches of `prs_decompress` to a
copy with the same distance (after sign extension) and the same length, reading exactly
the bytes that were emitted. The compressor is in any well-formed state `pc` (any bit
position in the open control byte, any bytes in the destination), it emits the token
with `prs_copy`, goes on with any number of passes of its loop on any source, and ends
the stream with `prs_finish`; `out` is the destination memory it leaves. A decoder that
reads `out` and stands where `pc` stands decodes, in one pass, a copy of `size` bytes
from `destptr + offset`, and then stands where the compressor stands after `prs_copy`:
its source pointer has passed the bytes of the token and no others. -/
theorem prs_copy_codec (pc : PRS_COMPRESSOR) (offset : Int) (size : Nat) (src : Mem)
    (csize n x : Nat) (s : PRS_DECOMPRESSOR) (ho1 : -8192 ≤ offset) (ho2 : offset ≤ -1)
    (hs2 : 2 ≤ size) (hs255 : size ≤ 255) (h2 : size = 2 → -255 ≤ offset)
    (h8 : offset = -8192 → size ≤ 9) (hw : prs_wf pc) (he : pc.bitpos < 8)
    (hs : prs_in_step pc s
      (prs_finish (compress_loop src csize n x (prs_copy pc offset size))).dst) :
    ∃ s', prs_decompress_step
          (prs_finish (compress_loop src csize n x (prs_copy pc offset size))).dst s
        = .next s'
      ∧ s'.dest = (copy_loop size s.dest s.destptr ((s.destptr : Int) + offset)).1
      ∧ s'.destptr = s.destptr + size
      ∧ prs_in_step (prs_copy pc offset size) s'
          (prs_finish (compress_loop src csize n x (prs_copy pc offset size))).dst := by
  obtain ⟨w', e'⟩ := wf_prs_copy pc offset size hw he
  have hp := pending_compress_loop src csize n x (prs_copy pc offset size) w' e'
  generalize (prs_finish (compress_loop src csize n x (prs_copy pc offset size))).dst = out
    at hs hp ⊢
  obtain ⟨hpt, _⟩ := pending_prs_copy pc offset size out hw he hp
  obtain ⟨hne, h01⟩ := copy_control_bits_ne offset size
  have w1 := wf_put_control_bits _ hne pc hw he
  have w2 := wf_foldl_static_data (copy_static_data offset size) _ w1
  obtain ⟨hpb, hby⟩ := pending_foldl_static_data out (copy_static_data offset size) _ w1
    (pending_save _ out w2 hpt)
  obtain ⟨rb, rl⟩ := read_put_control_bits out _ hne h01 pc s hw he hs hpb
  have hbytes : ∀ i, i < (copy_static_data offset size).length →
      out ((read_control_bits out (copy_control_bits offset size).length s).2.sourceptr + i)
        = (copy_static_data offset size).getD i 0 % 256 := by
    intro i hi
    rw [rl.1]
    exact hby i hi
  have hd := (copy_token_decode pc offset size out s ho1 ho2 hs2 hs255 h2 h8 rb hbytes).2
  refine ⟨_, hd, rfl, rfl, ?_⟩
  have hl := loaded_foldl_static_data out (copy_static_data offset size) _ _ rl
    ((read_control_bits out (copy_control_bits offset size).length s).2.sourceptr
      + (copy_static_data offset size).length) rfl
    { (read_control_bits out (copy_control_bits offset size).length s).2 with
      sourceptr := (read_control_bits out (copy_control_bits offset size).length s).2.sourceptr
        + (copy_static_data offset size).length,
      dest := (copy_loop size s.dest s.destptr ((s.destptr : Int) + offset)).1,
      destptr := s.destptr + size } ⟨rfl, rfl, rfl⟩
  have hst := loaded_save _ _ out w2.1 hl
  rw [prs_copy_put_token]
  exact hst

set_option maxRecDepth 100000 in
/-- C15 at a token that crosses a control byte: after the six literals `1 2 3 4 5 6` the
compressor has six bits in its first control byte; the short copy with distance -3 and
length 3 puts two control bits there, two in a new control byte at index 7, and its
distance byte at index 8, and the stream ends as `3F 01 02 03 04 05 06 0A FD 00 00`. The
decoder that has decoded the six literals decodes the copy in its next pass. -/
theorem prs_copy_codec_witness :
    readBytes (prs_finish (compress_loop (fun _ => 0) 9 0 9
        (prs_copy (compress_loop (memOfList [1, 2, 3, 4, 5, 6] 0) 6 6 0 (prs_init (fun _ => 0)))
          (-3) 3))).dst 11
      = [63, 1, 2, 3, 4, 5, 6, 10, 253, 0, 0]
    ∧ prs_in_step (compress_loop (memOfList [1, 2, 3, 4, 5, 6] 0) 6 6 0 (prs_init (fun _ => 0)))
        { bitpos := 3, sourceptr := 7, destptr := 6, currentbyte := 0,
          dest := imemOfList [1, 2, 3, 4, 5, 6] 0 }
        (prs_finish (compress_loop (fun _ => 0) 9 0 9
          (prs_copy (compress_loop (memOfList [1, 2, 3, 4, 5, 6] 0) 6 6 0
            (prs_init (fun _ => 0))) (-3) 3))).dst
    ∧ ∃ s', prs_decompress_step
          (prs_finish (compress_loop (fun _ => 0) 9 0 9
            (prs_copy (compress_loop (memOfList [1, 2, 3, 4, 5, 6] 0) 6 6 0
              (prs_init (fun _ => 0))) (-3) 3))).dst
          { bitpos := 3, sourceptr := 7, destptr := 6, currentbyte := 0,
            dest := imemOfList [1, 2, 3, 4, 5, 6] 0 }
        = .next s'
      ∧ s'.dest = (copy_loop 3 (imemOfList [1, 2, 3, 4, 5, 6] 0) 6 (((6 : Nat) : Int) + (-3))).1
      ∧ s'.destptr = 6 + 3
      ∧ prs_in_step
          (prs_copy (compress_loop (memOfList [1, 2, 3, 4, 5, 6] 0) 6 6 0
            (prs_init (fun _ => 0))) (-3) 3) s'
          (prs_finish (compress_loop (fun _ => 0) 9 0 9
            (prs_copy (compress_loop (memOfList [1, 2, 3, 4, 5, 6] 0) 6 6 0
              (prs_init (fun _ => 0))) (-3) 3))).dst :=
  ⟨by decide, Or.inl ⟨by decide, by decide, by decide⟩,
    prs_copy_codec (compress_loop (memOfList [1, 2, 3, 4, 5, 6] 0) 6 6 0 (prs_init (fun _ => 0)))
      (-3) 3 (fun _ => 0) 9 0 9
      { bitpos := 3, sourceptr := 7, destptr := 6, currentbyte := 0,
        dest := imemOfList [1, 2, 3, 4, 5, 6] 0 }
      (by decide) (by decide) (by decide) (by decide) (by decide) (by decide)
      (wf_compress_loop _ 6 6 0 _ (wf_init _ (fun _ => by decide)).1 (by decide)).1
      (by decide) (Or.inl ⟨by decide, by decide, by decide⟩)⟩

/-! ## The tie-break of the match search -/

set_option maxRecDepth 100000 in
/-- C8 as stated, refuted on the 18-byte buffer `0 1 2 3 4 5 9 1 2 3 4 5 1 2 3 4 5 8`:
the compressor reaches `x = 12` (seven literals, a copy of 5 bytes), where the window
candidates `y = 7` and `y = 1` both match five bytes (`y + 5 ≤ x`, `x + 5 ≤ size`). The
match at `y = 7` ends at `x`, the `do`/`while` loop counts it as 4, and the copy emitted
has length 5 and distance -11, not the nearer -5. -/
theorem prs_search_nearest_stated_fails :
    prs_compress_bytes (memOfList [0, 1, 2, 3, 4, 5, 9, 1, 2, 3, 4, 5, 1, 2, 3, 4, 5, 8] 0)
        (fun _ => 0) 18
      = [127, 0, 1, 2, 3, 4, 5, 9, 230, 250, 245, 8, 2, 0, 0]
    ∧ prs_search (memOfList [0, 1, 2, 3, 4, 5, 9, 1, 2, 3, 4, 5, 1, 2, 3, 4, 5, 8] 0) 18 12
      = (-11, 5)
    ∧ match_len_stated (memOfList [0, 1, 2, 3, 4, 5, 9, 1, 2, 3, 4, 5, 1, 2, 3, 4, 5, 8] 0)
        18 12 7 = 5
    ∧ match_len_stated (memOfList [0, 1, 2, 3, 4, 5, 9, 1, 2, 3, 4, 5, 1, 2, 3, 4, 5, 8] 0)
        18 12 1 = 5
    ∧ match_len (memOfList [0, 1, 2, 3, 4, 5, 9, 1, 2, 3, 4, 5, 1, 2, 3, 4, 5, 8] 0)
        18 12 7 = 4 := by
  decide

/-- C8, amended: the greedy search keeps the nearest of the longest matches, with the
match length the `do`/`while` loop measures. At every position `x` with `x + 3 ≤ size`
(sizes below 2^31, the range of the `int` position counter) where the match search of
`prs_compress` ends with `lssize ≠ 0`, the loop pass at `x` emits
`prs_copy(lsoffset, lssize)`; `lsoffset = -(x - y0)` for a candidate `y0` of the window
(`1 ≤ y0 ≤ x - 3`, `x - y0 < 0x1FF0`) with `M(y0) = lssize`; and every candidate
`c ≤ x - 3` with `M(c) = lssize` lies at least as far away: `-lsoffset ≤ x - c`. Here
`M(y)` is the largest `L ≤ 255` such that `source[y..y+L) = source[x..x+L)`, `L = 3` or
`y + L < x`, and `x + L ≤ size`. -/
theorem prs_search_nearest (src : Mem) (size x : Nat) (pc : PRS_COMPRESSOR) (n : Nat)
    (_hs : size < 2147483648) (hx : x + 3 ≤ size) (h0 : (prs_search src size x).2 ≠ 0) :
    compress_loop src size (n + 1) x pc
      = compress_loop src size n (x + ((prs_search src size x).2 - 1) + 1)
          (prs_copy pc (prs_search src size x).1 (prs_search src size x).2)
    ∧ (∃ y0, 1 ≤ y0 ∧ y0 + 3 ≤ x ∧ x < y0 + 0x1FF0
        ∧ (prs_search src size x).1 = -((x : Int) - (y0 : Int))
        ∧ match_len src size x y0 = (prs_search src size x).2)
    ∧ ∀ c, c + 3 ≤ x → match_len src size x c = (prs_search src size x).2 →
        -(prs_search src size x).1 ≤ (x : Int) - (c : Int) := by
  have h := search_loop_nearest src size x (x - 3) 0 0 0 (by omega) (Or.inl rfl)
    (fun c h1 h2 => by omega) (fun c _ _ _ hne => absurd rfl hne)
  have hge : 3 ≤ (prs_search src size x).2 := by
    rcases prs_search_size src size x with hz | ⟨hz, _⟩
    · exact absurd hz h0
    · exact hz
  have hrel := fun c (hc : c + 3 ≤ x) => match_size_eq_match_len src size x c hx hc
  refine ⟨compress_loop_copy src size n x pc (by omega) h0, ?_, ?_⟩
  · obtain ⟨y0, g1, g2, g3, g4, g5⟩ := prs_search_candidate src size x h0
    refine ⟨y0, g1, g2, g3, g4, ?_⟩
    rw [hrel y0 g2] at g5
    by_cases h3 : 3 ≤ match_len src size x y0
    · rw [if_pos h3] at g5; exact g5
    · rw [if_neg h3] at g5; omega
  · intro c hc hm
    have hms : match_size src size x c = (prs_search src size x).2 := by
      rw [hrel c hc, if_pos (by omega), hm]
    exact h.2 c hc hms h0

set_option maxRecDepth 100000 in
/-- C8 on a crafted buffer: at `x = 15` of
`0 1 2 3 4 5 9 8 1 2 3 4 5 7 6 1 2 3 4 5 3` the candidates `y = 8` and `y = 1` both have
`M = 5`; the search ends with distance -7, the candidate `y = 1` lies farther away, and
the token bytes in the output carry `0xF9`. -/
theorem prs_search_nearest_witness :
    21 < 2147483648 ∧ 15 + 3 ≤ 21
    ∧ (prs_search (memOfList [0, 1, 2, 3, 4, 5, 9, 8, 1, 2, 3, 4, 5, 7, 6, 1, 2, 3, 4, 5, 3] 0) 21 15).2 ≠ 0
    ∧ prs_search (memOfList [0, 1, 2, 3, 4, 5, 9, 8, 1, 2, 3, 4, 5, 7, 6, 1, 2, 3, 4, 5, 3] 0) 21 15 = (-7, 5)
    ∧ match_len (memOfList [0, 1, 2, 3, 4, 5, 9, 8, 1, 2, 3, 4, 5, 7, 6, 1, 2, 3, 4, 5, 3] 0) 21 15 8 = 5
    ∧ match_len (memOfList [0, 1, 2, 3, 4, 5, 9, 8, 1, 2, 3, 4, 5, 7, 6, 1, 2, 3, 4, 5, 3] 0) 21 15 1 = 5
    ∧ -(prs_search (memOfList [0, 1, 2, 3, 4, 5, 9, 8, 1, 2, 3, 4, 5, 7, 6, 1, 2, 3, 4, 5, 3] 0) 21 15).1 ≤ (15 : Int) - (1 : Nat)
    ∧ prs_compress_bytes (memOfList [0, 1, 2, 3, 4, 5, 9, 8, 1, 2, 3, 4, 5, 7, 6, 1, 2, 3, 4, 5, 3] 0) (fun _ => 0) 21
        = [255, 0, 1, 2, 3, 4, 5, 9, 8, 60, 249, 7, 6, 23, 249, 3, 0, 0] :=
  ⟨by decide, by decide, by decide, by decide, by decide, by decide,
    (prs_search_nearest (memOfList [0, 1, 2, 3, 4, 5, 9, 8, 1, 2, 3, 4, 5, 7, 6, 1, 2, 3, 4, 5, 3] 0) 21 15
      (prs_init (fun _ => 0)) 0 (by decide) (by decide) (by decide)).2.2 1 (by decide)
      (by decide),
    by decide⟩

end Archon
